import Mathlib

/-!
Odd cycle transversal heuristics: a shallow embedding

The development follows `src/heuristics` of the repository:

* `Graph.cpp`      : the mutable adjacency-set graph with soft vertex deletion,
* `Heuristics.cpp` : `min_degree_ind_set`, `luby_ind_set` and the four
                     bipartite-construction heuristics,
* `Ensemble.cpp`   : the time-bounded round-robin scheduler `heuristic_solve`.

Conventions of the embedding.

* Vertex ids are natural numbers.  A `std::set<int>` is a list that is iterated
  front to back; `set_insert` keeps it ascending and duplicate free, `set_erase`
  deletes a key.
* The C library generator is a stream of the values that successive `rand()`
  calls return (`Rand`); `srand` maps a seed to such a stream and is a parameter.
* The floating point test `(double) rand() / RAND_MAX <= 1.0 / (2 * degree)` of
  `luby_ind_set` is a parameter `accept : rand value → degree → Bool`.
* `while` loops whose termination depends on the data carry a fuel argument and
  return `none` when it runs out; `rand() % 0` also yields `none`.
* The wall clock is the stream of the successive elapsed-millisecond readings.
-/

namespace OCT

/-! ## Sets of vertex ids (`std::set<int>`) -/

/-- The call `s.insert(x)` on a `std::set<int>`: no effect when `x` is present,
otherwise `x` is placed in ascending position. -/
def set_insert (s : List Nat) (x : Nat) : List Nat :=
  if x ∈ s then s else List.orderedInsert (fun a b => a ≤ b) x s

/-- The call `s.erase(x)` on a `std::set<int>`. -/
def set_erase (s : List Nat) (x : Nat) : List Nat :=
  s.filter (fun y => decide (y ≠ x))

/-! ## The random source -/

/-- The values that the coming calls of `rand()` return, in order. -/
abbrev Rand := Nat → Nat

/-- One call of `rand()`: the value drawn and the remaining stream. -/
def rand (s : Rand) : Nat × Rand := (s 0, fun i => s (i + 1))

/-! ## Graph (`Graph.hpp`, `Graph.cpp`) -/

/-- The three fields of `class Graph`. -/
structure Graph where
  num_vertices : Nat
  neighbors : List (List Nat)
  vertices_active : List Bool
deriving DecidableEq, Repr

namespace Graph

/-- The method `Graph::is_active`. -/
def is_active (g : Graph) (vertex : Nat) : Bool :=
  g.vertices_active.getD vertex false

/-- The method `Graph::get_neighbors`. -/
def get_neighbors (g : Graph) (vertex : Nat) : List Nat :=
  g.neighbors.getD vertex []

/-- The method `Graph::get_degree`. -/
def get_degree (g : Graph) (vertex : Nat) : Nat :=
  (g.neighbors.getD vertex []).length

/-- The method `Graph::get_num_vertices`. -/
def get_num_vertices (g : Graph) : Nat := g.num_vertices

/-- The method `Graph::has_edge`. -/
def has_edge (g : Graph) (vertex_1 vertex_2 : Nat) : Bool :=
  decide (vertex_2 ∈ g.neighbors.getD vertex_1 [])

/-- The method `Graph::add_edge`, for ids below `num_vertices`; on any other id
`neighbors.at` throws, a case the model does not follow (it leaves the set of
such an id alone), so the theorems apply the method to ids in range only. -/
def add_edge (g : Graph) (vertex_1 vertex_2 : Nat) : Graph :=
  let nb1 := g.neighbors.modify (fun s => set_insert s vertex_2) vertex_1
  let nb2 := nb1.modify (fun s => set_insert s vertex_1) vertex_2
  { g with neighbors := nb2 }

/-- The method `Graph::remove_edge`, for ids below `num_vertices`; on any other id
`neighbors.at` throws, a case the model does not follow (it leaves the set of
such an id alone), so the theorems apply the method to ids in range only. -/
def remove_edge (g : Graph) (vertex_1 vertex_2 : Nat) : Graph :=
  let nb1 := g.neighbors.modify (fun s => set_erase s vertex_2) vertex_1
  let nb2 := nb1.modify (fun s => set_erase s vertex_1) vertex_2
  { g with neighbors := nb2 }

/-- The method `Graph::remove_vertex`: nothing happens on an inactive vertex; otherwise the
vertex is erased from the set of each of its neighbours, its own set is left as
it is, and it is marked inactive. The loop runs over the neighbour set as it is
on entry: with a self-loop at an active `vertex` the C++ loop erases from the
set it iterates, which has no defined result, so the model follows the method
only where `vertex` has no self-loop. -/
def remove_vertex (g : Graph) (vertex : Nat) : Graph :=
  if g.is_active vertex = false then g
  else
    { g with
      neighbors :=
        (g.get_neighbors vertex).foldl
          (fun nbs neighbor => nbs.modify (fun s => set_erase s vertex) neighbor)
          g.neighbors
      vertices_active := g.vertices_active.set vertex false }

/-- The method `Graph::get_num_edges`. -/
def get_num_edges (g : Graph) : Nat :=
  ((List.range g.num_vertices).foldl
    (fun result vertex => result + (g.neighbors.getD vertex []).length) 0) / 2

/-- One pass of the scan of `Graph::get_min_degree_vertices` over vertex `i`;
the state is `(result, min_degree)`. -/
def min_degree_step (g : Graph) (st : List Nat × Nat) (i : Nat) : List Nat × Nat :=
  if g.is_active i then
    let degree := (g.neighbors.getD i []).length
    if degree < st.2 then ([i], degree)
    else if degree = st.2 then (st.1 ++ [i], st.2)
    else st
  else st

/-- The method `Graph::get_min_degree_vertices`: `result` starts as `num_vertices` zeros
(`result.resize(num_vertices)`) and `min_degree` as `num_vertices`. -/
def get_min_degree_vertices (g : Graph) : List Nat :=
  ((List.range g.num_vertices).foldl (min_degree_step g)
    (List.replicate g.num_vertices 0, g.num_vertices)).1

/-- The method `Graph::get_vertices`: the active vertex ids in ascending order. -/
def get_vertices (g : Graph) : List Nat :=
  (List.range g.get_num_vertices).foldl
    (fun vertices i => if g.is_active i then vertices ++ [i] else vertices) []

end Graph

/-- The graph built by the file constructor of `Graph`: `n` vertices, all
active, and one `add_edge` per pair of the edge list. -/
def Graph.of_edges (n : Nat) (edges : List (Nat × Nat)) : Graph :=
  edges.foldl (fun g e => g.add_edge e.1 e.2)
    { num_vertices := n
      neighbors := List.replicate n []
      vertices_active := List.replicate n true }

/-! ## Independent-set heuristics (`Heuristics.cpp`) -/

/-- The set of the currently unused vertices with which both independent-set
heuristics start: every active vertex id, inserted in ascending order. -/
def active_set (g : Graph) : List Nat :=
  (List.range g.get_num_vertices).foldl
    (fun vertices vertex => if g.is_active vertex then set_insert vertices vertex else vertices) []

/-- The block "remove this vertex and its neighbors" shared by
`min_degree_ind_set` and `luby_ind_set`: the neighbour set is read first, then
the vertex and each of those neighbours is removed from the graph and erased
from `vertices`. -/
def remove_closed (st : Graph × List Nat) (vertex : Nat) : Graph × List Nat :=
  let neighbors := st.1.get_neighbors vertex
  neighbors.foldl
    (fun s neighbor => (s.1.remove_vertex neighbor, set_erase s.2 neighbor))
    (st.1.remove_vertex vertex, set_erase st.2 vertex)

/-- The `while (vertices.size() > 0)` loop of `min_degree_ind_set`. -/
def min_degree_loop : Nat → Graph → List Nat → Rand → List Nat → Option (List Nat × Rand)
  | 0, _, vertices, rnd, result =>
      if vertices.length > 0 then none else some (result, rnd)
  | fuel + 1, graph, vertices, rnd, result =>
      if vertices.length > 0 then
        let min_degree_vertices := graph.get_min_degree_vertices
        if min_degree_vertices.length = 0 then none
        else
          let random_index := (rand rnd).1 % min_degree_vertices.length
          let chosen_vertex := min_degree_vertices.getD random_index 0
          let st := remove_closed (graph, vertices) chosen_vertex
          min_degree_loop fuel st.1 st.2 (rand rnd).2 (result ++ [chosen_vertex])
      else some (result, rnd)

/-- The function `min_degree_ind_set`. -/
def min_degree_ind_set (fuel : Nat) (graph : Graph) (rnd : Rand) : Option (List Nat × Rand) :=
  min_degree_loop fuel graph (active_set graph) rnd []

/-- The loop `for (int vertex : ind_set1) graph2.remove_vertex(vertex)`. -/
def remove_all (graph : Graph) (vs : List Nat) : Graph :=
  vs.foldl (fun g vertex => g.remove_vertex vertex) graph

/-- The function `greedy_bipartite`: the generator is reseeded, the first independent set is
taken on one copy, removed from the second copy, the second set is taken there
and placed in front of the first. -/
def greedy_bipartite (srand : Nat → Rand) (fuel : Nat) (graph : Graph) (seed : Nat)
    (_prior : Rand) : Option (List Nat × Rand) :=
  match min_degree_ind_set fuel graph (srand seed) with
  | none => none
  | some (ind_set1, rnd1) =>
    match min_degree_ind_set fuel (remove_all graph ind_set1) rnd1 with
    | none => none
    | some (ind_set2, rnd2) => some (ind_set2 ++ ind_set1, rnd2)

/-- The tentative selection loop of `luby_ind_set` over `vertices`: a vertex of
degree 0 is marked without a draw, any other vertex draws once and is marked
when the comparison `accept` succeeds. -/
def luby_select (accept : Nat → Nat → Bool) (graph : Graph) :
    List Nat → Rand → List Nat → List Nat × Rand
  | [], rnd, initial_chosen => (initial_chosen, rnd)
  | vertex :: rest, rnd, initial_chosen =>
      if graph.get_degree vertex = 0 then
        luby_select accept graph rest rnd (set_insert initial_chosen vertex)
      else if accept (rand rnd).1 (graph.get_degree vertex) then
        luby_select accept graph rest (rand rnd).2 (set_insert initial_chosen vertex)
      else
        luby_select accept graph rest (rand rnd).2 initial_chosen

/-- The condition under which `neighbor` makes `vertex` lose in the conflict
resolution of `luby_ind_set`. -/
def luby_conflict (graph : Graph) (initial_chosen chosen : List Nat) (vertex neighbor : Nat) :
    Bool :=
  decide (neighbor ∈ initial_chosen) &&
    (decide (neighbor ∈ chosen) ||
      decide (graph.get_degree vertex < graph.get_degree neighbor))

/-- The conflict resolution loop of `luby_ind_set` over the tentative set. -/
def luby_resolve (graph : Graph) (initial_chosen : List Nat) : List Nat → List Nat → List Nat
  | [], chosen => chosen
  | vertex :: rest, chosen =>
      let neighbors := graph.get_neighbors vertex
      let keep := !(neighbors.any (luby_conflict graph initial_chosen chosen vertex))
      luby_resolve graph initial_chosen rest (if keep then set_insert chosen vertex else chosen)

/-- The commit loop of `luby_ind_set` over the confirmed set. -/
def luby_commit : List Nat → Graph × List Nat → List Nat → (Graph × List Nat) × List Nat
  | [], st, result => (st, result)
  | vertex :: rest, st, result =>
      luby_commit rest (remove_closed st vertex) (result ++ [vertex])

/-- The `while (vertices.size() > 0)` loop of `luby_ind_set`; one unit of fuel
per round. -/
def luby_loop (accept : Nat → Nat → Bool) :
    Nat → Graph → List Nat → Rand → List Nat → Option (List Nat × Rand)
  | 0, _, vertices, rnd, result =>
      if vertices.length > 0 then none else some (result, rnd)
  | fuel + 1, graph, vertices, rnd, result =>
      if vertices.length > 0 then
        let sel := luby_select accept graph vertices rnd []
        let chosen := luby_resolve graph sel.1 sel.1 []
        let st := luby_commit chosen (graph, vertices) result
        luby_loop accept fuel st.1.1 st.1.2 sel.2 st.2
      else some (result, rnd)

/-- The function `luby_ind_set(graph, result)`: the vertices are appended to `result`. -/
def luby_ind_set (accept : Nat → Nat → Bool) (fuel : Nat) (graph : Graph) (result : List Nat)
    (rnd : Rand) : Option (List Nat × Rand) :=
  luby_loop accept fuel graph (active_set graph) rnd result

/-- The function `greedy_stochastic`. -/
def greedy_stochastic (srand : Nat → Rand) (accept : Nat → Nat → Bool) (fuel : Nat)
    (graph : Graph) (seed : Nat) (_prior : Rand) : Option (List Nat × Rand) :=
  match luby_ind_set accept fuel graph [] (srand seed) with
  | none => none
  | some (ind_set1, rnd1) =>
    match luby_ind_set accept fuel (remove_all graph ind_set1) [] rnd1 with
    | none => none
    | some (ind_set2, rnd2) => some (ind_set2 ++ ind_set1, rnd2)

/-! ## Greedy two-colouring traversals (`Heuristics.cpp`) -/

/-- The map `colors` (`std::unordered_map<int, int>`): a missing key reads 0. -/
abbrev Colors := Nat → Nat

/-- The assignment `colors[vertex] = c`. -/
def set_color (colors : Colors) (vertex c : Nat) : Colors :=
  fun u => if u = vertex then c else colors u

/-- The colouring of one visited vertex: colour 1 when no neighbour has it,
else colour 2 when no neighbour has it, else the vertex is removed from the
graph and keeps colour 0. -/
def color_vertex (graph : Graph) (colors : Colors) (vertex : Nat) : Graph × Colors :=
  let neighbors := graph.get_neighbors vertex
  let neighbor_colored_1 := neighbors.any (fun n => decide (colors n = 1))
  let neighbor_colored_2 := neighbors.any (fun n => decide (colors n = 2))
  if neighbor_colored_1 = false then (graph, set_color colors vertex 1)
  else if neighbor_colored_2 = false then (graph, set_color colors vertex 2)
  else (graph.remove_vertex vertex, colors)

/-- The state of a traversal: the private graph copy, the colours and the set
of the vertices not visited yet. -/
structure Traversal where
  graph : Graph
  colors : Colors
  not_visited : List Nat

/-- The inner loop `while (vertices.size())` of `greedy_dfs_bipartite` and
`greedy_bfs_bipartite`.  The container `vertices` is a list whose head is the
element that `top()` / `front()` reads and `pop()` drops; `push` is the
container's `push` (in front for the stack, at the back for the queue). -/
def component_loop (push : List Nat → Nat → List Nat) :
    Nat → Traversal → List Nat → Option Traversal
  | _, t, [] => some t
  | 0, _, _ :: _ => none
  | fuel + 1, t, vertex :: vertices =>
      if vertex ∈ t.not_visited then
        let not_visited := set_erase t.not_visited vertex
        let neighbors := t.graph.get_neighbors vertex
        let st := color_vertex t.graph t.colors vertex
        let vertices1 :=
          neighbors.foldl (fun vs n => if n ∈ not_visited then push vs n else vs) vertices
        component_loop push fuel
          { graph := st.1, colors := st.2, not_visited := not_visited } vertices1
      else
        component_loop push fuel t vertices

/-- The outer loop `while (not_visited.size())`: a random unvisited root, then
the traversal of what is reachable from it. -/
def traversal_loop (push : List Nat → Nat → List Nat) (inner_fuel : Nat) :
    Nat → Traversal → Rand → Option (Traversal × Rand)
  | 0, t, rnd =>
      if t.not_visited.length = 0 then some (t, rnd) else none
  | fuel + 1, t, rnd =>
      if t.not_visited.length = 0 then some (t, rnd)
      else
        let idx := (rand rnd).1 % t.not_visited.length
        let root := t.not_visited.getD idx 0
        match component_loop push inner_fuel t (push [] root) with
        | none => none
        | some t1 => traversal_loop push inner_fuel fuel t1 (rand rnd).2

/-- The state with which both traversals start: a copy of the input graph,
every colour 0, every vertex id not visited. -/
def traversal_init (graph : Graph) : Traversal :=
  { graph := graph
    colors := fun _ => 0
    not_visited :=
      (List.range graph.get_num_vertices).foldl (fun s i => set_insert s i) [] }

/-- The library call `std::stack::push`, the top being the head of the list. -/
def stack_push (vertices : List Nat) (n : Nat) : List Nat := n :: vertices

/-- The library call `std::queue::push`, the front being the head of the list. -/
def queue_push (vertices : List Nat) (n : Nat) : List Nat := vertices ++ [n]

/-- The final state of `greedy_dfs_bipartite` before `get_vertices` is read. -/
def greedy_dfs_run (srand : Nat → Rand) (fuel : Nat) (graph : Graph) (seed : Nat)
    (_prior : Rand) : Option (Traversal × Rand) :=
  traversal_loop stack_push fuel fuel (traversal_init graph) (srand seed)

/-- The function `greedy_dfs_bipartite`. -/
def greedy_dfs_bipartite (srand : Nat → Rand) (fuel : Nat) (graph : Graph) (seed : Nat)
    (prior : Rand) : Option (List Nat × Rand) :=
  (greedy_dfs_run srand fuel graph seed prior).map (fun r => (r.1.graph.get_vertices, r.2))

/-- The final state of `greedy_bfs_bipartite` before `get_vertices` is read. -/
def greedy_bfs_run (srand : Nat → Rand) (fuel : Nat) (graph : Graph) (seed : Nat)
    (_prior : Rand) : Option (Traversal × Rand) :=
  traversal_loop queue_push fuel fuel (traversal_init graph) (srand seed)

/-- The function `greedy_bfs_bipartite`. -/
def greedy_bfs_bipartite (srand : Nat → Rand) (fuel : Nat) (graph : Graph) (seed : Nat)
    (prior : Rand) : Option (List Nat × Rand) :=
  (greedy_bfs_run srand fuel graph seed prior).map (fun r => (r.1.graph.get_vertices, r.2))

/-! ## Ensemble scheduler (`Ensemble.cpp`) -/

/-- The type of the four heuristics: fuel, graph, seed and the state of the
global generator on entry; the candidate subset and the state on exit.  The seed
is the value of the counter `seed` of the scheduler; what its conversion to the
`int` parameter and to the argument of `srand` makes of it is part of the
parameter `srand`. -/
abbrev Solver := Nat → Graph → Nat → Rand → Option (List Nat × Rand)

/-- The list `solvers` of `heuristic_solve`. -/
def solvers (srand : Nat → Rand) (accept : Nat → Nat → Bool) : List Solver :=
  [greedy_bipartite srand, greedy_stochastic srand accept,
   greedy_dfs_bipartite srand, greedy_bfs_bipartite srand]

/-- The inner scan of `std::set_difference` for a fixed head `a` of the first
range: elements of the second range below `a` are skipped. -/
def set_difference_aux (a : Nat) (rest : List Nat → List Nat) : List Nat → List Nat
  | [] => a :: rest []
  | b :: bs =>
      if a < b then a :: rest (b :: bs)
      else if b < a then set_difference_aux a rest bs
      else rest bs

/-- The library call `std::set_difference` on two ascending ranges. -/
def set_difference : List Nat → List Nat → List Nat
  | [], _ => []
  | a :: as, bs => set_difference_aux a (set_difference as) bs

/-- The local variables of `heuristic_solve`.  `totalTime` is `none` while the C++
variable is uninitialised; `tick` counts the clock readings made so far; `rnd`
is the state of the global generator; `tried` records the candidates returned
so far, in order (it is not a variable of the program). -/
structure Ensemble where
  idx : Nat
  seed : Nat
  best : List Nat
  totalTime : Option Int
  tick : Nat
  rnd : Rand
  tried : List (List Nat)

/-- The `while` loop of `heuristic_solve`; `elapsed k` is the `k`-th reading of
the milliseconds since `start`. -/
def solve_loop (solvers : List Solver) (hfuel : Nat) (graph : Graph) (timeout : Int)
    (elapsed : Nat → Int) : Nat → Ensemble → Option Ensemble
  | 0, s => if elapsed s.tick < timeout then none else some s
  | fuel + 1, s =>
      if elapsed s.tick < timeout then
        match solvers[s.idx]? with
        | none => none
        | some solver =>
          match solver hfuel graph s.seed s.rnd with
          | none => none
          | some (result, rnd1) =>
            if result.length > s.best.length then
              solve_loop solvers hfuel graph timeout elapsed fuel
                { idx := (s.idx + 1) % solvers.length
                  seed := s.seed + 1
                  best := result
                  totalTime := some (elapsed (s.tick + 1))
                  tick := s.tick + 2
                  rnd := rnd1
                  tried := s.tried ++ [result] }
            else
              solve_loop solvers hfuel graph timeout elapsed fuel
                { idx := (s.idx + 1) % solvers.length
                  seed := s.seed + 1
                  best := s.best
                  totalTime := s.totalTime
                  tick := s.tick + 1
                  rnd := rnd1
                  tried := s.tried ++ [result] }
      else some s

/-- The state with which the loop of `heuristic_solve` starts. -/
def solve_init (prior : Rand) : Ensemble :=
  { idx := 0, seed := 0, best := [], totalTime := none, tick := 0, rnd := prior, tried := [] }

/-- The part of `heuristic_solve` after the loop: the vertex range, the sorted
best candidate and their `set_difference`. -/
def oct_of (graph : Graph) (best : List Nat) : List Nat :=
  set_difference (List.range graph.get_num_vertices) (List.insertionSort (fun a b => a ≤ b) best)

/-- The method `EnsembleSolver::heuristic_solve` over an arbitrary list of solvers. -/
def heuristic_solve_with (solvers : List Solver) (hfuel fuel : Nat) (graph : Graph)
    (timeout : Int) (elapsed : Nat → Int) (prior : Rand) : Option (List Nat × Option Int) :=
  (solve_loop solvers hfuel graph timeout elapsed fuel (solve_init prior)).map
    (fun s => (oct_of graph s.best, s.totalTime))

/-- The method `EnsembleSolver::heuristic_solve`. -/
def heuristic_solve (srand : Nat → Rand) (accept : Nat → Nat → Bool) (hfuel fuel : Nat)
    (graph : Graph) (timeout : Int) (elapsed : Nat → Int) (prior : Rand) :
    Option (List Nat × Option Int) :=
  heuristic_solve_with (solvers srand accept) hfuel fuel graph timeout elapsed prior

/-! ## Notions used in the statements -/

/-- The two vectors of the graph have `num_vertices` entries, and every active
vertex has a duplicate-free neighbour set that holds only active vertices, not
the vertex itself, and is symmetric: the adjacency of the active part is that of
a simple undirected graph. -/
def Graph.ActiveWF (g : Graph) : Prop :=
  g.neighbors.length = g.num_vertices ∧ g.vertices_active.length = g.num_vertices ∧
  ∀ u, u < g.num_vertices → g.is_active u = true →
    (g.get_neighbors u).Nodup ∧
    ∀ w ∈ g.get_neighbors u, w ≠ u ∧ g.is_active w = true ∧ u ∈ g.get_neighbors w

instance (g : Graph) : Decidable g.ActiveWF := by
  unfold Graph.ActiveWF; infer_instance

/-- Every vertex id below `num_vertices` is active. -/
def Graph.AllActive (g : Graph) : Prop :=
  ∀ u, u < g.num_vertices → g.is_active u = true

instance (g : Graph) : Decidable g.AllActive := by
  unfold Graph.AllActive; infer_instance

/-- No two members of `s` are adjacent in `g`. -/
def Independent (g : Graph) (s : List Nat) : Prop :=
  ∀ a ∈ s, ∀ b ∈ s, b ∉ g.get_neighbors a

/-- The list `s` is a maximal independent set of the subgraph of `g` induced on
its active vertices: its members are active, pairwise non-adjacent, and every
active vertex is a member or adjacent to one. -/
def MaximalIndependent (g : Graph) (s : List Nat) : Prop :=
  (∀ a ∈ s, g.is_active a = true) ∧ Independent g s ∧
  ∀ u, g.is_active u = true → u ∈ s ∨ ∃ r ∈ s, u ∈ g.get_neighbors r

/-- The subgraph of `g` induced on the vertices in `keep` is bipartite: some
2-colouring gives the two ends of every edge inside `keep` different colours. -/
def InducesBipartite (g : Graph) (keep : Nat → Prop) : Prop :=
  ∃ c : Nat → Bool, ∀ u v, keep u → keep v → v ∈ g.get_neighbors u → c u ≠ c v

/-- The graph `g` is the subgraph of `g0` induced on the active vertices of `g`:
same size, active vertices of `g` are active in `g0`, and the neighbour set of
an active vertex of `g` holds exactly its `g0`-neighbours that are active in `g`. -/
structure Induced (g0 g : Graph) : Prop where
  num : g.num_vertices = g0.num_vertices
  len_nb : g.neighbors.length = g.num_vertices
  len_act : g.vertices_active.length = g.num_vertices
  sub : ∀ u, g.is_active u = true → g0.is_active u = true
  nb : ∀ u, g.is_active u = true →
    ∀ w, w ∈ g.get_neighbors u ↔ (w ∈ g0.get_neighbors u ∧ g.is_active w = true)
  nodup : ∀ u, g.is_active u = true → (g.get_neighbors u).Nodup

/-- The loop invariant of both independent-set heuristics, relative to the
graph `g0` on entry: the current graph is an induced subgraph of `g0`,
`vertices` lists its active vertices, and `result` is an independent set of
`g0` that has no neighbour among the active vertices and dominates every
vertex removed so far. -/
structure MISInv (g0 g : Graph) (vertices result : List Nat) : Prop where
  ind : Induced g0 g
  verts : ∀ u, u ∈ vertices ↔ g.is_active u = true
  res_act : ∀ r ∈ result, g0.is_active r = true
  res_gone : ∀ r ∈ result, g.is_active r = false
  indep : Independent g0 result
  away : ∀ u, g.is_active u = true → ∀ r ∈ result, u ∉ g0.get_neighbors r
  cover : ∀ u, g0.is_active u = true → g.is_active u = false →
    u ∈ result ∨ ∃ r ∈ result, u ∈ g0.get_neighbors r
  nodup : result.Nodup

/-- The state of the scan of `get_min_degree_vertices` holds a non-empty list of
active vertices. -/
def ScanGood (g : Graph) (st : List Nat × Nat) : Prop :=
  st.1 ≠ [] ∧ ∀ x ∈ st.1, g.is_active x = true

/-- The invariant of the two-colouring traversals, relative to the input graph
`g0`: the private copy is an induced subgraph of `g0`; unvisited vertices are
active and uncoloured; colours are 0, 1 or 2; a coloured vertex is active; an
active visited vertex is coloured; and no edge of `g0` joins two vertices that
carry the same colour 1 or 2. -/
structure TravInv (g0 : Graph) (t : Traversal) : Prop where
  ind : Induced g0 t.graph
  nv_act : ∀ v ∈ t.not_visited, t.graph.is_active v = true
  nv_col : ∀ v ∈ t.not_visited, t.colors v = 0
  col_range : ∀ v, t.colors v = 0 ∨ t.colors v = 1 ∨ t.colors v = 2
  col_act : ∀ v, t.colors v ≠ 0 → t.graph.is_active v = true
  act_col : ∀ v, t.graph.is_active v = true → v ∉ t.not_visited → t.colors v ≠ 0
  proper : ∀ u v, t.colors u ≠ 0 → t.colors v ≠ 0 → v ∈ g0.get_neighbors u →
    t.colors u ≠ t.colors v

/-- The list `best` is the first candidate of maximal size among `tried`: either
every candidate tried so far is empty and so is `best` (this covers the case in
which nothing was tried), or `best` occurs in `tried`, everything before that
occurrence is strictly shorter and nothing after it is longer. -/
def FirstMax (tried : List (List Nat)) (best : List Nat) : Prop :=
  (best = [] ∧ ∀ c ∈ tried, c = []) ∨
  ∃ pre post, tried = pre ++ best :: post ∧
    (∀ c ∈ pre, c.length < best.length) ∧ (∀ c ∈ post, c.length ≤ best.length)

/-- What the final state `t` of a traversal of `g` has to satisfy: the vertices
returned (`get_vertices` of the private copy) are exactly those with colour 1
or 2, every other vertex has colour 0, and no edge of `g` joins two returned
vertices of the same colour. -/
def ColoredResult (g : Graph) (t : Traversal) : Prop :=
  (∀ v, v ∈ t.graph.get_vertices ↔ (t.colors v = 1 ∨ t.colors v = 2)) ∧
  (∀ v, v ∉ t.graph.get_vertices → t.colors v = 0) ∧
  (∀ u ∈ t.graph.get_vertices, ∀ v ∈ t.graph.get_vertices,
    v ∈ g.get_neighbors u → t.colors u ≠ t.colors v)

/-! ## Concrete inputs used to instantiate the theorems -/

/-- The triangle on the vertices 0, 1, 2. -/
def triangle : Graph := Graph.of_edges 3 [(0, 1), (1, 2), (2, 0)]

/-- A seeding function: seed `s` yields the values `s, s + 1, s + 2, ...`. -/
def demo_srand : Nat → Rand := fun seed i => seed + i

/-- A selection test: the draw `r` succeeds for degree `d` when `2 * d` divides `r`. -/
def demo_accept : Nat → Nat → Bool := fun r d => decide (r % (2 * d) = 0)

/-! ## Further notions used in the statements -/

/-- The two vectors of the graph have `num_vertices` entries, and the neighbour
set of every active vertex is duplicate free, holds only ids below
`num_vertices` and does not hold the vertex itself (no self-loop).  Nothing is
asked of symmetry or of the sets of inactive vertices. -/
def Graph.SimpleActive (g : Graph) : Prop :=
  g.neighbors.length = g.num_vertices ∧ g.vertices_active.length = g.num_vertices ∧
  ∀ u, u < g.num_vertices → g.is_active u = true →
    (g.get_neighbors u).Nodup ∧ ∀ w ∈ g.get_neighbors u, w < g.num_vertices ∧ w ≠ u

instance (g : Graph) : Decidable g.SimpleActive := by
  unfold Graph.SimpleActive; infer_instance

/-- The state `(result, min_degree)` of the scan of `get_min_degree_vertices`
after the vertices of `P`, once an active vertex has been met: `min_degree` is
the least degree of the active vertices of `P` and `result` lists, in the order
of `P`, the active vertices of `P` that have this degree. -/
def ScanMin (g : Graph) (P : List Nat) (st : List Nat × Nat) : Prop :=
  (∃ u ∈ P, g.is_active u = true ∧ g.get_degree u = st.2) ∧
  (∀ u ∈ P, g.is_active u = true → st.2 ≤ g.get_degree u) ∧
  st.1 = P.filter (fun v => g.is_active v && decide (g.get_degree v = st.2))

/-- The adjacency of the active part is closed and symmetric: the neighbour set
of an active vertex holds only active vertices, and for active `u`, `v` the
vertex `v` is in the set of `u` exactly when `u` is in the set of `v`. -/
def Graph.SymActive (g : Graph) : Prop :=
  (∀ u, g.is_active u = true → ∀ w ∈ g.get_neighbors u, g.is_active w = true) ∧
  (∀ u v, g.is_active u = true → g.is_active v = true →
    (v ∈ g.get_neighbors u ↔ u ∈ g.get_neighbors v))

/-- The states that the three mutating operations produce from the graph with `n`
vertices, all active, and no edge, each operation being applied where the C++
method has a defined result: `add_edge` and `remove_edge` to ids below `n`
(`neighbors.at` throws on any other id), `remove_vertex` to an id below `n`
that, when active, has no self-loop (with a self-loop the loop of the method
erases from the set it iterates). -/
inductive Reachable (n : Nat) : Graph → Prop where
  | fresh : Reachable n (Graph.of_edges n [])
  | add_edge (g : Graph) (u v : Nat) :
      Reachable n g → u < n → v < n → Reachable n (g.add_edge u v)
  | remove_edge (g : Graph) (u v : Nat) :
      Reachable n g → u < n → v < n → Reachable n (g.remove_edge u v)
  | remove_vertex (g : Graph) (v : Nat) :
      Reachable n g → v < n → (g.is_active v = true → v ∉ g.get_neighbors v) →
      Reachable n (g.remove_vertex v)

/-- One pass of the body of the `while` loop of `min_degree_ind_set` when `rand()`
returns `r`: the chosen vertex, and the graph and the set `vertices` after the
removal of the vertex and of its neighbours. -/
def min_degree_body (graph : Graph) (vertices : List Nat) (r : Nat) :
    Nat × (Graph × List Nat) :=
  let min_degree_vertices := graph.get_min_degree_vertices
  let random_index := r % min_degree_vertices.length
  let chosen_vertex := min_degree_vertices.getD random_index 0
  (chosen_vertex, remove_closed (graph, vertices) chosen_vertex)

/-- Every vertex of `g0` that the traversal has removed from its private copy
has a `g0`-neighbour of colour 1 and a `g0`-neighbour of colour 2. -/
def EvictInv (g0 : Graph) (t : Traversal) : Prop :=
  ∀ v, g0.is_active v = true → t.graph.is_active v = false →
    ∃ a b, a ∈ g0.get_neighbors v ∧ b ∈ g0.get_neighbors v ∧ t.colors a = 1 ∧ t.colors b = 2

/-- The graph `g` is complete bipartite for the sides given by `side`: two
vertex ids below `num_vertices` are adjacent exactly when they lie on different
sides (one side may be empty, so a graph without edges is of this kind). -/
def CompleteBipartite (g : Graph) (side : Nat → Bool) : Prop :=
  ∀ u, u < g.num_vertices → ∀ w, w < g.num_vertices →
    (w ∈ g.get_neighbors u ↔ side u ≠ side w)

instance (g : Graph) (side : Nat → Bool) : Decidable (CompleteBipartite g side) := by
  unfold CompleteBipartite; infer_instance

/-- The invariant of a traversal of a complete bipartite graph `g`: the private
copy is still `g` (nothing was removed), and either no vertex is coloured, or
some vertex `r` has colour 1 and every coloured vertex has colour 1 on the side
of `r` and colour 2 on the other side. -/
def SideInv (g : Graph) (side : Nat → Bool) (t : Traversal) : Prop :=
  t.graph = g ∧
  ((∀ u, t.colors u = 0) ∨
    ∃ r, r < g.num_vertices ∧ t.colors r = 1 ∧
      ∀ u, t.colors u ≠ 0 → t.colors u = if side u = side r then 1 else 2)

/-- The cycle on the vertices 0, 1, 2, 3. -/
def cycle4 : Graph := Graph.of_edges 4 [(0, 1), (1, 2), (2, 3), (3, 0)]

/-! ## Rounds of `luby_ind_set` -/

/-- The tentative set `initial_chosen_vertices` of the round of `luby_ind_set`
that starts with graph `graph`, set `vertices` and generator state `rnd`. -/
def luby_tentative (accept : Nat → Nat → Bool) (graph : Graph) (vertices : List Nat)
    (rnd : Rand) : List Nat :=
  (luby_select accept graph vertices rnd []).1

/-- The confirmed set `chosen_vertices` of that round. -/
def luby_confirmed (accept : Nat → Nat → Bool) (graph : Graph) (vertices : List Nat)
    (rnd : Rand) : List Nat :=
  luby_resolve graph (luby_tentative accept graph vertices rnd)
    (luby_tentative accept graph vertices rnd) []

/-- One pass of the body of the `while` loop of `luby_ind_set` (a round): the
graph and the set `vertices` after the commit of the confirmed set. -/
def luby_round (accept : Nat → Nat → Bool) (graph : Graph) (vertices : List Nat)
    (rnd : Rand) : Graph × List Nat :=
  (luby_commit (luby_confirmed accept graph vertices rnd) (graph, vertices) []).1

/-- The graph with the single edge 0-1. -/
def single_edge : Graph := Graph.of_edges 2 [(0, 1)]

/-- The acceptance test of `luby_ind_set` on the value `r` of `rand()` and the
degree `d`, `(double) r / RAND_MAX <= 1.0 / (2 * d)`, read over the exact
rationals with `RAND_MAX = 2147483647`. -/
def ratio_accept (r d : Nat) : Bool := decide (2 * d * r ≤ 2147483647)

/-! ## The reads of `get_neighbors` and `get_degree`

Each function below follows the control flow of one loop of `Heuristics.cpp`
and lists, in the order of the calls, the argument of every call of
`get_neighbors` or `get_degree` together with the value `is_active` has for
that argument in the graph as it is at the moment of the call. Running out of
fuel ends the list. -/

/-- The reads of the loop of `min_degree_ind_set`: `get_neighbors(chosen_vertex)`
in each pass, before the removals of that pass. -/
def min_degree_reads : Nat → Graph → List Nat → Rand → List (Nat × Bool)
  | 0, _, _, _ => []
  | fuel + 1, graph, vertices, rnd =>
      if vertices.length > 0 then
        let min_degree_vertices := graph.get_min_degree_vertices
        if min_degree_vertices.length = 0 then []
        else
          let random_index := (rand rnd).1 % min_degree_vertices.length
          let chosen_vertex := min_degree_vertices.getD random_index 0
          let st := remove_closed (graph, vertices) chosen_vertex
          (chosen_vertex, graph.is_active chosen_vertex) ::
            min_degree_reads fuel st.1 st.2 (rand rnd).2
      else []

/-- The reads of `min_degree_ind_set`. -/
def min_degree_ind_set_reads (fuel : Nat) (graph : Graph) (rnd : Rand) : List (Nat × Bool) :=
  min_degree_reads fuel graph (active_set graph) rnd

/-- The reads of the selection loop of `luby_ind_set`: `get_degree(*vertex)` for
every member of `vertices`, and once more in the acceptance test when the
degree is not 0. -/
def luby_select_reads (graph : Graph) (vertices : List Nat) : List (Nat × Bool) :=
  vertices.flatMap (fun vertex =>
    if graph.get_degree vertex = 0 then [(vertex, graph.is_active vertex)]
    else [(vertex, graph.is_active vertex), (vertex, graph.is_active vertex)])

/-- The reads of the loop over the neighbours of `vertex` in the conflict
resolution: for a neighbour that is in the tentative set and not yet confirmed,
`get_degree(*vertex)` and `get_degree(*neighbor)`; the loop ends at the first
conflict. -/
def luby_conflict_reads (graph : Graph) (initial_chosen chosen : List Nat) (vertex : Nat) :
    List Nat → List (Nat × Bool)
  | [] => []
  | neighbor :: rest =>
      if neighbor ∈ initial_chosen then
        if neighbor ∈ chosen then []
        else
          (vertex, graph.is_active vertex) :: (neighbor, graph.is_active neighbor) ::
            (if graph.get_degree vertex < graph.get_degree neighbor then []
             else luby_conflict_reads graph initial_chosen chosen vertex rest)
      else luby_conflict_reads graph initial_chosen chosen vertex rest

/-- The reads of the conflict resolution of `luby_ind_set`:
`get_neighbors(*vertex)` for every tentative vertex, then the reads of the loop
over its neighbours. -/
def luby_resolve_reads (graph : Graph) (initial_chosen : List Nat) :
    List Nat → List Nat → List (Nat × Bool)
  | [], _ => []
  | vertex :: rest, chosen =>
      let neighbors := graph.get_neighbors vertex
      let keep := !(neighbors.any (luby_conflict graph initial_chosen chosen vertex))
      (vertex, graph.is_active vertex) ::
        (luby_conflict_reads graph initial_chosen chosen vertex neighbors ++
          luby_resolve_reads graph initial_chosen rest
            (if keep then set_insert chosen vertex else chosen))

/-- The reads of the commit loop of `luby_ind_set`: `get_neighbors(*vertex)` for
every confirmed vertex, in the graph as the commits before it left it. -/
def luby_commit_reads : List Nat → Graph × List Nat → List (Nat × Bool)
  | [], _ => []
  | vertex :: rest, st =>
      (vertex, st.1.is_active vertex) :: luby_commit_reads rest (remove_closed st vertex)

/-- The reads of the loop of `luby_ind_set`, round after round; the vector
`result` is only appended to, so it is left out of the state. -/
def luby_reads (accept : Nat → Nat → Bool) : Nat → Graph → List Nat → Rand → List (Nat × Bool)
  | 0, _, _, _ => []
  | fuel + 1, graph, vertices, rnd =>
      if vertices.length > 0 then
        let sel := luby_select accept graph vertices rnd []
        let chosen := luby_resolve graph sel.1 sel.1 []
        let st := luby_commit chosen (graph, vertices) []
        luby_select_reads graph vertices ++
          (luby_resolve_reads graph sel.1 sel.1 [] ++
            (luby_commit_reads chosen (graph, vertices) ++
              luby_reads accept fuel st.1.1 st.1.2 sel.2))
      else []

/-- The reads of `luby_ind_set`. -/
def luby_ind_set_reads (accept : Nat → Nat → Bool) (fuel : Nat) (graph : Graph) (rnd : Rand) :
    List (Nat × Bool) :=
  luby_reads accept fuel graph (active_set graph) rnd

/-- The reads of the inner loop of a traversal: `get_neighbors(vertex)` for
every vertex that is taken from the container and not visited yet. -/
def component_reads (push : List Nat → Nat → List Nat) :
    Nat → Traversal → List Nat → List (Nat × Bool)
  | _, _, [] => []
  | 0, _, _ :: _ => []
  | fuel + 1, t, vertex :: vertices =>
      if vertex ∈ t.not_visited then
        let not_visited := set_erase t.not_visited vertex
        let neighbors := t.graph.get_neighbors vertex
        let st := color_vertex t.graph t.colors vertex
        let vertices1 :=
          neighbors.foldl (fun vs n => if n ∈ not_visited then push vs n else vs) vertices
        (vertex, t.graph.is_active vertex) ::
          component_reads push fuel
            { graph := st.1, colors := st.2, not_visited := not_visited } vertices1
      else
        component_reads push fuel t vertices

/-- The reads of the outer loop of a traversal. -/
def traversal_reads (push : List Nat → Nat → List Nat) (inner_fuel : Nat) :
    Nat → Traversal → Rand → List (Nat × Bool)
  | 0, _, _ => []
  | fuel + 1, t, rnd =>
      if t.not_visited.length = 0 then []
      else
        let idx := (rand rnd).1 % t.not_visited.length
        let root := t.not_visited.getD idx 0
        component_reads push inner_fuel t (push [] root) ++
          (match component_loop push inner_fuel t (push [] root) with
           | none => []
           | some t1 => traversal_reads push inner_fuel fuel t1 (rand rnd).2)

/-- The reads of `greedy_dfs_bipartite`. -/
def greedy_dfs_reads (srand : Nat → Rand) (fuel : Nat) (graph : Graph) (seed : Nat) :
    List (Nat × Bool) :=
  traversal_reads stack_push fuel fuel (traversal_init graph) (srand seed)

/-- The reads of `greedy_bfs_bipartite`. -/
def greedy_bfs_reads (srand : Nat → Rand) (fuel : Nat) (graph : Graph) (seed : Nat) :
    List (Nat × Bool) :=
  traversal_reads queue_push fuel fuel (traversal_init graph) (srand seed)

/-! ## Bipartite inputs of the traversals -/

/-- The graph `g` is bipartite with the two sides given by `side`: every
neighbour of a vertex id below `num_vertices` lies on the other side. -/
def Graph.TwoSided (g : Graph) (side : Nat → Bool) : Prop :=
  ∀ u, u < g.num_vertices → ∀ w ∈ g.get_neighbors u, side u ≠ side w

instance (g : Graph) (side : Nat → Bool) : Decidable (g.TwoSided side) := by
  unfold Graph.TwoSided; infer_instance

/-- The invariant of a traversal of a graph `g` that is bipartite with sides
`side`: the invariant `TravInv` holds, the private copy is still `g` (nothing
was removed), and the colours agree with the sides up to a swap per connected
component: for some `flip` that is constant along the edges of `g`, a coloured
vertex has colour 1 exactly when its side equals its value of `flip`. -/
structure BipInv (g : Graph) (side : Nat → Bool) (t : Traversal) : Prop where
  trav : TravInv g t
  same : t.graph = g
  flip : ∃ flip : Nat → Bool,
    (∀ u, u < g.num_vertices → ∀ w ∈ g.get_neighbors u, flip u = flip w) ∧
    ∀ u, t.colors u ≠ 0 → (t.colors u = 1 ↔ side u = flip u)

/-- What the container `stack` of the inner loop of a traversal holds: every
unvisited neighbour of a visited vertex (`closed`), and every unvisited member
has a visited neighbour (`attached`). -/
structure BipStack (g : Graph) (t : Traversal) (stack : List Nat) : Prop where
  closed : ∀ u, u < g.num_vertices → u ∉ t.not_visited →
    ∀ w ∈ g.get_neighbors u, w ∈ t.not_visited → w ∈ stack
  attached : ∀ s ∈ stack, s ∈ t.not_visited → ∃ a ∈ g.get_neighbors s, a ∉ t.not_visited

/-- The path on the vertices 0, 1, 2 together with the separate edge 3-4. -/
def path_and_edge : Graph := Graph.of_edges 5 [(0, 1), (1, 2), (3, 4)]

/-! ## Lemmas on sets of vertex ids -/

theorem mem_set_insert {s : List Nat} {x y : Nat} : y ∈ set_insert s x ↔ y = x ∨ y ∈ s := by
  unfold set_insert
  split
  · constructor
    · intro h; exact Or.inr h
    · rintro (h | h)
      · subst h; assumption
      · exact h
  · exact List.mem_orderedInsert _

theorem mem_set_erase {s : List Nat} {x y : Nat} : y ∈ set_erase s x ↔ y ∈ s ∧ y ≠ x := by
  simp [set_erase, List.mem_filter]

theorem nodup_set_insert {s : List Nat} {x : Nat} (h : s.Nodup) : (set_insert s x).Nodup := by
  unfold set_insert
  split
  · exact h
  · rename_i hx
    exact (List.perm_orderedInsert _ x s).nodup_iff.mpr (List.nodup_cons.mpr ⟨hx, h⟩)

theorem nodup_set_erase {s : List Nat} {x : Nat} (h : s.Nodup) : (set_erase s x).Nodup :=
  h.filter _

theorem set_erase_nil (x : Nat) : set_erase [] x = [] := rfl

theorem set_erase_idem (s : List Nat) (x : Nat) : set_erase (set_erase s x) x = set_erase s x := by
  simp [set_erase, List.filter_filter]

theorem length_set_erase_lt {s : List Nat} {x : Nat} (h : x ∈ s) :
    (set_erase s x).length < s.length := by
  unfold set_erase
  exact List.length_filter_lt_length_iff_exists.mpr ⟨x, h, by simp⟩

theorem length_set_erase_le (s : List Nat) (x : Nat) : (set_erase s x).length ≤ s.length :=
  List.length_filter_le _ _

theorem getD_modify (f : List Nat → List Nat) (hf : f [] = []) (nbs : List (List Nat)) (n u : Nat) :
    (nbs.modify f n).getD u [] = if n = u then f (nbs.getD u []) else nbs.getD u [] := by
  simp only [List.getD_eq_getElem?_getD, List.getElem?_modify]
  cases h : nbs[u]? with
  | none => by_cases hn : n = u <;> simp [hn, hf]
  | some a => by_cases hn : n = u <;> simp [hn]

theorem getD_foldl_erase (v : Nat) (L : List Nat) (nbs : List (List Nat)) (u : Nat) :
    (L.foldl (fun nbs neighbor => nbs.modify (fun s => set_erase s v) neighbor) nbs).getD u [] =
      if u ∈ L then set_erase (nbs.getD u []) v else nbs.getD u [] := by
  induction L generalizing nbs with
  | nil => simp
  | cons a L ih =>
    rw [List.foldl_cons, ih, getD_modify (fun s => set_erase s v) (set_erase_nil v)]
    by_cases hau : a = u
    · subst hau
      simp [set_erase_idem]
    · have : ¬ u = a := fun h => hau h.symm
      simp [hau, this]

theorem length_foldl_modify (f : Nat → List Nat → List Nat) (L : List Nat) (nbs : List (List Nat)) :
    (L.foldl (fun nbs neighbor => nbs.modify (f neighbor) neighbor) nbs).length = nbs.length := by
  induction L generalizing nbs with
  | nil => simp
  | cons a L ih => rw [List.foldl_cons, ih]; simp

/-! ## Lemmas on `remove_vertex` -/

namespace Graph

theorem remove_vertex_inactive {g : Graph} {v : Nat} (h : g.is_active v = false) :
    g.remove_vertex v = g := by
  simp [remove_vertex, h]

theorem remove_vertex_num (g : Graph) (v : Nat) :
    (g.remove_vertex v).num_vertices = g.num_vertices := by
  unfold remove_vertex; split <;> rfl

theorem remove_vertex_len_nb (g : Graph) (v : Nat) :
    (g.remove_vertex v).neighbors.length = g.neighbors.length := by
  unfold remove_vertex; split
  · rfl
  · exact length_foldl_modify (fun _ s => set_erase s v) _ _

theorem remove_vertex_len_act (g : Graph) (v : Nat) :
    (g.remove_vertex v).vertices_active.length = g.vertices_active.length := by
  unfold remove_vertex; split
  · rfl
  · simp

theorem is_active_remove_vertex (g : Graph) (v u : Nat) :
    (g.remove_vertex v).is_active u = (g.is_active u && decide (u ≠ v)) := by
  unfold remove_vertex
  split
  · rename_i h
    by_cases huv : u = v
    · subst huv; simp [h]
    · simp [huv]
  · by_cases huv : u = v
    · subst huv
      simp [is_active, List.getD_eq_getElem?_getD, List.getElem?_set]
      split <;> simp
    · have : ¬ v = u := fun h => huv h.symm
      simp [is_active, List.getD_eq_getElem?_getD, List.getElem?_set, huv, this]

theorem get_neighbors_remove_vertex (g : Graph) (v u : Nat) :
    (g.remove_vertex v).get_neighbors u =
      if g.is_active v = true ∧ u ∈ g.get_neighbors v then set_erase (g.get_neighbors u) v
      else g.get_neighbors u := by
  unfold remove_vertex
  split
  · rename_i h; simp [h]
  · rename_i h
    have h1 : g.is_active v = true := by simpa using h
    simp only [get_neighbors, getD_foldl_erase, h1, true_and]

theorem is_active_lt {g : Graph} (hl : g.vertices_active.length = g.num_vertices) {u : Nat}
    (h : g.is_active u = true) : u < g.num_vertices := by
  by_contra hn
  have : g.vertices_active.length ≤ u := by omega
  simp [is_active, List.getD_eq_getElem?_getD, List.getElem?_eq_none this] at h

end Graph

/-! ## Induced subgraphs and vertex removal -/

namespace Graph

theorem ActiveWF.vertex_lt {g : Graph} (h : g.ActiveWF) {u : Nat} (hu : g.is_active u = true) :
    u < g.num_vertices := is_active_lt h.2.1 hu

theorem ActiveWF.nodup {g : Graph} (h : g.ActiveWF) {u : Nat} (hu : g.is_active u = true) :
    (g.get_neighbors u).Nodup := (h.2.2 u (h.vertex_lt hu) hu).1

theorem ActiveWF.ne {g : Graph} (h : g.ActiveWF) {u w : Nat} (hu : g.is_active u = true)
    (hw : w ∈ g.get_neighbors u) : w ≠ u := ((h.2.2 u (h.vertex_lt hu) hu).2 w hw).1

theorem ActiveWF.closed {g : Graph} (h : g.ActiveWF) {u w : Nat} (hu : g.is_active u = true)
    (hw : w ∈ g.get_neighbors u) : g.is_active w = true := ((h.2.2 u (h.vertex_lt hu) hu).2 w hw).2.1

theorem ActiveWF.adj_symm {g : Graph} (h : g.ActiveWF) {u w : Nat} (hu : g.is_active u = true)
    (hw : w ∈ g.get_neighbors u) : u ∈ g.get_neighbors w := ((h.2.2 u (h.vertex_lt hu) hu).2 w hw).2.2

theorem ActiveWF.irrefl {g : Graph} (h : g.ActiveWF) {u : Nat} (hu : g.is_active u = true) :
    u ∉ g.get_neighbors u := fun hw => h.ne hu hw rfl

end Graph

open Graph

theorem Induced.refl {g : Graph} (h : g.ActiveWF) : Induced g g where
  num := rfl
  len_nb := h.1
  len_act := h.2.1
  sub := fun _ hu => hu
  nb := fun _ hu _ => ⟨fun hw => ⟨hw, h.closed hu hw⟩, fun hw => hw.1⟩
  nodup := fun _ hu => h.nodup hu

theorem Induced.nb_symm {g0 g : Graph} (wf : g0.ActiveWF) (ind : Induced g0 g) {u w : Nat}
    (hu : g.is_active u = true) (hw : w ∈ g.get_neighbors u) : u ∈ g.get_neighbors w := by
  have h1 := (ind.nb u hu w).mp hw
  exact (ind.nb w h1.2 u).mpr ⟨wf.adj_symm (ind.sub u hu) h1.1, hu⟩

theorem Induced.wf {g0 g : Graph} (wf : g0.ActiveWF) (ind : Induced g0 g) : g.ActiveWF := by
  refine ⟨ind.len_nb, ind.len_act, fun u _ hu => ⟨ind.nodup u hu, fun w hw => ?_⟩⟩
  have h1 := (ind.nb u hu w).mp hw
  exact ⟨wf.ne (ind.sub u hu) h1.1, h1.2, ind.nb_symm wf hu hw⟩

theorem Induced.remove_vertex {g0 g : Graph} (wf : g0.ActiveWF) (ind : Induced g0 g) (v : Nat) :
    Induced g0 (g.remove_vertex v) := by
  by_cases hv : g.is_active v = true
  · have act : ∀ u, (g.remove_vertex v).is_active u = true ↔ g.is_active u = true ∧ u ≠ v := by
      intro u; rw [is_active_remove_vertex]; simp
    refine ⟨?_, ?_, ?_, ?_, ?_, ?_⟩
    · rw [remove_vertex_num]; exact ind.num
    · rw [remove_vertex_len_nb, remove_vertex_num]; exact ind.len_nb
    · rw [remove_vertex_len_act, remove_vertex_num]; exact ind.len_act
    · intro u hu; exact ind.sub u ((act u).mp hu).1
    · intro u hu w
      obtain ⟨hu1, hu2⟩ := (act u).mp hu
      rw [get_neighbors_remove_vertex, act w]
      by_cases huv : u ∈ g.get_neighbors v
      · rw [if_pos ⟨hv, huv⟩, mem_set_erase, ind.nb u hu1 w]
        tauto
      · rw [if_neg (fun h => huv h.2), ind.nb u hu1 w]
        constructor
        · intro h
          refine ⟨h.1, h.2, ?_⟩
          rintro rfl
          exact huv (ind.nb_symm wf hu1 ((ind.nb u hu1 w).mpr h))
        · intro h; exact ⟨h.1, h.2.1⟩
    · intro u hu
      obtain ⟨hu1, _⟩ := (act u).mp hu
      rw [get_neighbors_remove_vertex]
      split
      · exact nodup_set_erase (ind.nodup u hu1)
      · exact ind.nodup u hu1
  · have hv2 : g.is_active v = false := by simpa using hv
    rw [remove_vertex_inactive hv2]; exact ind

theorem Induced.remove_all {g0 g : Graph} (wf : g0.ActiveWF) (ind : Induced g0 g) (vs : List Nat) :
    Induced g0 (remove_all g vs) := by
  induction vs generalizing g with
  | nil => exact ind
  | cons v vs ih => exact ih (ind.remove_vertex wf v)

theorem is_active_remove_all (g : Graph) (vs : List Nat) (u : Nat) :
    (remove_all g vs).is_active u = true ↔ g.is_active u = true ∧ u ∉ vs := by
  induction vs generalizing g with
  | nil => simp [remove_all]
  | cons v vs ih =>
    have := ih (g.remove_vertex v)
    simp only [remove_all, List.foldl_cons] at this ⊢
    rw [this, is_active_remove_vertex]
    simp
    tauto

theorem remove_all_num (g : Graph) (vs : List Nat) :
    (remove_all g vs).num_vertices = g.num_vertices := by
  induction vs generalizing g with
  | nil => rfl
  | cons v vs ih =>
    have := ih (g.remove_vertex v)
    simp only [remove_all, List.foldl_cons] at this ⊢
    rw [this, remove_vertex_num]

theorem foldl_pair_fst {α β γ : Type} (f : α → γ → α) (h : β → γ → β) (L : List γ) (a : α) (b : β) :
    L.foldl (fun s n => (f s.1 n, h s.2 n)) (a, b) = (L.foldl f a, L.foldl h b) := by
  induction L generalizing a b with
  | nil => rfl
  | cons x L ih => simp [List.foldl_cons, ih]

theorem remove_closed_fst (st : Graph × List Nat) (v : Nat) :
    (remove_closed st v).1 = remove_all st.1 (v :: st.1.get_neighbors v) := by
  simp [remove_closed, remove_all, foldl_pair_fst]

theorem remove_closed_snd (st : Graph × List Nat) (v : Nat) :
    (remove_closed st v).2 = (v :: st.1.get_neighbors v).foldl set_erase st.2 := by
  simp [remove_closed, foldl_pair_fst]

theorem mem_foldl_set_erase (L s : List Nat) (x : Nat) :
    x ∈ L.foldl set_erase s ↔ x ∈ s ∧ x ∉ L := by
  induction L generalizing s with
  | nil => simp
  | cons a L ih =>
    rw [List.foldl_cons, ih, mem_set_erase]
    simp
    tauto

theorem length_foldl_set_erase_le (L s : List Nat) : (L.foldl set_erase s).length ≤ s.length := by
  induction L generalizing s with
  | nil => simp
  | cons a L ih =>
    rw [List.foldl_cons]
    exact le_trans (ih _) (length_set_erase_le _ _)

theorem length_remove_closed_lt (g : Graph) (vs : List Nat) (v : Nat) (hv : v ∈ vs) :
    (remove_closed (g, vs) v).2.length < vs.length := by
  rw [remove_closed_snd, List.foldl_cons]
  exact lt_of_le_of_lt (length_foldl_set_erase_le _ _) (length_set_erase_lt hv)

/-! ## The invariant of the independent-set loops -/

theorem is_active_remove_closed (g : Graph) (vs : List Nat) (v u : Nat) :
    (remove_closed (g, vs) v).1.is_active u = true ↔
      g.is_active u = true ∧ u ≠ v ∧ u ∉ g.get_neighbors v := by
  rw [remove_closed_fst, is_active_remove_all]
  simp

theorem MISInv.step {g0 g : Graph} {vs res : List Nat} (wf : g0.ActiveWF)
    (inv : MISInv g0 g vs res) {v : Nat} (hv : g.is_active v = true) :
    MISInv g0 (remove_closed (g, vs) v).1 (remove_closed (g, vs) v).2 (res ++ [v]) := by
  have act := is_active_remove_closed g vs v
  have hv0 : g0.is_active v = true := inv.ind.sub v hv
  have hvres : v ∉ res := fun h => by
    have := inv.res_gone v h
    rw [hv] at this; exact Bool.noConfusion this
  refine ⟨?_, ?_, ?_, ?_, ?_, ?_, ?_, ?_⟩
  · rw [remove_closed_fst]; exact inv.ind.remove_all wf _
  · intro u
    rw [act, remove_closed_snd, mem_foldl_set_erase, inv.verts]
    simp
  · intro r hr
    rcases List.mem_append.mp hr with h | h
    · exact inv.res_act r h
    · rw [List.mem_singleton.mp h]; exact hv0
  · intro r hr
    cases hact : (remove_closed (g, vs) v).1.is_active r with
    | false => rfl
    | true =>
      obtain ⟨h1, h2, _⟩ := (act r).mp hact
      rcases List.mem_append.mp hr with h | h
      · rw [inv.res_gone r h] at h1; exact Bool.noConfusion h1
      · exact absurd (List.mem_singleton.mp h) h2
  · intro a ha b hb
    rcases List.mem_append.mp ha with ha | ha <;> rcases List.mem_append.mp hb with hb | hb
    · exact inv.indep a ha b hb
    · rw [List.mem_singleton.mp hb]; exact inv.away v hv a ha
    · rw [List.mem_singleton.mp ha]
      intro h
      exact inv.away v hv b hb (wf.adj_symm hv0 h)
    · rw [List.mem_singleton.mp ha, List.mem_singleton.mp hb]; exact wf.irrefl hv0
  · intro u hu r hr
    obtain ⟨h1, _, h3⟩ := (act u).mp hu
    rcases List.mem_append.mp hr with h | h
    · exact inv.away u h1 r h
    · rw [List.mem_singleton.mp h]
      intro hn
      exact h3 ((inv.ind.nb v hv u).mpr ⟨hn, h1⟩)
  · intro u hu0 hu
    by_cases hg : g.is_active u = true
    · by_cases huv : u = v
      · left; rw [huv]; simp
      · have : u ∈ g.get_neighbors v := by
          by_contra hn
          have := (act u).mpr ⟨hg, huv, hn⟩
          rw [hu] at this; exact Bool.noConfusion this
        right
        exact ⟨v, by simp, ((inv.ind.nb v hv u).mp this).1⟩
    · have hg2 : g.is_active u = false := by simpa using hg
      rcases inv.cover u hu0 hg2 with h | ⟨r, hr, h⟩
      · left; exact List.mem_append_left _ h
      · right; exact ⟨r, List.mem_append_left _ hr, h⟩
  · rw [List.nodup_append]
    refine ⟨inv.nodup, List.nodup_singleton v, ?_⟩
    intro a ha hb
    rw [List.mem_singleton.mp hb] at ha
    exact hvres ha

theorem MISInv.done {g0 g : Graph} {vs res : List Nat} (inv : MISInv g0 g vs res)
    (hvs : vs = []) : MaximalIndependent g0 res := by
  refine ⟨inv.res_act, inv.indep, fun u hu => ?_⟩
  apply inv.cover u hu
  cases h : g.is_active u with
  | false => rfl
  | true =>
    have := (inv.verts u).mpr h
    rw [hvs] at this; exact absurd this (List.not_mem_nil u)

theorem mem_active_set_aux (g : Graph) (L acc : List Nat) (u : Nat) :
    u ∈ L.foldl (fun vertices vertex =>
        if g.is_active vertex then set_insert vertices vertex else vertices) acc ↔
      u ∈ acc ∨ (u ∈ L ∧ g.is_active u = true) := by
  induction L generalizing acc with
  | nil => simp
  | cons a L ih =>
    rw [List.foldl_cons, ih]
    by_cases ha : g.is_active a = true
    · simp only [ha, if_true, mem_set_insert, List.mem_cons]
      constructor
      · rintro ((h | h) | h)
        · right; exact ⟨Or.inl h, h ▸ ha⟩
        · left; exact h
        · right; exact ⟨Or.inr h.1, h.2⟩
      · rintro (h | ⟨h | h, h2⟩)
        · left; right; exact h
        · left; left; exact h
        · right; exact ⟨h, h2⟩
    · simp only [ha, List.mem_cons]
      constructor
      · rintro (h | h)
        · left; exact h
        · right; exact ⟨Or.inr h.1, h.2⟩
      · rintro (h | ⟨h | h, h2⟩)
        · left; exact h
        · rw [h] at h2; exact absurd h2 ha
        · right; exact ⟨h, h2⟩

theorem mem_active_set {g : Graph} (hl : g.vertices_active.length = g.num_vertices) (u : Nat) :
    u ∈ active_set g ↔ g.is_active u = true := by
  unfold active_set
  rw [mem_active_set_aux]
  simp only [List.not_mem_nil, false_or, List.mem_range, get_num_vertices]
  exact ⟨fun h => h.2, fun h => ⟨is_active_lt hl h, h⟩⟩

theorem nodup_active_set_aux (g : Graph) (L acc : List Nat) (h : acc.Nodup) :
    (L.foldl (fun vertices vertex =>
        if g.is_active vertex then set_insert vertices vertex else vertices) acc).Nodup := by
  induction L generalizing acc with
  | nil => exact h
  | cons a L ih =>
    rw [List.foldl_cons]
    apply ih
    split
    · exact nodup_set_insert h
    · exact h

theorem length_active_set_le (g : Graph) : (active_set g).length ≤ g.num_vertices := by
  have hn : (active_set g).Nodup := nodup_active_set_aux g _ [] List.nodup_nil
  have hs : active_set g ⊆ List.range g.num_vertices := by
    intro u hu
    unfold active_set at hu
    rw [mem_active_set_aux] at hu
    rcases hu with h | h
    · exact absurd h (List.not_mem_nil u)
    · exact h.1
  have := (List.subperm_of_subset hn hs).length_le
  simpa using this

theorem MISInv.on_entry {g : Graph} (wf : g.ActiveWF) : MISInv g g (active_set g) [] where
  ind := Induced.refl wf
  verts := mem_active_set wf.2.1
  res_act := fun _ h => absurd h (List.not_mem_nil _)
  res_gone := fun _ h => absurd h (List.not_mem_nil _)
  indep := fun _ h => absurd h (List.not_mem_nil _)
  away := fun _ _ _ h => absurd h (List.not_mem_nil _)
  cover := fun _ h1 h2 => by rw [h1] at h2; exact Bool.noConfusion h2
  nodup := List.nodup_nil

/-! ## `get_min_degree_vertices` and `min_degree_ind_set` -/

theorem Graph.ActiveWF.degree_lt {g : Graph} (wf : g.ActiveWF) {u : Nat}
    (hu : g.is_active u = true) : (g.neighbors.getD u []).length < g.num_vertices := by
  have hn : (u :: g.get_neighbors u).Nodup :=
    List.nodup_cons.mpr ⟨wf.irrefl hu, wf.nodup hu⟩
  have hs : (u :: g.get_neighbors u) ⊆ List.range g.num_vertices := by
    intro w hw
    rcases List.mem_cons.mp hw with h | h
    · rw [h]; exact List.mem_range.mpr (wf.vertex_lt hu)
    · exact List.mem_range.mpr (wf.vertex_lt (wf.closed hu h))
  have := (List.subperm_of_subset hn hs).length_le
  simp only [List.length_cons, List.length_range] at this
  unfold get_neighbors at this
  omega

theorem scan_good_foldl (g : Graph) (L : List Nat) (st : List Nat × Nat) (h : ScanGood g st) :
    ScanGood g (L.foldl (min_degree_step g) st) := by
  induction L generalizing st with
  | nil => exact h
  | cons i L ih =>
    rw [List.foldl_cons]
    apply ih
    unfold min_degree_step
    by_cases hi : g.is_active i = true
    · simp only [hi, if_true]
      split
      · exact ⟨by simp, by simp [hi]⟩
      · split
        · refine ⟨by simp, ?_⟩
          intro x hx
          rcases List.mem_append.mp hx with hx | hx
          · exact h.2 x hx
          · rw [List.mem_singleton.mp hx]; exact hi
        · exact h
    · simp only [hi]
      exact h

theorem scan_good_of_active (g : Graph) (L : List Nat) (st : List Nat × Nat)
    (hdeg : ∀ i ∈ L, g.is_active i = true → (g.neighbors.getD i []).length < st.2)
    (hex : ∃ i ∈ L, g.is_active i = true) :
    ScanGood g (L.foldl (min_degree_step g) st) := by
  induction L generalizing st with
  | nil => obtain ⟨i, hi, _⟩ := hex; exact absurd hi (List.not_mem_nil i)
  | cons i L ih =>
    rw [List.foldl_cons]
    by_cases hi : g.is_active i = true
    · apply scan_good_foldl
      have hlt := hdeg i (List.mem_cons_self i L) hi
      unfold min_degree_step
      simp only [hi, if_true, hlt]
      exact ⟨by simp, by simp [hi]⟩
    · have hst : min_degree_step g st i = st := by
        unfold min_degree_step; simp [hi]
      rw [hst]
      apply ih
      · intro j hj; exact hdeg j (List.mem_cons_of_mem i hj)
      · obtain ⟨j, hj, hja⟩ := hex
        rcases List.mem_cons.mp hj with h | h
        · rw [h] at hja; exact absurd hja hi
        · exact ⟨j, h, hja⟩

theorem min_degree_vertices_good {g : Graph} (wf : g.ActiveWF) {u : Nat}
    (hu : g.is_active u = true) :
    g.get_min_degree_vertices ≠ [] ∧ ∀ x ∈ g.get_min_degree_vertices, g.is_active x = true := by
  unfold get_min_degree_vertices
  apply scan_good_of_active
  · intro i _ hi; exact wf.degree_lt hi
  · exact ⟨u, List.mem_range.mpr (wf.vertex_lt hu), hu⟩

theorem getD_mem_of_lt {l : List Nat} {i : Nat} (h : i < l.length) : l.getD i 0 ∈ l := by
  rw [List.getD_eq_getElem _ _ h]
  exact List.getElem_mem h

theorem min_degree_loop_spec {g0 : Graph} (wf : g0.ActiveWF) (fuel : Nat) :
    ∀ (g : Graph) (vs : List Nat) (rnd : Rand) (res : List Nat),
      MISInv g0 g vs res → vs.length ≤ fuel →
      ∃ out rnd1, min_degree_loop fuel g vs rnd res = some (out, rnd1) ∧
        MaximalIndependent g0 out ∧ out.Nodup := by
  induction fuel with
  | zero =>
    intro g vs rnd res inv hlen
    have hvs : vs = [] := List.length_eq_zero.mp (Nat.le_zero.mp hlen)
    refine ⟨res, rnd, ?_, inv.done hvs, inv.nodup⟩
    simp [min_degree_loop, hvs]
  | succ fuel ih =>
    intro g vs rnd res inv hlen
    by_cases hvs : vs = []
    · refine ⟨res, rnd, ?_, inv.done hvs, inv.nodup⟩
      simp [min_degree_loop, hvs]
    · obtain ⟨u, hu⟩ := List.exists_mem_of_ne_nil vs hvs
      have hua := (inv.verts u).mp hu
      obtain ⟨hne, hall⟩ := min_degree_vertices_good (inv.ind.wf wf) hua
      have hpos : 0 < g.get_min_degree_vertices.length := List.length_pos.mpr hne
      have hvpos : 0 < vs.length := List.length_pos.mpr hvs
      have hidx : (rand rnd).1 % g.get_min_degree_vertices.length <
          g.get_min_degree_vertices.length := Nat.mod_lt _ hpos
      have hc := hall _ (getD_mem_of_lt hidx)
      have hcv := (inv.verts _).mpr hc
      have hlt := length_remove_closed_lt g vs _ hcv
      obtain ⟨out, rnd1, h1, h2, h3⟩ :=
        ih _ _ (rand rnd).2 _ (inv.step wf hc) (by omega)
      refine ⟨out, rnd1, ?_, h2, h3⟩
      rw [min_degree_loop]
      simp only [hvpos, if_true, Nat.pos_iff_ne_zero.mp hpos, if_false]
      exact h1

theorem min_degree_ind_set_spec {g : Graph} (wf : g.ActiveWF) (fuel : Nat)
    (hfuel : g.num_vertices ≤ fuel) (rnd : Rand) :
    ∃ out rnd1, min_degree_ind_set fuel g rnd = some (out, rnd1) ∧
      MaximalIndependent g out ∧ out.Nodup :=
  min_degree_loop_spec wf fuel g _ rnd [] (MISInv.on_entry wf)
    (le_trans (length_active_set_le g) hfuel)

/-! ## `greedy_bipartite` and `luby_ind_set` -/

theorem two_pass {g : Graph} (wf : g.ActiveWF) {s1 s2 : List Nat}
    (h1 : MaximalIndependent g s1) (n1 : s1.Nodup)
    (h2 : MaximalIndependent (remove_all g s1) s2) (n2 : s2.Nodup) :
    (s2 ++ s1).Nodup ∧ Independent g s1 ∧ Independent g s2 ∧
      ∀ v ∈ s2 ++ s1, g.is_active v = true := by
  have ind : Induced g (remove_all g s1) := (Induced.refl wf).remove_all wf s1
  have hact2 : ∀ v ∈ s2, g.is_active v = true ∧ v ∉ s1 := fun v hv =>
    (is_active_remove_all g s1 v).mp (h2.1 v hv)
  refine ⟨?_, h1.2.1, ?_, ?_⟩
  · rw [List.nodup_append]
    exact ⟨n2, n1, fun a ha hb => (hact2 a ha).2 hb⟩
  · intro a ha b hb hab
    exact h2.2.1 a ha b hb ((ind.nb a (h2.1 a ha) b).mpr ⟨hab, h2.1 b hb⟩)
  · intro v hv
    rcases List.mem_append.mp hv with h | h
    · exact (hact2 v h).1
    · exact h1.1 v h

theorem greedy_bipartite_spec {g : Graph} (wf : g.ActiveWF) (srand : Nat → Rand) (fuel : Nat)
    (hfuel : g.num_vertices ≤ fuel) (seed : Nat) (prior : Rand) :
    ∃ s1 s2 rnd1 rnd2,
      min_degree_ind_set fuel g (srand seed) = some (s1, rnd1) ∧
      min_degree_ind_set fuel (remove_all g s1) rnd1 = some (s2, rnd2) ∧
      greedy_bipartite srand fuel g seed prior = some (s2 ++ s1, rnd2) ∧
      MaximalIndependent g s1 ∧ s1.Nodup ∧
      MaximalIndependent (remove_all g s1) s2 ∧ s2.Nodup := by
  obtain ⟨s1, rnd1, e1, m1, n1⟩ := min_degree_ind_set_spec wf fuel hfuel (srand seed)
  have ind : Induced g (remove_all g s1) := (Induced.refl wf).remove_all wf s1
  have hfuel2 : (remove_all g s1).num_vertices ≤ fuel := by rw [remove_all_num]; exact hfuel
  obtain ⟨s2, rnd2, e2, m2, n2⟩ := min_degree_ind_set_spec (ind.wf wf) fuel hfuel2 rnd1
  refine ⟨s1, s2, rnd1, rnd2, e1, e2, ?_, m1, n1, m2, n2⟩
  simp [greedy_bipartite, e1, e2]

/-! ### Luby -/

theorem luby_select_sub (accept : Nat → Nat → Bool) (g : Graph) (vs : List Nat) :
    ∀ (rnd : Rand) (init : List Nat), ∀ v ∈ (luby_select accept g vs rnd init).1,
      v ∈ init ∨ v ∈ vs := by
  induction vs with
  | nil => intro rnd init v hv; exact Or.inl hv
  | cons a vs ih =>
    intro rnd init v hv
    rw [luby_select] at hv
    split at hv
    · rcases ih _ _ v hv with h | h
      · rcases mem_set_insert.mp h with h | h
        · right; rw [h]; exact List.mem_cons_self _ _
        · left; exact h
      · right; exact List.mem_cons_of_mem _ h
    · split at hv
      · rcases ih _ _ v hv with h | h
        · rcases mem_set_insert.mp h with h | h
          · right; rw [h]; exact List.mem_cons_self _ _
          · left; exact h
        · right; exact List.mem_cons_of_mem _ h
      · rcases ih _ _ v hv with h | h
        · left; exact h
        · right; exact List.mem_cons_of_mem _ h

theorem luby_resolve_spec {g : Graph} (wf : g.ActiveWF) (initial : List Nat)
    (hinit : ∀ v ∈ initial, g.is_active v = true) (L : List Nat) :
    ∀ chosen : List Nat, (∀ c ∈ chosen, c ∈ initial) → (∀ v ∈ L, v ∈ initial) →
      chosen.Nodup → Independent g chosen →
      (∀ c ∈ luby_resolve g initial L chosen, c ∈ initial) ∧
        (luby_resolve g initial L chosen).Nodup ∧
        Independent g (luby_resolve g initial L chosen) := by
  induction L with
  | nil => intro chosen h1 _ h3 h4; exact ⟨h1, h3, h4⟩
  | cons v L ih =>
    intro chosen h1 h2 h3 h4
    rw [luby_resolve]
    have hvi : v ∈ initial := h2 v (List.mem_cons_self _ _)
    have hva : g.is_active v = true := hinit v hvi
    apply ih
    · intro c hc
      split at hc
      · rcases mem_set_insert.mp hc with h | h
        · rw [h]; exact hvi
        · exact h1 c h
      · exact h1 c hc
    · intro w hw; exact h2 w (List.mem_cons_of_mem _ hw)
    · split
      · exact nodup_set_insert h3
      · exact h3
    · split
      · rename_i hkeep
        have hno : ∀ c ∈ chosen, c ∉ g.get_neighbors v := by
          intro c hc hcn
          have : (g.get_neighbors v).any (luby_conflict g initial chosen v) = true := by
            rw [List.any_eq_true]
            exact ⟨c, hcn, by simp [luby_conflict, h1 c hc, hc]⟩
          simp [this] at hkeep
        intro a ha b hb
        rcases mem_set_insert.mp ha with ha | ha <;> rcases mem_set_insert.mp hb with hb | hb
        · rw [ha, hb]; exact wf.irrefl hva
        · rw [ha]; exact hno b hb
        · rw [hb]
          intro h
          exact hno a ha (wf.adj_symm (hinit a (h1 a ha)) h)
        · exact h4 a ha b hb
      · exact h4

theorem luby_commit_spec {g0 : Graph} (wf : g0.ActiveWF) (chosen : List Nat) :
    ∀ (g : Graph) (vs res : List Nat), MISInv g0 g vs res →
      (∀ v ∈ chosen, g.is_active v = true) → chosen.Nodup → Independent g0 chosen →
      MISInv g0 (luby_commit chosen (g, vs) res).1.1 (luby_commit chosen (g, vs) res).1.2
        (luby_commit chosen (g, vs) res).2 := by
  induction chosen with
  | nil => intro g vs res inv _ _ _; exact inv
  | cons v chosen ih =>
    intro g vs res inv hact hnd hind
    rw [luby_commit]
    have hv : g.is_active v = true := hact v (List.mem_cons_self _ _)
    have hnd2 := List.nodup_cons.mp hnd
    apply ih _ _ _ (inv.step wf hv)
    · intro a ha
      rw [is_active_remove_closed]
      refine ⟨hact a (List.mem_cons_of_mem _ ha), ?_, ?_⟩
      · rintro rfl; exact hnd2.1 ha
      · intro h
        exact hind v (List.mem_cons_self _ _) a (List.mem_cons_of_mem _ ha)
          ((inv.ind.nb v hv a).mp h).1
    · exact hnd2.2
    · intro a ha b hb
      exact hind a (List.mem_cons_of_mem _ ha) b (List.mem_cons_of_mem _ hb)

theorem luby_round_inv {g0 : Graph} (wf : g0.ActiveWF) (accept : Nat → Nat → Bool)
    {g : Graph} {vs res : List Nat} (inv : MISInv g0 g vs res) (rnd : Rand) :
    MISInv g0
      (luby_commit (luby_resolve g (luby_select accept g vs rnd []).1
        (luby_select accept g vs rnd []).1 []) (g, vs) res).1.1
      (luby_commit (luby_resolve g (luby_select accept g vs rnd []).1
        (luby_select accept g vs rnd []).1 []) (g, vs) res).1.2
      (luby_commit (luby_resolve g (luby_select accept g vs rnd []).1
        (luby_select accept g vs rnd []).1 []) (g, vs) res).2 := by
  have wfg := inv.ind.wf wf
  have hinit : ∀ v ∈ (luby_select accept g vs rnd []).1, g.is_active v = true := by
    intro v hv
    rcases luby_select_sub accept g vs rnd [] v hv with h | h
    · exact absurd h (List.not_mem_nil v)
    · exact (inv.verts v).mp h
  obtain ⟨c1, c2, c3⟩ := luby_resolve_spec wfg _ hinit (luby_select accept g vs rnd []).1 []
    (fun _ h => absurd h (List.not_mem_nil _)) (fun _ h => h) List.nodup_nil
    (fun _ h => absurd h (List.not_mem_nil _))
  apply luby_commit_spec wf _ g vs res inv
  · intro v hv; exact hinit v (c1 v hv)
  · exact c2
  · intro a ha b hb hab
    exact c3 a ha b hb ((inv.ind.nb a (hinit a (c1 a ha)) b).mpr ⟨hab, hinit b (c1 b hb)⟩)

theorem luby_loop_spec {g0 : Graph} (wf : g0.ActiveWF) (accept : Nat → Nat → Bool) (fuel : Nat) :
    ∀ (g : Graph) (vs : List Nat) (rnd : Rand) (res out : List Nat) (rnd1 : Rand),
      MISInv g0 g vs res → luby_loop accept fuel g vs rnd res = some (out, rnd1) →
      MaximalIndependent g0 out ∧ out.Nodup := by
  induction fuel with
  | zero =>
    intro g vs rnd res out rnd1 inv h
    rw [luby_loop] at h
    split at h
    · exact Option.noConfusion h
    · rename_i hvs
      have hvs2 : vs = [] := List.length_eq_zero.mp (by omega)
      simp only [Option.some.injEq, Prod.mk.injEq] at h
      rw [← h.1]
      exact ⟨inv.done hvs2, inv.nodup⟩
  | succ fuel ih =>
    intro g vs rnd res out rnd1 inv h
    rw [luby_loop] at h
    split at h
    · exact ih _ _ _ _ out rnd1 (luby_round_inv wf accept inv rnd) h
    · rename_i hvs
      have hvs2 : vs = [] := List.length_eq_zero.mp (by omega)
      simp only [Option.some.injEq, Prod.mk.injEq] at h
      rw [← h.1]
      exact ⟨inv.done hvs2, inv.nodup⟩

theorem luby_ind_set_spec {g : Graph} (wf : g.ActiveWF) (accept : Nat → Nat → Bool) (fuel : Nat)
    (rnd : Rand) (out : List Nat) (rnd1 : Rand)
    (h : luby_ind_set accept fuel g [] rnd = some (out, rnd1)) :
    MaximalIndependent g out ∧ out.Nodup :=
  luby_loop_spec wf accept fuel g _ rnd [] out rnd1 (MISInv.on_entry wf) h

/-! ## The two-colouring traversals -/

theorem TravInv.assign {g0 : Graph} (wf : g0.ActiveWF) {t : Traversal} (inv : TravInv g0 t)
    {v c : Nat} (hv : v ∈ t.not_visited) (hc : c = 1 ∨ c = 2)
    (hfree : ∀ n ∈ t.graph.get_neighbors v, t.colors n ≠ c) :
    TravInv g0 { graph := t.graph, colors := set_color t.colors v c,
                 not_visited := set_erase t.not_visited v } := by
  have hva : t.graph.is_active v = true := inv.nv_act v hv
  have hc0 : c ≠ 0 := by rcases hc with h | h <;> omega
  have hcv : set_color t.colors v c v = c := by simp [set_color]
  have hcu : ∀ u, u ≠ v → set_color t.colors v c u = t.colors u := by
    intro u hu; simp [set_color, hu]
  have key : ∀ w, w ≠ v → t.colors w ≠ 0 → w ∈ g0.get_neighbors v → t.colors w ≠ c := by
    intro w _ hw hadj
    exact hfree w ((inv.ind.nb v hva w).mpr ⟨hadj, inv.col_act w hw⟩)
  refine ⟨inv.ind, ?_, ?_, ?_, ?_, ?_, ?_⟩
  · intro u hu; exact inv.nv_act u (mem_set_erase.mp hu).1
  · intro u hu
    obtain ⟨h1, h2⟩ := mem_set_erase.mp hu
    show set_color t.colors v c u = 0
    rw [hcu u h2]; exact inv.nv_col u h1
  · intro u
    show set_color t.colors v c u = 0 ∨ set_color t.colors v c u = 1 ∨ set_color t.colors v c u = 2
    by_cases hu : u = v
    · rw [hu, hcv]; right; exact hc
    · rw [hcu u hu]; exact inv.col_range u
  · intro u hu
    show t.graph.is_active u = true
    by_cases huv : u = v
    · rw [huv]; exact hva
    · have hu2 : set_color t.colors v c u ≠ 0 := hu
      rw [hcu u huv] at hu2; exact inv.col_act u hu2
  · intro u hu hnv
    show set_color t.colors v c u ≠ 0
    by_cases huv : u = v
    · rw [huv, hcv]; exact hc0
    · rw [hcu u huv]
      apply inv.act_col u hu
      intro h; exact hnv (mem_set_erase.mpr ⟨h, huv⟩)
  · intro u w hu hw hadj
    show set_color t.colors v c u ≠ set_color t.colors v c w
    have hu2 : set_color t.colors v c u ≠ 0 := hu
    have hw2 : set_color t.colors v c w ≠ 0 := hw
    by_cases huv : u = v
    · by_cases hwv : w = v
      · rw [huv, hwv] at hadj
        exact absurd hadj (wf.irrefl (inv.ind.sub v hva))
      · rw [hcu w hwv] at hw2 ⊢
        rw [huv, hcv]
        rw [huv] at hadj
        exact fun h => key w hwv hw2 hadj h.symm
    · rw [hcu u huv] at hu2 ⊢
      by_cases hwv : w = v
      · rw [hwv, hcv]
        rw [hwv] at hadj
        have hu0 : g0.is_active u = true := inv.ind.sub u (inv.col_act u hu2)
        exact key u huv hu2 (wf.adj_symm hu0 hadj)
      · rw [hcu w hwv] at hw2 ⊢
        exact inv.proper u w hu2 hw2 hadj

theorem TravInv.evict {g0 : Graph} (wf : g0.ActiveWF) {t : Traversal} (inv : TravInv g0 t)
    {v : Nat} (hv : v ∈ t.not_visited) :
    TravInv g0 { graph := t.graph.remove_vertex v, colors := t.colors,
                 not_visited := set_erase t.not_visited v } := by
  have hcv : t.colors v = 0 := inv.nv_col v hv
  have act : ∀ u, (t.graph.remove_vertex v).is_active u = true ↔
      t.graph.is_active u = true ∧ u ≠ v := by
    intro u; rw [is_active_remove_vertex]; simp
  refine ⟨inv.ind.remove_vertex wf v, ?_, ?_, inv.col_range, ?_, ?_, inv.proper⟩
  · intro u hu
    obtain ⟨h1, h2⟩ := mem_set_erase.mp hu
    exact (act u).mpr ⟨inv.nv_act u h1, h2⟩
  · intro u hu; exact inv.nv_col u (mem_set_erase.mp hu).1
  · intro u hu
    refine (act u).mpr ⟨inv.col_act u hu, ?_⟩
    rintro rfl; exact hu hcv
  · intro u hu hnv
    obtain ⟨h1, h2⟩ := (act u).mp hu
    apply inv.act_col u h1
    intro h; exact hnv (mem_set_erase.mpr ⟨h, h2⟩)

theorem TravInv.visit {g0 : Graph} (wf : g0.ActiveWF) {t : Traversal} (inv : TravInv g0 t)
    {v : Nat} (hv : v ∈ t.not_visited) :
    TravInv g0 { graph := (color_vertex t.graph t.colors v).1,
                 colors := (color_vertex t.graph t.colors v).2,
                 not_visited := set_erase t.not_visited v } := by
  unfold color_vertex
  simp only
  split
  · rename_i h1
    apply inv.assign wf hv (Or.inl rfl)
    intro n hn hc
    have : (t.graph.get_neighbors v).any (fun n => decide (t.colors n = 1)) = true := by
      rw [List.any_eq_true]; exact ⟨n, hn, by simp [hc]⟩
    rw [h1] at this; exact Bool.noConfusion this
  · split
    · rename_i h2
      apply inv.assign wf hv (Or.inr rfl)
      intro n hn hc
      have : (t.graph.get_neighbors v).any (fun n => decide (t.colors n = 2)) = true := by
        rw [List.any_eq_true]; exact ⟨n, hn, by simp [hc]⟩
      rw [h2] at this; exact Bool.noConfusion this
    · exact inv.evict wf hv

theorem component_loop_nil (push : List Nat → Nat → List Nat) (fuel : Nat) (t : Traversal) :
    component_loop push fuel t [] = some t := by
  cases fuel <;> rfl

theorem component_loop_step {g0 : Graph} (wf : g0.ActiveWF) (push : List Nat → Nat → List Nat)
    (t : Traversal) (inv : TravInv g0 t)
    (ih : ∀ t1 : Traversal, t1.not_visited.length < t.not_visited.length → TravInv g0 t1 →
      ∀ stack : List Nat, ∃ F t2, (∀ fuel, F ≤ fuel → component_loop push fuel t1 stack = some t2) ∧
        TravInv g0 t2 ∧ t2.not_visited.length ≤ t1.not_visited.length)
    (stack : List Nat) :
    ∃ F t2, (∀ fuel, F ≤ fuel → component_loop push fuel t stack = some t2) ∧
      TravInv g0 t2 ∧ t2.not_visited.length ≤ t.not_visited.length ∧
      ((∃ v ∈ stack, v ∈ t.not_visited) → t2.not_visited.length < t.not_visited.length) := by
  induction stack with
  | nil =>
    refine ⟨0, t, fun fuel _ => component_loop_nil push fuel t, inv, le_refl _, ?_⟩
    rintro ⟨v, hv, _⟩; exact absurd hv (List.not_mem_nil v)
  | cons v rest ihs =>
    by_cases hv : v ∈ t.not_visited
    · have hlt := length_set_erase_lt hv
      obtain ⟨F, t2, h1, h2, h3⟩ := ih _ hlt (inv.visit wf hv)
        ((t.graph.get_neighbors v).foldl
          (fun vs n => if n ∈ set_erase t.not_visited v then push vs n else vs) rest)
      refine ⟨F + 1, t2, ?_, h2, ?_, ?_⟩
      · intro fuel hf
        obtain ⟨f, rfl⟩ : ∃ f, fuel = f + 1 := ⟨fuel - 1, by omega⟩
        rw [component_loop]
        simp only [hv, if_true]
        exact h1 f (by omega)
      · exact le_of_lt (lt_of_le_of_lt h3 hlt)
      · intro _; exact lt_of_le_of_lt h3 hlt
    · obtain ⟨F, t2, h1, h2, h3, h4⟩ := ihs
      refine ⟨F + 1, t2, ?_, h2, h3, ?_⟩
      · intro fuel hf
        obtain ⟨f, rfl⟩ : ∃ f, fuel = f + 1 := ⟨fuel - 1, by omega⟩
        rw [component_loop]
        simp only [hv, if_false]
        exact h1 f (by omega)
      · rintro ⟨w, hw, hwn⟩
        apply h4
        rcases List.mem_cons.mp hw with h | h
        · rw [h] at hwn; exact absurd hwn hv
        · exact ⟨w, h, hwn⟩

theorem component_loop_spec {g0 : Graph} (wf : g0.ActiveWF) (push : List Nat → Nat → List Nat) :
    ∀ (n : Nat) (t : Traversal), t.not_visited.length = n → TravInv g0 t → ∀ stack : List Nat,
      ∃ F t2, (∀ fuel, F ≤ fuel → component_loop push fuel t stack = some t2) ∧
        TravInv g0 t2 ∧ t2.not_visited.length ≤ t.not_visited.length ∧
        ((∃ v ∈ stack, v ∈ t.not_visited) → t2.not_visited.length < t.not_visited.length) := by
  intro n
  induction n using Nat.strong_induction_on with
  | _ n ihn =>
    intro t hn inv stack
    apply component_loop_step wf push t inv _ stack
    intro t1 hlt inv1 stack1
    obtain ⟨F, t2, h1, h2, h3, _⟩ := ihn _ (hn ▸ hlt) t1 rfl inv1 stack1
    exact ⟨F, t2, h1, h2, h3⟩

theorem traversal_loop_spec {g0 : Graph} (wf : g0.ActiveWF) (push : List Nat → Nat → List Nat)
    (hpush : ∀ r, r ∈ push [] r) :
    ∀ (n : Nat) (t : Traversal) (rnd : Rand), t.not_visited.length = n → TravInv g0 t →
      ∃ F t2 rnd2, (∀ fuel ifuel, F ≤ fuel → F ≤ ifuel →
          traversal_loop push ifuel fuel t rnd = some (t2, rnd2)) ∧
        TravInv g0 t2 ∧ t2.not_visited = [] := by
  intro n
  induction n using Nat.strong_induction_on with
  | _ n ihn =>
    intro t rnd hn inv
    by_cases hz : t.not_visited.length = 0
    · refine ⟨0, t, rnd, ?_, inv, List.length_eq_zero.mp hz⟩
      intro fuel ifuel _ _
      cases fuel <;> simp [traversal_loop, hz]
    · have hpos : 0 < t.not_visited.length := Nat.pos_of_ne_zero hz
      have hidx : (rand rnd).1 % t.not_visited.length < t.not_visited.length :=
        Nat.mod_lt _ hpos
      have hroot := getD_mem_of_lt hidx
      obtain ⟨F1, t1, c1, c2, _, c4⟩ := component_loop_spec wf push _ t rfl inv
        (push [] (t.not_visited.getD ((rand rnd).1 % t.not_visited.length) 0))
      have hlt := c4 ⟨_, hpush _, hroot⟩
      obtain ⟨F2, t2, rnd2, d1, d2, d3⟩ := ihn _ (hn ▸ hlt) t1 (rand rnd).2 rfl c2
      refine ⟨max F1 (F2 + 1), t2, rnd2, ?_, d2, d3⟩
      intro fuel ifuel hf hif
      obtain ⟨f, rfl⟩ : ∃ f, fuel = f + 1 := ⟨fuel - 1, by omega⟩
      rw [traversal_loop]
      simp only [hz, if_false]
      rw [c1 ifuel (le_trans (le_max_left _ _) hif)]
      exact d1 f ifuel (by omega) (le_trans (le_trans (Nat.le_succ _) (le_max_right _ _)) hif)

theorem mem_foldl_set_insert (L acc : List Nat) (u : Nat) :
    u ∈ L.foldl (fun s i => set_insert s i) acc ↔ u ∈ acc ∨ u ∈ L := by
  induction L generalizing acc with
  | nil => simp
  | cons a L ih =>
    rw [List.foldl_cons, ih, mem_set_insert]
    simp only [List.mem_cons]
    tauto

theorem TravInv.at_start {g : Graph} (wf : g.ActiveWF) (hall : g.AllActive) :
    TravInv g (traversal_init g) := by
  have hmem : ∀ v, v ∈ (traversal_init g).not_visited ↔ v < g.num_vertices := by
    intro v
    unfold traversal_init
    simp only [mem_foldl_set_insert, List.not_mem_nil, false_or, List.mem_range, get_num_vertices]
  refine ⟨Induced.refl wf, ?_, ?_, ?_, ?_, ?_, ?_⟩
  · intro v hv; exact hall v ((hmem v).mp hv)
  · intro v _; rfl
  · intro v; left; rfl
  · intro v hv; exact absurd rfl hv
  · intro v hv hnv; exact absurd ((hmem v).mpr (wf.vertex_lt hv)) hnv
  · intro u v hu _ _; exact absurd rfl hu

theorem mem_get_vertices_aux (g : Graph) (L acc : List Nat) (u : Nat) :
    u ∈ L.foldl (fun vertices i => if g.is_active i then vertices ++ [i] else vertices) acc ↔
      u ∈ acc ∨ (u ∈ L ∧ g.is_active u = true) := by
  induction L generalizing acc with
  | nil => simp
  | cons a L ih =>
    rw [List.foldl_cons, ih]
    by_cases ha : g.is_active a = true
    · simp only [ha, if_true, List.mem_append, List.mem_cons, List.not_mem_nil, or_false]
      constructor
      · rintro ((h | h) | h)
        · left; exact h
        · right; exact ⟨Or.inl h, h ▸ ha⟩
        · right; exact ⟨Or.inr h.1, h.2⟩
      · rintro (h | ⟨h | h, h2⟩)
        · left; left; exact h
        · left; right; exact h
        · right; exact ⟨h, h2⟩
    · simp only [ha, List.mem_cons]
      constructor
      · rintro (h | h)
        · left; exact h
        · right; exact ⟨Or.inr h.1, h.2⟩
      · rintro (h | ⟨h | h, h2⟩)
        · left; exact h
        · rw [h] at h2; exact absurd h2 ha
        · right; exact ⟨h, h2⟩

theorem mem_get_vertices {g : Graph} (hl : g.vertices_active.length = g.num_vertices) (u : Nat) :
    u ∈ g.get_vertices ↔ g.is_active u = true := by
  unfold get_vertices
  rw [mem_get_vertices_aux]
  simp only [List.not_mem_nil, false_or, List.mem_range, get_num_vertices]
  exact ⟨fun h => h.2, fun h => ⟨is_active_lt hl h, h⟩⟩

theorem TravInv.result {g0 : Graph} {t : Traversal} (inv : TravInv g0 t)
    (hdone : t.not_visited = []) :
    (∀ v, v ∈ t.graph.get_vertices ↔ (t.colors v = 1 ∨ t.colors v = 2)) ∧
    (∀ u ∈ t.graph.get_vertices, ∀ v ∈ t.graph.get_vertices,
      v ∈ g0.get_neighbors u → t.colors u ≠ t.colors v) := by
  have hcol : ∀ v, v ∈ t.graph.get_vertices ↔ t.colors v ≠ 0 := by
    intro v
    rw [mem_get_vertices inv.ind.len_act]
    constructor
    · intro h; exact inv.act_col v h (by rw [hdone]; exact List.not_mem_nil v)
    · exact inv.col_act v
  constructor
  · intro v
    rw [hcol]
    have := inv.col_range v
    omega
  · intro u hu v hv hadj
    exact inv.proper u v ((hcol u).mp hu) ((hcol v).mp hv) hadj

theorem stack_push_mem (r : Nat) : r ∈ stack_push [] r := by simp [stack_push]

theorem queue_push_mem (r : Nat) : r ∈ queue_push [] r := by simp [queue_push]

/-! ## `set_difference` and the complement of the best candidate -/

theorem set_difference_aux_eq (a : Nat) (as : List Nat) (rest : List Nat → List Nat)
    (hrest : ∀ bs : List Nat, bs.Sorted (fun x y => x ≤ y) →
      rest bs = as.filter (fun x => decide (x ∉ bs)))
    (ha : ∀ x ∈ as, a < x) :
    ∀ bs : List Nat, bs.Sorted (fun x y => x ≤ y) →
      set_difference_aux a rest bs = (a :: as).filter (fun x => decide (x ∉ bs)) := by
  intro bs
  induction bs with
  | nil =>
    intro hs
    rw [set_difference_aux, hrest [] hs]
    simp
  | cons b bs ih =>
    intro hs
    have hs2 := List.sorted_cons.mp hs
    rw [set_difference_aux]
    by_cases hab : a < b
    · rw [if_pos hab, hrest _ hs]
      have hnot : a ∉ b :: bs := by
        intro h
        rcases List.mem_cons.mp h with h | h
        · omega
        · have := hs2.1 a h; omega
      rw [List.filter_cons_of_pos (by simpa using hnot)]
    · rw [if_neg hab]
      by_cases hba : b < a
      · rw [if_pos hba, ih hs2.2]
        apply List.filter_congr
        intro x hx
        have hxa : a ≤ x := by
          rcases List.mem_cons.mp hx with h | h
          · omega
          · exact le_of_lt (ha x h)
        have : x ≠ b := by omega
        simp [this]
      · rw [if_neg hba, hrest _ hs2.2]
        have hab2 : a = b := by omega
        subst hab2
        rw [List.filter_cons_of_neg (by simp)]
        apply List.filter_congr
        intro x hx
        have : x ≠ a := by have := ha x hx; omega
        simp [this]

theorem set_difference_eq (as : List Nat) (has : as.Sorted (fun x y => x < y)) :
    ∀ bs : List Nat, bs.Sorted (fun x y => x ≤ y) →
      set_difference as bs = as.filter (fun x => decide (x ∉ bs)) := by
  induction as with
  | nil => intro bs _; rfl
  | cons a as ih =>
    intro bs hs
    have h2 := List.sorted_cons.mp has
    rw [set_difference]
    exact set_difference_aux_eq a as _ (ih h2.2) h2.1 bs hs

theorem oct_of_eq (g : Graph) (best : List Nat) :
    oct_of g best = (List.range g.num_vertices).filter (fun x => decide (x ∉ best)) := by
  unfold oct_of
  rw [set_difference_eq _ (List.sorted_lt_range _) _ (List.sorted_insertionSort _ _)]
  apply List.filter_congr
  intro x _
  have := (List.perm_insertionSort (fun a b : Nat => a ≤ b) best).mem_iff (a := x)
  simp [this]

theorem mem_oct_of (g : Graph) (best : List Nat) (v : Nat) :
    v ∈ oct_of g best ↔ v < g.num_vertices ∧ v ∉ best := by
  rw [oct_of_eq]; simp

theorem sorted_oct_of (g : Graph) (best : List Nat) :
    (oct_of g best).Sorted (fun x y => x < y) := by
  rw [oct_of_eq]; exact (List.sorted_lt_range _).filter _

theorem length_oct_of (g : Graph) (best : List Nat) (hn : best.Nodup)
    (hr : ∀ v ∈ best, v < g.num_vertices) :
    (oct_of g best).length + best.length = g.num_vertices := by
  rw [oct_of_eq]
  have h1 := List.length_eq_length_filter_add (l := List.range g.num_vertices)
    (fun x => decide (x ∉ best))
  have h2 : ((List.range g.num_vertices).filter (fun x => !decide (x ∉ best))).Perm best := by
    rw [List.perm_ext_iff_of_nodup ((List.nodup_range _).filter _) hn]
    intro a
    simp only [List.mem_filter, List.mem_range]
    constructor
    · intro h; simpa using h.2
    · intro h; exact ⟨hr a h, by simpa using h⟩
  rw [h2.length_eq, List.length_range] at h1
  omega

/-! ## Soundness of the four heuristics whenever they return -/

theorem min_degree_loop_sound {g0 : Graph} (wf : g0.ActiveWF) (fuel : Nat) :
    ∀ (g : Graph) (vs : List Nat) (rnd : Rand) (res out : List Nat) (rnd1 : Rand),
      MISInv g0 g vs res → min_degree_loop fuel g vs rnd res = some (out, rnd1) →
      MaximalIndependent g0 out ∧ out.Nodup := by
  induction fuel with
  | zero =>
    intro g vs rnd res out rnd1 inv h
    rw [min_degree_loop] at h
    split at h
    · exact Option.noConfusion h
    · have hvs2 : vs = [] := List.length_eq_zero.mp (by omega)
      simp only [Option.some.injEq, Prod.mk.injEq] at h
      rw [← h.1]
      exact ⟨inv.done hvs2, inv.nodup⟩
  | succ fuel ih =>
    intro g vs rnd res out rnd1 inv h
    rw [min_degree_loop] at h
    split at h
    · rename_i hpos
      obtain ⟨u, hu⟩ := List.exists_mem_of_ne_nil vs (List.length_pos.mp hpos)
      obtain ⟨hne, hall⟩ := min_degree_vertices_good (inv.ind.wf wf) ((inv.verts u).mp hu)
      have hlen : 0 < g.get_min_degree_vertices.length := List.length_pos.mpr hne
      simp only [Nat.pos_iff_ne_zero.mp hlen, if_false] at h
      have hc := hall _ (getD_mem_of_lt (Nat.mod_lt (rand rnd).1 hlen))
      exact ih _ _ _ _ out rnd1 (inv.step wf hc) h
    · have hvs2 : vs = [] := List.length_eq_zero.mp (by omega)
      simp only [Option.some.injEq, Prod.mk.injEq] at h
      rw [← h.1]
      exact ⟨inv.done hvs2, inv.nodup⟩

theorem component_loop_sound {g0 : Graph} (wf : g0.ActiveWF) (push : List Nat → Nat → List Nat)
    (fuel : Nat) :
    ∀ (t : Traversal) (stack : List Nat) (t2 : Traversal), TravInv g0 t →
      component_loop push fuel t stack = some t2 → TravInv g0 t2 := by
  induction fuel with
  | zero =>
    intro t stack t2 inv h
    cases stack with
    | nil =>
      rw [component_loop_nil] at h
      simp only [Option.some.injEq] at h
      rw [← h]; exact inv
    | cons v rest => rw [component_loop] at h; exact Option.noConfusion h
  | succ fuel ih =>
    intro t stack t2 inv h
    cases stack with
    | nil =>
      rw [component_loop_nil] at h
      simp only [Option.some.injEq] at h
      rw [← h]; exact inv
    | cons v rest =>
      rw [component_loop] at h
      split at h
      · rename_i hv
        exact ih _ _ t2 (inv.visit wf hv) h
      · exact ih _ _ t2 inv h

theorem traversal_loop_sound {g0 : Graph} (wf : g0.ActiveWF) (push : List Nat → Nat → List Nat)
    (ifuel fuel : Nat) :
    ∀ (t : Traversal) (rnd : Rand) (t2 : Traversal) (rnd2 : Rand), TravInv g0 t →
      traversal_loop push ifuel fuel t rnd = some (t2, rnd2) →
      TravInv g0 t2 ∧ t2.not_visited = [] := by
  induction fuel with
  | zero =>
    intro t rnd t2 rnd2 inv h
    rw [traversal_loop] at h
    split at h
    · rename_i hz
      simp only [Option.some.injEq, Prod.mk.injEq] at h
      rw [← h.1]
      exact ⟨inv, List.length_eq_zero.mp hz⟩
    · exact Option.noConfusion h
  | succ fuel ih =>
    intro t rnd t2 rnd2 inv h
    rw [traversal_loop] at h
    split at h
    · rename_i hz
      simp only [Option.some.injEq, Prod.mk.injEq] at h
      rw [← h.1]
      exact ⟨inv, List.length_eq_zero.mp hz⟩
    · simp only at h
      split at h
      · exact Option.noConfusion h
      · rename_i t1 hc
        exact ih _ _ t2 rnd2 (component_loop_sound wf push ifuel _ _ t1 inv hc) h

theorem bipartite_of_two_independent {g : Graph} {s1 s2 : List Nat} (hn : (s2 ++ s1).Nodup)
    (h1 : Independent g s1) (h2 : Independent g s2) :
    InducesBipartite g (fun v => v ∈ s2 ++ s1) := by
  have hdis : ∀ a, a ∈ s2 → a ∈ s1 → False := fun _ h1 h2 => (List.nodup_append.mp hn).2.2 h1 h2
  refine ⟨fun v => decide (v ∈ s1), ?_⟩
  intro u v hu hv hadj
  rcases List.mem_append.mp hu with hu | hu <;> rcases List.mem_append.mp hv with hv | hv
  · exact absurd hadj (h2 u hu v hv)
  · have : u ∉ s1 := fun h => hdis u hu h
    simp [this, hv]
  · have : v ∉ s1 := fun h => hdis v hv h
    simp [this, hu]
  · exact absurd hadj (h1 u hu v hv)

theorem bipartite_of_colors {g : Graph} {t : Traversal}
    (h1 : ∀ v, v ∈ t.graph.get_vertices ↔ (t.colors v = 1 ∨ t.colors v = 2))
    (h2 : ∀ u ∈ t.graph.get_vertices, ∀ v ∈ t.graph.get_vertices,
      v ∈ g.get_neighbors u → t.colors u ≠ t.colors v) :
    InducesBipartite g (fun v => v ∈ t.graph.get_vertices) := by
  refine ⟨fun v => decide (t.colors v = 1), ?_⟩
  intro u v hu hv hadj
  have hne := h2 u hu v hv hadj
  have cu := (h1 u).mp hu
  have cv := (h1 v).mp hv
  rcases cu with cu | cu <;> rcases cv with cv | cv <;> simp [cu, cv] <;> omega

theorem greedy_bipartite_sound {g : Graph} (wf : g.ActiveWF) (srand : Nat → Rand) (fuel : Nat)
    (seed : Nat) (prior : Rand) (r : List Nat) (rnd2 : Rand)
    (h : greedy_bipartite srand fuel g seed prior = some (r, rnd2)) :
    ∃ s1 s2, r = s2 ++ s1 ∧ MaximalIndependent g s1 ∧ s1.Nodup ∧
      MaximalIndependent (remove_all g s1) s2 ∧ s2.Nodup := by
  unfold greedy_bipartite at h
  split at h
  · exact Option.noConfusion h
  · rename_i s1 rnd1 e1
    split at h
    · exact Option.noConfusion h
    · rename_i s2 rnd3 e2
      simp only [Option.some.injEq, Prod.mk.injEq] at h
      have m1 := min_degree_loop_sound wf fuel g _ _ [] s1 rnd1 (MISInv.on_entry wf) e1
      have ind : Induced g (remove_all g s1) := (Induced.refl wf).remove_all wf s1
      have wf2 := ind.wf wf
      have m2 := min_degree_loop_sound wf2 fuel _ _ _ [] s2 rnd3 (MISInv.on_entry wf2) e2
      exact ⟨s1, s2, h.1.symm, m1.1, m1.2, m2.1, m2.2⟩

theorem greedy_stochastic_sound {g : Graph} (wf : g.ActiveWF) (srand : Nat → Rand)
    (accept : Nat → Nat → Bool) (fuel : Nat)
    (seed : Nat) (prior : Rand) (r : List Nat) (rnd2 : Rand)
    (h : greedy_stochastic srand accept fuel g seed prior = some (r, rnd2)) :
    ∃ s1 s2 rnd1, luby_ind_set accept fuel g [] (srand seed) = some (s1, rnd1) ∧
      luby_ind_set accept fuel (remove_all g s1) [] rnd1 = some (s2, rnd2) ∧
      r = s2 ++ s1 ∧ MaximalIndependent g s1 ∧ s1.Nodup ∧
      MaximalIndependent (remove_all g s1) s2 ∧ s2.Nodup := by
  unfold greedy_stochastic at h
  split at h
  · exact Option.noConfusion h
  · rename_i s1 rnd1 e1
    split at h
    · exact Option.noConfusion h
    · rename_i s2 rnd3 e2
      simp only [Option.some.injEq, Prod.mk.injEq] at h
      have m1 := luby_ind_set_spec wf accept fuel _ s1 rnd1 e1
      have ind : Induced g (remove_all g s1) := (Induced.refl wf).remove_all wf s1
      have wf2 := ind.wf wf
      have m2 := luby_ind_set_spec wf2 accept fuel _ s2 rnd3 e2
      refine ⟨s1, s2, rnd1, e1, ?_, h.1.symm, m1.1, m1.2, m2.1, m2.2⟩
      rw [e2, h.2]

theorem traversal_sound {g : Graph} (wf : g.ActiveWF) (hall : g.AllActive)
    (push : List Nat → Nat → List Nat) (ifuel fuel : Nat) (rnd : Rand) (t : Traversal)
    (rnd1 : Rand) (h : traversal_loop push ifuel fuel (traversal_init g) rnd = some (t, rnd1)) :
    (∀ v, v ∈ t.graph.get_vertices ↔ (t.colors v = 1 ∨ t.colors v = 2)) ∧
      (∀ u ∈ t.graph.get_vertices, ∀ v ∈ t.graph.get_vertices,
        v ∈ g.get_neighbors u → t.colors u ≠ t.colors v) := by
  obtain ⟨h2, h3⟩ := traversal_loop_sound wf push ifuel fuel _ rnd t rnd1 (TravInv.at_start wf hall) h
  exact h2.result h3

theorem solver_sound {g : Graph} (wf : g.ActiveWF) (hall : g.AllActive) (srand : Nat → Rand)
    (accept : Nat → Nat → Bool) (solver : Solver) (hs : solver ∈ solvers srand accept)
    (fuel seed : Nat) (prior : Rand) (r : List Nat) (rnd2 : Rand)
    (h : solver fuel g seed prior = some (r, rnd2)) :
    InducesBipartite g (fun v => v ∈ r) := by
  simp only [solvers, List.mem_cons, List.mem_singleton, List.not_mem_nil, or_false] at hs
  rcases hs with rfl | rfl | rfl | rfl
  · obtain ⟨s1, s2, e, m1, n1, m2, n2⟩ := greedy_bipartite_sound wf srand fuel seed prior r rnd2 h
    obtain ⟨a, b, c, _⟩ := two_pass wf m1 n1 m2 n2
    rw [e]; exact bipartite_of_two_independent a b c
  · obtain ⟨s1, s2, _, _, _, e, m1, n1, m2, n2⟩ :=
      greedy_stochastic_sound wf srand accept fuel seed prior r rnd2 h
    obtain ⟨a, b, c, _⟩ := two_pass wf m1 n1 m2 n2
    rw [e]; exact bipartite_of_two_independent a b c
  · unfold greedy_dfs_bipartite greedy_dfs_run at h
    rw [Option.map_eq_some'] at h
    obtain ⟨⟨t, rnd1⟩, ht, e⟩ := h
    simp only [Prod.mk.injEq] at e
    obtain ⟨c1, c2⟩ := traversal_sound wf hall _ _ _ _ t rnd1 ht
    rw [← e.1]; exact bipartite_of_colors c1 c2
  · unfold greedy_bfs_bipartite greedy_bfs_run at h
    rw [Option.map_eq_some'] at h
    obtain ⟨⟨t, rnd1⟩, ht, e⟩ := h
    simp only [Prod.mk.injEq] at e
    obtain ⟨c1, c2⟩ := traversal_sound wf hall _ _ _ _ t rnd1 ht
    rw [← e.1]; exact bipartite_of_colors c1 c2

/-! ## The scheduler loop -/

theorem solve_loop_inv (solvers : List Solver) (hfuel : Nat) (g : Graph) (timeout : Int)
    (elapsed : Nat → Int) (P : Ensemble → Prop)
    (hstep : ∀ (s : Ensemble) (solver : Solver) (result : List Nat) (rnd1 : Rand) (tt : Option Int)
      (tk : Nat), P s →
      solvers[s.idx]? = some solver → solver hfuel g s.seed s.rnd = some (result, rnd1) →
      (result.length > s.best.length →
        P { idx := (s.idx + 1) % solvers.length, seed := s.seed + 1, best := result,
            totalTime := tt, tick := tk, rnd := rnd1, tried := s.tried ++ [result] }) ∧
      (¬ result.length > s.best.length →
        P { idx := (s.idx + 1) % solvers.length, seed := s.seed + 1, best := s.best,
            totalTime := tt, tick := tk, rnd := rnd1, tried := s.tried ++ [result] }))
    (fuel : Nat) :
    ∀ s s2 : Ensemble, P s → solve_loop solvers hfuel g timeout elapsed fuel s = some s2 → P s2 := by
  induction fuel with
  | zero =>
    intro s s2 hP h
    rw [solve_loop] at h
    split at h
    · exact Option.noConfusion h
    · simp only [Option.some.injEq] at h
      rw [← h]; exact hP
  | succ fuel ih =>
    intro s s2 hP h
    rw [solve_loop] at h
    split at h
    · split at h
      · exact Option.noConfusion h
      · rename_i solver hsol
        split at h
        · exact Option.noConfusion h
        · rename_i result rnd1 hres
          split at h
          · rename_i hgt
            exact ih _ s2 ((hstep s solver result rnd1 _ _ hP hsol hres).1 hgt) h
          · rename_i hgt
            exact ih _ s2 ((hstep s solver result rnd1 _ _ hP hsol hres).2 hgt) h
    · simp only [Option.some.injEq] at h
      rw [← h]; exact hP

theorem FirstMax.le {tried : List (List Nat)} {best : List Nat} (h : FirstMax tried best) :
    ∀ c ∈ tried, c.length ≤ best.length := by
  intro c hc
  rcases h with ⟨_, h2⟩ | ⟨pre, post, e, h1, h2⟩
  · rw [h2 c hc]; exact Nat.zero_le _
  · rw [e] at hc
    rcases List.mem_append.mp hc with h | h
    · exact le_of_lt (h1 c h)
    · rcases List.mem_cons.mp h with h | h
      · rw [h]
      · exact h2 c h

theorem FirstMax.improve {tried : List (List Nat)} {best result : List Nat}
    (h : FirstMax tried best) (hgt : result.length > best.length) :
    FirstMax (tried ++ [result]) result := by
  right
  refine ⟨tried, [], rfl, ?_, ?_⟩
  · intro c hc; exact lt_of_le_of_lt (h.le c hc) hgt
  · intro c hc; exact absurd hc (List.not_mem_nil c)

theorem FirstMax.keep {tried : List (List Nat)} {best result : List Nat}
    (h : FirstMax tried best) (hle : ¬ result.length > best.length) :
    FirstMax (tried ++ [result]) best := by
  rcases h with ⟨h1, h2⟩ | ⟨pre, post, e, h1, h2⟩
  · left
    refine ⟨h1, ?_⟩
    intro c hc
    rcases List.mem_append.mp hc with h | h
    · exact h2 c h
    · rw [List.mem_singleton.mp h]
      rw [h1] at hle
      exact List.length_eq_zero.mp (by simpa using hle)
  · right
    refine ⟨pre, post ++ [result], by rw [e]; simp, h1, ?_⟩
    intro c hc
    rcases List.mem_append.mp hc with h | h
    · exact h2 c h
    · rw [List.mem_singleton.mp h]; omega

theorem solve_loop_first_max (solvers : List Solver) (hfuel : Nat) (g : Graph) (timeout : Int)
    (elapsed : Nat → Int) (fuel : Nat) (prior : Rand) (s : Ensemble)
    (h : solve_loop solvers hfuel g timeout elapsed fuel (solve_init prior) = some s) :
    FirstMax s.tried s.best := by
  refine solve_loop_inv solvers hfuel g timeout elapsed (fun s => FirstMax s.tried s.best)
    ?_ fuel (solve_init prior) s ?_ h
  · intro s solver result rnd1 tt tk hP _ _
    exact ⟨fun hgt => hP.improve hgt, fun hle => hP.keep hle⟩
  · left; exact ⟨rfl, fun c hc => absurd hc (List.not_mem_nil c)⟩

theorem solve_loop_bipartite {g : Graph} (wf : g.ActiveWF) (hall : g.AllActive)
    (srand : Nat → Rand) (accept : Nat → Nat → Bool) (hfuel : Nat) (timeout : Int)
    (elapsed : Nat → Int) (fuel : Nat) (prior : Rand) (s : Ensemble)
    (h : solve_loop (solvers srand accept) hfuel g timeout elapsed fuel (solve_init prior)
      = some s) :
    InducesBipartite g (fun v => v ∈ s.best) := by
  refine solve_loop_inv (solvers srand accept) hfuel g timeout elapsed
    (fun s => InducesBipartite g (fun v => v ∈ s.best)) ?_ fuel (solve_init prior) s ?_ h
  · intro s solver result rnd1 tt tk hP hmem hres
    exact ⟨fun _ => solver_sound wf hall srand accept solver (List.getElem?_mem hmem) hfuel
        s.seed s.rnd result rnd1 hres,
      fun _ => hP⟩
  · exact ⟨fun _ => true, fun u v hu _ _ => absurd hu (List.not_mem_nil u)⟩

/-! ## Non-empty results -/

theorem min_degree_loop_grows (fuel : Nat) :
    ∀ (g : Graph) (vs : List Nat) (rnd : Rand) (res out : List Nat) (rnd1 : Rand),
      min_degree_loop fuel g vs rnd res = some (out, rnd1) →
      res.length ≤ out.length ∧ (vs ≠ [] → res.length < out.length) := by
  induction fuel with
  | zero =>
    intro g vs rnd res out rnd1 h
    rw [min_degree_loop] at h
    split at h
    · exact Option.noConfusion h
    · rename_i hvs
      simp only [Option.some.injEq, Prod.mk.injEq] at h
      rw [← h.1]
      exact ⟨le_refl _, fun hne => absurd (List.length_pos.mpr hne) hvs⟩
  | succ fuel ih =>
    intro g vs rnd res out rnd1 h
    rw [min_degree_loop] at h
    split at h
    · simp only at h
      split at h
      · exact Option.noConfusion h
      · have := (ih _ _ _ _ out rnd1 h).1
        simp only [List.length_append, List.length_singleton] at this
        exact ⟨by omega, fun _ => by omega⟩
    · rename_i hvs
      simp only [Option.some.injEq, Prod.mk.injEq] at h
      rw [← h.1]
      exact ⟨le_refl _, fun hne => absurd (List.length_pos.mpr hne) hvs⟩

theorem luby_commit_length (chosen : List Nat) :
    ∀ (st : Graph × List Nat) (res : List Nat),
      (luby_commit chosen st res).2.length = res.length + chosen.length := by
  induction chosen with
  | nil => intro st res; rfl
  | cons v chosen ih =>
    intro st res
    rw [luby_commit, ih]
    simp only [List.length_append, List.length_cons, List.length_nil]
    omega

theorem luby_loop_grows (accept : Nat → Nat → Bool) (fuel : Nat) :
    ∀ (g : Graph) (vs : List Nat) (rnd : Rand) (res out : List Nat) (rnd1 : Rand),
      luby_loop accept fuel g vs rnd res = some (out, rnd1) →
      res.length ≤ out.length ∧ (vs ≠ [] → res.length < out.length) := by
  induction fuel with
  | zero =>
    intro g vs rnd res out rnd1 h
    rw [luby_loop] at h
    split at h
    · exact Option.noConfusion h
    · rename_i hvs
      simp only [Option.some.injEq, Prod.mk.injEq] at h
      rw [← h.1]
      exact ⟨le_refl _, fun hne => absurd (List.length_pos.mpr hne) hvs⟩
  | succ fuel ih =>
    intro g vs rnd res out rnd1 h
    rw [luby_loop] at h
    split at h
    · rename_i hvs
      simp only at h
      have hvs2 : vs ≠ [] := List.length_pos.mp hvs
      cases hch : luby_resolve g (luby_select accept g vs rnd []).1
          (luby_select accept g vs rnd []).1 [] with
      | nil =>
        rw [hch] at h
        simp only [luby_commit] at h
        have := (ih _ _ _ _ out rnd1 h).2 hvs2
        exact ⟨le_of_lt this, fun _ => this⟩
      | cons c cs =>
        have h1 := (ih _ _ _ _ out rnd1 h).1
        rw [luby_commit_length, hch] at h1
        simp only [List.length_cons] at h1
        exact ⟨by omega, fun _ => by omega⟩
    · rename_i hvs
      simp only [Option.some.injEq, Prod.mk.injEq] at h
      rw [← h.1]
      exact ⟨le_refl _, fun hne => absurd (List.length_pos.mpr hne) hvs⟩

theorem active_set_ne_nil {g : Graph} (hn : 0 < g.num_vertices) (hall : g.AllActive) :
    active_set g ≠ [] := by
  have : 0 ∈ active_set g := by
    unfold active_set
    rw [mem_active_set_aux]
    right
    exact ⟨List.mem_range.mpr hn, hall 0 hn⟩
  exact List.ne_nil_of_mem this

theorem color_vertex_graph (g : Graph) (colors : Colors) (v : Nat) :
    (color_vertex g colors v).1 = g ∨ (color_vertex g colors v).1 = g.remove_vertex v := by
  unfold color_vertex
  simp only
  split
  · left; rfl
  · split
    · left; rfl
    · right; rfl

theorem color_vertex_keeps (g : Graph) (colors : Colors) (v r : Nat) (hr : r ≠ v)
    (hlt : r < g.num_vertices) (ha : g.is_active r = true) :
    r < (color_vertex g colors v).1.num_vertices ∧
      (color_vertex g colors v).1.is_active r = true := by
  rcases color_vertex_graph g colors v with h | h <;> rw [h]
  · exact ⟨hlt, ha⟩
  · rw [remove_vertex_num, is_active_remove_vertex]
    exact ⟨hlt, by simp [ha, hr]⟩

theorem component_loop_keeps (push : List Nat → Nat → List Nat) (r : Nat) (fuel : Nat) :
    ∀ (t : Traversal) (stack : List Nat) (t2 : Traversal),
      (r < t.graph.num_vertices ∧ t.graph.is_active r = true ∧ r ∉ t.not_visited) →
      component_loop push fuel t stack = some t2 →
      (r < t2.graph.num_vertices ∧ t2.graph.is_active r = true ∧ r ∉ t2.not_visited) := by
  induction fuel with
  | zero =>
    intro t stack t2 hk h
    cases stack with
    | nil =>
      rw [component_loop_nil] at h
      simp only [Option.some.injEq] at h
      rw [← h]; exact hk
    | cons v rest => rw [component_loop] at h; exact Option.noConfusion h
  | succ fuel ih =>
    intro t stack t2 hk h
    cases stack with
    | nil =>
      rw [component_loop_nil] at h
      simp only [Option.some.injEq] at h
      rw [← h]; exact hk
    | cons v rest =>
      rw [component_loop] at h
      split at h
      · rename_i hv
        have hrv : r ≠ v := fun e => hk.2.2 (e ▸ hv)
        obtain ⟨k1, k2⟩ := color_vertex_keeps t.graph t.colors v r hrv hk.1 hk.2.1
        exact ih _ _ t2 ⟨k1, k2, fun hm => hk.2.2 (mem_set_erase.mp hm).1⟩ h
      · exact ih _ _ t2 hk h

theorem traversal_loop_keeps (push : List Nat → Nat → List Nat) (r : Nat) (ifuel fuel : Nat) :
    ∀ (t : Traversal) (rnd : Rand) (t2 : Traversal) (rnd2 : Rand),
      (r < t.graph.num_vertices ∧ t.graph.is_active r = true ∧ r ∉ t.not_visited) →
      traversal_loop push ifuel fuel t rnd = some (t2, rnd2) →
      (r < t2.graph.num_vertices ∧ t2.graph.is_active r = true ∧ r ∉ t2.not_visited) := by
  induction fuel with
  | zero =>
    intro t rnd t2 rnd2 hk h
    rw [traversal_loop] at h
    split at h
    · simp only [Option.some.injEq, Prod.mk.injEq] at h
      rw [← h.1]; exact hk
    · exact Option.noConfusion h
  | succ fuel ih =>
    intro t rnd t2 rnd2 hk h
    rw [traversal_loop] at h
    split at h
    · simp only [Option.some.injEq, Prod.mk.injEq] at h
      rw [← h.1]; exact hk
    · simp only at h
      split at h
      · exact Option.noConfusion h
      · rename_i t1 hc
        exact ih _ _ t2 rnd2 (component_loop_keeps push r ifuel _ _ t1 hk hc) h

theorem color_vertex_uncolored (g : Graph) (v : Nat) :
    (color_vertex g (fun _ => 0) v).1 = g := by
  unfold color_vertex
  simp

theorem traversal_nonempty {g : Graph} (hn : 0 < g.num_vertices) (hall : g.AllActive)
    (push : List Nat → Nat → List Nat) (hpush : ∀ r, push [] r = [r]) (ifuel fuel : Nat)
    (rnd : Rand) (t2 : Traversal) (rnd2 : Rand)
    (h : traversal_loop push ifuel fuel (traversal_init g) rnd = some (t2, rnd2)) :
    t2.graph.get_vertices ≠ [] := by
  have hmem : ∀ v, v ∈ (traversal_init g).not_visited ↔ v < g.num_vertices := by
    intro v
    unfold traversal_init
    simp only [mem_foldl_set_insert, List.not_mem_nil, false_or, List.mem_range, get_num_vertices]
  have hne : (traversal_init g).not_visited.length ≠ 0 := by
    intro hz
    have := (hmem 0).mpr hn
    rw [List.length_eq_zero.mp hz] at this
    exact absurd this (List.not_mem_nil 0)
  suffices hk : ∃ r, r < t2.graph.num_vertices ∧ t2.graph.is_active r = true by
    obtain ⟨r, h1, h2⟩ := hk
    have : r ∈ t2.graph.get_vertices := by
      unfold get_vertices
      rw [mem_get_vertices_aux]
      right; exact ⟨List.mem_range.mpr h1, h2⟩
    exact List.ne_nil_of_mem this
  cases fuel with
  | zero =>
    rw [traversal_loop] at h
    simp only [hne, if_false] at h
    exact Option.noConfusion h
  | succ fuel =>
    rw [traversal_loop] at h
    simp only [hne, if_false, hpush] at h
    split at h
    · exact Option.noConfusion h
    · rename_i t1 hc
      have hroot := getD_mem_of_lt (Nat.mod_lt (rand rnd).1 (Nat.pos_of_ne_zero hne))
      generalize (traversal_init g).not_visited.getD
        ((rand rnd).1 % (traversal_init g).not_visited.length) 0 = root at hroot hc
      have hrlt := (hmem root).mp hroot
      cases ifuel with
      | zero => rw [component_loop] at hc; exact Option.noConfusion hc
      | succ ifuel =>
        rw [component_loop] at hc
        simp only [hroot, if_true] at hc
        have hg : (color_vertex (traversal_init g).graph (traversal_init g).colors root).1 = g :=
          color_vertex_uncolored g root
        have k1 := component_loop_keeps push root ifuel _ _ t1
          ⟨by rw [hg]; exact hrlt, by rw [hg]; exact hall root hrlt,
           fun hm => (mem_set_erase.mp hm).2 rfl⟩ hc
        have k2 := traversal_loop_keeps push root _ fuel _ _ t2 rnd2 k1 h
        exact ⟨root, k2.1, k2.2.1⟩

theorem solve_loop_trace (solvers : List Solver) (hfuel : Nat) (g : Graph) (timeout : Int)
    (elapsed : Nat → Int) (fuel : Nat) (prior : Rand) (s : Ensemble)
    (h : solve_loop solvers hfuel g timeout elapsed fuel (solve_init prior) = some s) :
    s.seed = s.tried.length ∧ s.idx = s.seed % solvers.length ∧
      ∀ k, k < s.tried.length → ∃ solver rnd rnd1,
        solvers[k % solvers.length]? = some solver ∧
        solver hfuel g k rnd = some (s.tried.getD k [], rnd1) := by
  refine solve_loop_inv solvers hfuel g timeout elapsed
    (fun s => s.seed = s.tried.length ∧ s.idx = s.seed % solvers.length ∧
      ∀ k, k < s.tried.length → ∃ solver rnd rnd1,
        solvers[k % solvers.length]? = some solver ∧
        solver hfuel g k rnd = some (s.tried.getD k [], rnd1))
    ?_ fuel (solve_init prior) s ?_ h
  · intro s solver result rnd1 tt tk hP hsol hres
    obtain ⟨p1, p2, p3⟩ := hP
    have key : (s.seed + 1 = (s.tried ++ [result]).length) ∧
        ((s.idx + 1) % solvers.length = (s.seed + 1) % solvers.length) ∧
        ∀ k, k < (s.tried ++ [result]).length → ∃ solver rnd rnd1,
          solvers[k % solvers.length]? = some solver ∧
          solver hfuel g k rnd = some ((s.tried ++ [result]).getD k [], rnd1) := by
      refine ⟨by simp [p1], by rw [p2, Nat.mod_add_mod], ?_⟩
      intro k hk
      simp only [List.length_append, List.length_singleton] at hk
      by_cases hlt : k < s.tried.length
      · obtain ⟨sv, r0, r1, e1, e2⟩ := p3 k hlt
        refine ⟨sv, r0, r1, e1, ?_⟩
        rw [List.getD_append _ _ _ _ hlt]; exact e2
      · have hk2 : k = s.tried.length := by omega
        refine ⟨solver, s.rnd, rnd1, ?_, ?_⟩
        · rw [hk2, ← p1, ← p2]; exact hsol
        · rw [List.getD_append_right _ _ _ _ (by omega), hk2]
          simp only [Nat.sub_self, List.getD_cons_zero]
          rw [← p1]; exact hres
    exact ⟨fun _ => key, fun _ => key⟩
  · exact ⟨rfl, by simp [solve_init], fun k hk => absurd hk (Nat.not_lt_zero k)⟩

theorem colored_result_of_inv {g0 : Graph} {t : Traversal} (inv : TravInv g0 t)
    (hdone : t.not_visited = []) : ColoredResult g0 t := by
  obtain ⟨r1, r2⟩ := inv.result hdone
  refine ⟨r1, ?_, r2⟩
  intro v hv
  have h1 := inv.col_range v
  have h2 := (r1 v).not.mp hv
  omega

theorem traversal_total {g : Graph} (wf : g.ActiveWF) (hall : g.AllActive)
    (push : List Nat → Nat → List Nat) (hpush : ∀ r, r ∈ push [] r) (rnd : Rand) :
    ∃ F t rnd1, (∀ fuel, F ≤ fuel →
        traversal_loop push fuel fuel (traversal_init g) rnd = some (t, rnd1)) ∧
      ColoredResult g t := by
  obtain ⟨F, t, rnd1, h1, h2, h3⟩ :=
    traversal_loop_spec wf push hpush _ (traversal_init g) rnd rfl (TravInv.at_start wf hall)
  exact ⟨F, t, rnd1, fun fuel hf => h1 fuel fuel hf hf, colored_result_of_inv h2 h3⟩

theorem map_fst_eq_some {α β : Type} {x : Option (α × β)} {a : α}
    (h : x.map Prod.fst = some a) : ∃ b, x = some (a, b) := by
  cases x with
  | none => exact Option.noConfusion h
  | some p =>
    obtain ⟨a1, b1⟩ := p
    simp only [Option.map_some', Option.some.injEq] at h
    exact ⟨b1, by rw [h]⟩

/-! ## Candidates are vertex subsets -/

theorem get_vertices_aux_eq (g : Graph) (L acc : List Nat) :
    L.foldl (fun vertices i => if g.is_active i then vertices ++ [i] else vertices) acc =
      acc ++ L.filter (fun i => g.is_active i) := by
  induction L generalizing acc with
  | nil => simp
  | cons a L ih =>
    rw [List.foldl_cons, ih]
    by_cases ha : g.is_active a = true
    · simp [ha]
    · simp [ha]

theorem get_vertices_eq (g : Graph) :
    g.get_vertices = (List.range g.num_vertices).filter (fun i => g.is_active i) := by
  unfold get_vertices get_num_vertices
  rw [get_vertices_aux_eq]
  simp

theorem get_vertices_subset (g : Graph) :
    g.get_vertices.Nodup ∧ ∀ v ∈ g.get_vertices, v < g.num_vertices := by
  rw [get_vertices_eq]
  refine ⟨(List.nodup_range _).filter _, ?_⟩
  intro v hv
  exact List.mem_range.mp (List.mem_filter.mp hv).1

theorem solver_subset {g : Graph} (wf : g.ActiveWF) (hall : g.AllActive) (srand : Nat → Rand)
    (accept : Nat → Nat → Bool) (solver : Solver) (hs : solver ∈ solvers srand accept)
    (fuel seed : Nat) (prior : Rand) (r : List Nat) (rnd2 : Rand)
    (h : solver fuel g seed prior = some (r, rnd2)) :
    r.Nodup ∧ ∀ v ∈ r, v < g.num_vertices := by
  simp only [solvers, List.mem_cons, List.mem_singleton, List.not_mem_nil, or_false] at hs
  rcases hs with rfl | rfl | rfl | rfl
  · obtain ⟨s1, s2, e, m1, n1, m2, n2⟩ := greedy_bipartite_sound wf srand fuel seed prior r rnd2 h
    obtain ⟨a, _, _, d⟩ := two_pass wf m1 n1 m2 n2
    rw [e]; exact ⟨a, fun v hv => wf.vertex_lt (d v hv)⟩
  · obtain ⟨s1, s2, _, _, _, e, m1, n1, m2, n2⟩ :=
      greedy_stochastic_sound wf srand accept fuel seed prior r rnd2 h
    obtain ⟨a, _, _, d⟩ := two_pass wf m1 n1 m2 n2
    rw [e]; exact ⟨a, fun v hv => wf.vertex_lt (d v hv)⟩
  · unfold greedy_dfs_bipartite greedy_dfs_run at h
    rw [Option.map_eq_some'] at h
    obtain ⟨⟨t, rnd1⟩, ht, e⟩ := h
    simp only [Prod.mk.injEq] at e
    obtain ⟨inv, _⟩ := traversal_loop_sound wf _ _ _ _ _ t rnd1 (TravInv.at_start wf hall) ht
    rw [← e.1, ← inv.ind.num]; exact get_vertices_subset t.graph
  · unfold greedy_bfs_bipartite greedy_bfs_run at h
    rw [Option.map_eq_some'] at h
    obtain ⟨⟨t, rnd1⟩, ht, e⟩ := h
    simp only [Prod.mk.injEq] at e
    obtain ⟨inv, _⟩ := traversal_loop_sound wf _ _ _ _ _ t rnd1 (TravInv.at_start wf hall) ht
    rw [← e.1, ← inv.ind.num]; exact get_vertices_subset t.graph

theorem solve_loop_subsets {g : Graph} (wf : g.ActiveWF) (hall : g.AllActive)
    (srand : Nat → Rand) (accept : Nat → Nat → Bool) (hfuel : Nat) (timeout : Int)
    (elapsed : Nat → Int) (fuel : Nat) (prior : Rand) (s : Ensemble)
    (h : solve_loop (solvers srand accept) hfuel g timeout elapsed fuel (solve_init prior)
      = some s) :
    ∀ c ∈ s.tried, c.Nodup ∧ ∀ v ∈ c, v < g.num_vertices := by
  refine solve_loop_inv (solvers srand accept) hfuel g timeout elapsed
    (fun s => ∀ c ∈ s.tried, c.Nodup ∧ ∀ v ∈ c, v < g.num_vertices) ?_ fuel
    (solve_init prior) s ?_ h
  · intro s solver result rnd1 tt tk hP hmem hres
    have key : ∀ c ∈ s.tried ++ [result], c.Nodup ∧ ∀ v ∈ c, v < g.num_vertices := by
      intro c hc
      rcases List.mem_append.mp hc with hc | hc
      · exact hP c hc
      · rw [List.mem_singleton.mp hc]
        exact solver_subset wf hall srand accept solver (List.getElem?_mem hmem) hfuel
          s.seed s.rnd result rnd1 hres
    exact ⟨fun _ => key, fun _ => key⟩
  · intro c hc; exact absurd hc (List.not_mem_nil c)

/-! ## The claims -/

/-- C1: for a graph with symmetric adjacency, no self-loops and all vertices
active, whatever the clock readings (so for any number of completed iterations,
zero included), the seeding function, the selection test and the fuel, if
`heuristic_solve` returns `(oct, time)` then the subgraph induced on the
vertices below `num_vertices` that are not in `oct` is bipartite. -/
theorem heuristic_solve_is_transversal (g : Graph) (wf : g.ActiveWF) (hall : g.AllActive)
    (srand : Nat → Rand) (accept : Nat → Nat → Bool) (hfuel fuel : Nat) (timeout : Int)
    (elapsed : Nat → Int) (prior : Rand) (oct : List Nat) (time : Option Int)
    (h : heuristic_solve srand accept hfuel fuel g timeout elapsed prior = some (oct, time)) :
    InducesBipartite g (fun v => v < g.num_vertices ∧ v ∉ oct) := by
  unfold heuristic_solve heuristic_solve_with at h
  rw [Option.map_eq_some'] at h
  obtain ⟨s, hs, e⟩ := h
  simp only [Prod.mk.injEq] at e
  obtain ⟨c, hc⟩ := solve_loop_bipartite wf hall srand accept hfuel timeout elapsed fuel prior s hs
  refine ⟨c, fun u v hu hv hadj => hc u v ?_ ?_ hadj⟩
  · by_contra hn
    exact hu.2 (e.1 ▸ (mem_oct_of g s.best u).mpr ⟨hu.1, hn⟩)
  · by_contra hn
    exact hv.2 (e.1 ▸ (mem_oct_of g s.best v).mpr ⟨hv.1, hn⟩)

/-- Witness of C1 on the triangle with one completed iteration. -/
theorem heuristic_solve_is_transversal_witness :
    InducesBipartite triangle (fun v => v < triangle.num_vertices ∧ v ∉ [1]) :=
  heuristic_solve_is_transversal triangle (by decide) (by decide) demo_srand demo_accept 3 1 1
    (fun k => k) (fun _ => 0) [1] (some 1) (by decide)

/-- C2: for every graph and every list of solvers (so for every sequence of
candidates), when the loop of `heuristic_solve` ends with best candidate `best`
after the candidates `tried`: the sequence returned is `oct_of g best`; it is
strictly ascending; it holds exactly the ids below `num_vertices` that are not in
`best`; `tried` lists, in order, what the solver at position `k mod length` returned
for seed `k`; `best` is the first candidate of maximal size among `tried`; and
when the candidates are subsets of the vertex range (no repeated id, every id
below `num_vertices`) the length of the returned sequence is `num_vertices` minus
the size of `best`, which is the largest size tried, so it exceeds
`num_vertices - c.length` for no candidate `c` tried.  The candidates of the
four heuristics on a graph with symmetric adjacency, no self-loops and all
vertices active are such subsets. -/
theorem heuristic_solve_complements_first_max (svs : List Solver) (hfuel fuel : Nat)
    (g : Graph) (timeout : Int) (elapsed : Nat → Int) (prior : Rand)
    (best : List Nat) (tried : List (List Nat))
    (h : (solve_loop svs hfuel g timeout elapsed fuel (solve_init prior)).map
      (fun s => (s.best, s.tried)) = some (best, tried)) :
    (heuristic_solve_with svs hfuel fuel g timeout elapsed prior).map Prod.fst
        = some (oct_of g best) ∧
      (oct_of g best).Sorted (fun a b => a < b) ∧
      (∀ v, v ∈ oct_of g best ↔ v < g.num_vertices ∧ v ∉ best) ∧
      (∀ k, k < tried.length → ∃ solver rnd rnd1,
        svs[k % svs.length]? = some solver ∧
        solver hfuel g k rnd = some (tried.getD k [], rnd1)) ∧
      FirstMax tried best ∧
      ((∀ c ∈ tried, c.Nodup ∧ ∀ v ∈ c, v < g.num_vertices) →
        (oct_of g best).length = g.num_vertices - best.length ∧
        (∀ c ∈ tried, c.length ≤ best.length) ∧
        (∀ c ∈ tried, (oct_of g best).length ≤ g.num_vertices - c.length)) ∧
      (∀ srand accept, svs = solvers srand accept → g.ActiveWF → g.AllActive →
        ∀ c ∈ tried, c.Nodup ∧ ∀ v ∈ c, v < g.num_vertices) := by
  rw [Option.map_eq_some'] at h
  obtain ⟨s, hs, e⟩ := h
  simp only [Prod.mk.injEq] at e
  obtain ⟨e1, e2⟩ := e
  have hfm : FirstMax tried best := by
    have := solve_loop_first_max svs hfuel g timeout elapsed fuel prior s hs
    rw [e1, e2] at this; exact this
  have htr := (solve_loop_trace svs hfuel g timeout elapsed fuel prior s hs).2.2
  rw [e2] at htr
  refine ⟨?_, sorted_oct_of g best, mem_oct_of g best, htr, hfm, ?_, ?_⟩
  · unfold heuristic_solve_with
    rw [hs]
    simp [e1]
  · intro hsub
    have hbest : best.Nodup ∧ ∀ v ∈ best, v < g.num_vertices := by
      rcases hfm with ⟨h1, _⟩ | ⟨pre, post, e, _, _⟩
      · rw [h1]; exact ⟨List.nodup_nil, fun v hv => absurd hv (List.not_mem_nil v)⟩
      · exact hsub best (by rw [e]; simp)
    have hlen := length_oct_of g best hbest.1 hbest.2
    refine ⟨by omega, hfm.le, ?_⟩
    intro c hc
    have := hfm.le c hc
    omega
  · intro srand accept hsv wf hall
    rw [hsv] at hs
    have := solve_loop_subsets wf hall srand accept hfuel timeout elapsed fuel prior s hs
    rw [e2] at this; exact this

/-- Witness of C2 on the triangle with two completed iterations: both candidates
are `[2, 0]`, the first is kept, and the sequence returned has length 1. -/
theorem heuristic_solve_complements_first_max_witness :
    FirstMax [[2, 0], [2, 0]] [2, 0] ∧
      (oct_of triangle [2, 0]).length = triangle.num_vertices - [2, 0].length :=
  ⟨(heuristic_solve_complements_first_max (solvers demo_srand demo_accept) 5 4 triangle 3
      (fun k => k) (fun _ => 0) [2, 0] [[2, 0], [2, 0]] (by decide)).2.2.2.2.1,
   ((heuristic_solve_complements_first_max (solvers demo_srand demo_accept) 5 4 triangle 3
      (fun k => k) (fun _ => 0) [2, 0] [[2, 0], [2, 0]] (by decide)).2.2.2.2.2.1
      (by decide)).1⟩

/-- C3: on a graph whose active part has symmetric adjacency and no self-loops
(in particular when all vertices are active), for every seed, every seeding
function and any fuel of at least `num_vertices`, both passes of
`min_degree_ind_set` return, and `greedy_bipartite` returns the second set
followed by the first; the result has no repeated vertex, and no edge of the
input graph joins two vertices of the first set or two vertices of the second. -/
theorem greedy_bipartite_two_independent_sets (g : Graph) (wf : g.ActiveWF)
    (srand : Nat → Rand) (fuel : Nat) (hfuel : g.num_vertices ≤ fuel) (seed : Nat)
    (prior : Rand) :
    ∃ s1 s2 rnd1 rnd2,
      min_degree_ind_set fuel g (srand seed) = some (s1, rnd1) ∧
      min_degree_ind_set fuel (remove_all g s1) rnd1 = some (s2, rnd2) ∧
      greedy_bipartite srand fuel g seed prior = some (s2 ++ s1, rnd2) ∧
      (s2 ++ s1).Nodup ∧ Independent g s1 ∧ Independent g s2 := by
  obtain ⟨s1, s2, rnd1, rnd2, e1, e2, e3, m1, n1, m2, n2⟩ :=
    greedy_bipartite_spec wf srand fuel hfuel seed prior
  obtain ⟨a, b, c, _⟩ := two_pass wf m1 n1 m2 n2
  exact ⟨s1, s2, rnd1, rnd2, e1, e2, e3, a, b, c⟩

/-- Witness of C3 on the triangle. -/
theorem greedy_bipartite_two_independent_sets_witness :
    ∃ s1 s2 rnd1 rnd2,
      min_degree_ind_set 3 triangle (demo_srand 0) = some (s1, rnd1) ∧
      min_degree_ind_set 3 (remove_all triangle s1) rnd1 = some (s2, rnd2) ∧
      greedy_bipartite demo_srand 3 triangle 0 (fun _ => 0) = some (s2 ++ s1, rnd2) ∧
      (s2 ++ s1).Nodup ∧ Independent triangle s1 ∧ Independent triangle s2 :=
  greedy_bipartite_two_independent_sets triangle (by decide) demo_srand 3 (by decide) 0
    (fun _ => 0)

/-- C4: on a graph whose active part has symmetric adjacency and no self-loops
(in particular when all vertices are active), whenever `greedy_stochastic`
returns `r` (that is, both passes of `luby_ind_set` terminate within the fuel),
`r` is the result of the second pass followed by that of the first, it has no
repeated vertex, and no edge of the input graph joins two vertices of the first
set or two vertices of the second. -/
theorem greedy_stochastic_two_independent_sets (g : Graph) (wf : g.ActiveWF)
    (srand : Nat → Rand) (accept : Nat → Nat → Bool) (fuel seed : Nat) (prior : Rand)
    (r : List Nat)
    (h : (greedy_stochastic srand accept fuel g seed prior).map Prod.fst = some r) :
    ∃ s1 s2 rnd1 rnd2,
      luby_ind_set accept fuel g [] (srand seed) = some (s1, rnd1) ∧
      luby_ind_set accept fuel (remove_all g s1) [] rnd1 = some (s2, rnd2) ∧
      r = s2 ++ s1 ∧ (s2 ++ s1).Nodup ∧ Independent g s1 ∧ Independent g s2 := by
  obtain ⟨rnd2, h2⟩ := map_fst_eq_some h
  obtain ⟨s1, s2, rnd1, e1, e2, e3, m1, n1, m2, n2⟩ :=
    greedy_stochastic_sound wf srand accept fuel seed prior r rnd2 h2
  obtain ⟨a, b, c, _⟩ := two_pass wf m1 n1 m2 n2
  exact ⟨s1, s2, rnd1, rnd2, e1, e2, e3, a, b, c⟩

/-- Witness of C4 on the triangle. -/
theorem greedy_stochastic_two_independent_sets_witness :
    ∃ s1 s2 rnd1 rnd2,
      luby_ind_set demo_accept 2 triangle [] (demo_srand 0) = some (s1, rnd1) ∧
      luby_ind_set demo_accept 2 (remove_all triangle s1) [] rnd1 = some (s2, rnd2) ∧
      [2, 0] = s2 ++ s1 ∧ (s2 ++ s1).Nodup ∧ Independent triangle s1 ∧
      Independent triangle s2 :=
  greedy_stochastic_two_independent_sets triangle (by decide) demo_srand demo_accept 2 0
    (fun _ => 0) [2, 0] (by decide)

/-- C5: on a graph with symmetric adjacency, no self-loops and all vertices
active, for every seed and seeding function there is an amount of fuel from
which on `greedy_dfs_bipartite` returns, and one from which on
`greedy_bfs_bipartite` returns; each returns `get_vertices` of its final graph,
these are exactly the vertices with colour 1 or 2, every vertex not returned has
colour 0, and no edge of the input graph joins two returned vertices of the same
colour. -/
theorem greedy_traversals_proper_coloring (g : Graph) (wf : g.ActiveWF) (hall : g.AllActive)
    (srand : Nat → Rand) (seed : Nat) (prior : Rand) :
    (∃ F t rnd1, (∀ fuel, F ≤ fuel →
        greedy_dfs_run srand fuel g seed prior = some (t, rnd1) ∧
        greedy_dfs_bipartite srand fuel g seed prior = some (t.graph.get_vertices, rnd1)) ∧
      ColoredResult g t) ∧
    (∃ F t rnd1, (∀ fuel, F ≤ fuel →
        greedy_bfs_run srand fuel g seed prior = some (t, rnd1) ∧
        greedy_bfs_bipartite srand fuel g seed prior = some (t.graph.get_vertices, rnd1)) ∧
      ColoredResult g t) := by
  constructor
  · obtain ⟨F, t, rnd1, h1, h2⟩ := traversal_total wf hall stack_push stack_push_mem (srand seed)
    refine ⟨F, t, rnd1, fun fuel hf => ?_, h2⟩
    have := h1 fuel hf
    exact ⟨this, by simp [greedy_dfs_bipartite, greedy_dfs_run, this]⟩
  · obtain ⟨F, t, rnd1, h1, h2⟩ := traversal_total wf hall queue_push queue_push_mem (srand seed)
    refine ⟨F, t, rnd1, fun fuel hf => ?_, h2⟩
    have := h1 fuel hf
    exact ⟨this, by simp [greedy_bfs_bipartite, greedy_bfs_run, this]⟩

/-- Witness of C5 on the triangle. -/
theorem greedy_traversals_proper_coloring_witness :
    (∃ F t rnd1, (∀ fuel, F ≤ fuel →
        greedy_dfs_run demo_srand fuel triangle 0 (fun _ => 0) = some (t, rnd1) ∧
        greedy_dfs_bipartite demo_srand fuel triangle 0 (fun _ => 0)
          = some (t.graph.get_vertices, rnd1)) ∧
      ColoredResult triangle t) ∧
    (∃ F t rnd1, (∀ fuel, F ≤ fuel →
        greedy_bfs_run demo_srand fuel triangle 0 (fun _ => 0) = some (t, rnd1) ∧
        greedy_bfs_bipartite demo_srand fuel triangle 0 (fun _ => 0)
          = some (t.graph.get_vertices, rnd1)) ∧
      ColoredResult triangle t) :=
  greedy_traversals_proper_coloring triangle (by decide) (by decide) demo_srand 0 (fun _ => 0)

/-- C6: on a graph whose active vertices have symmetric adjacency holding only
active vertices and no self-loops, for every sequence of `rand()` values and any
fuel of at least `num_vertices`, `min_degree_ind_set` returns, and what it
returns is a maximal independent set of the subgraph induced on the active
vertices: its members are active, no two are adjacent, and every active vertex is
a member or adjacent to one. -/
theorem min_degree_ind_set_maximal (g : Graph) (wf : g.ActiveWF) (fuel : Nat)
    (hfuel : g.num_vertices ≤ fuel) (rnd : Rand) :
    ∃ out rnd1, min_degree_ind_set fuel g rnd = some (out, rnd1) ∧ MaximalIndependent g out := by
  obtain ⟨out, rnd1, h1, h2, _⟩ := min_degree_ind_set_spec wf fuel hfuel rnd
  exact ⟨out, rnd1, h1, h2⟩

/-- Witness of C6 on the triangle. -/
theorem min_degree_ind_set_maximal_witness :
    ∃ out rnd1, min_degree_ind_set 3 triangle (demo_srand 0) = some (out, rnd1) ∧
      MaximalIndependent triangle out :=
  min_degree_ind_set_maximal triangle (by decide) 3 (by decide) (demo_srand 0)

/-- C7: on a graph whose active vertices have symmetric adjacency holding only
active vertices and no self-loops, for every selection test and every sequence
of draws, whenever `luby_ind_set` started on an empty `result` terminates with
`out`, the list `out` is a maximal independent set of the subgraph induced on
the active vertices. -/
theorem luby_ind_set_maximal (g : Graph) (wf : g.ActiveWF) (accept : Nat → Nat → Bool)
    (fuel : Nat) (rnd : Rand) (out : List Nat)
    (h : (luby_ind_set accept fuel g [] rnd).map Prod.fst = some out) :
    MaximalIndependent g out := by
  obtain ⟨rnd1, h1⟩ := map_fst_eq_some h
  exact (luby_ind_set_spec wf accept fuel rnd out rnd1 h1).1

/-- Witness of C7 on the triangle. -/
theorem luby_ind_set_maximal_witness : MaximalIndependent triangle [0] :=
  luby_ind_set_maximal triangle (by decide) demo_accept 1 (demo_srand 0) [0] (by decide)

/-- C8: on a graph with at least one vertex and all vertices active, whatever
the seed, the seeding function, the selection test and the fuel, each of
`greedy_bipartite`, `greedy_stochastic`, `greedy_dfs_bipartite` and
`greedy_bfs_bipartite` that returns a list returns a non-empty one. -/
theorem heuristics_return_nonempty (g : Graph) (hn : 0 < g.num_vertices) (hall : g.AllActive)
    (srand : Nat → Rand) (accept : Nat → Nat → Bool) (fuel seed : Nat) (prior : Rand) :
    (∀ r, (greedy_bipartite srand fuel g seed prior).map Prod.fst = some r → r ≠ []) ∧
    (∀ r, (greedy_stochastic srand accept fuel g seed prior).map Prod.fst = some r → r ≠ []) ∧
    (∀ r, (greedy_dfs_bipartite srand fuel g seed prior).map Prod.fst = some r → r ≠ []) ∧
    (∀ r, (greedy_bfs_bipartite srand fuel g seed prior).map Prod.fst = some r → r ≠ []) := by
  have hne := active_set_ne_nil hn hall
  refine ⟨?_, ?_, ?_, ?_⟩
  · intro r h
    obtain ⟨rnd2, h2⟩ := map_fst_eq_some h
    unfold greedy_bipartite at h2
    split at h2
    · exact Option.noConfusion h2
    · rename_i s1 rnd1 e1
      split at h2
      · exact Option.noConfusion h2
      · simp only [Option.some.injEq, Prod.mk.injEq] at h2
        have := (min_degree_loop_grows fuel g _ _ [] s1 rnd1 e1).2 hne
        intro hr
        rw [hr] at h2
        have h3 := congrArg List.length h2.1
        simp only [List.length_append, List.length_nil] at h3 this
        omega
  · intro r h
    obtain ⟨rnd2, h2⟩ := map_fst_eq_some h
    unfold greedy_stochastic at h2
    split at h2
    · exact Option.noConfusion h2
    · rename_i s1 rnd1 e1
      split at h2
      · exact Option.noConfusion h2
      · simp only [Option.some.injEq, Prod.mk.injEq] at h2
        have := (luby_loop_grows accept fuel g _ _ [] s1 rnd1 e1).2 hne
        intro hr
        rw [hr] at h2
        have h3 := congrArg List.length h2.1
        simp only [List.length_append, List.length_nil] at h3 this
        omega
  · intro r h
    obtain ⟨rnd2, h2⟩ := map_fst_eq_some h
    unfold greedy_dfs_bipartite greedy_dfs_run at h2
    rw [Option.map_eq_some'] at h2
    obtain ⟨⟨t, rnd1⟩, ht, e⟩ := h2
    simp only [Prod.mk.injEq] at e
    rw [← e.1]
    exact traversal_nonempty hn hall stack_push (fun _ => rfl) _ _ _ t rnd1 ht
  · intro r h
    obtain ⟨rnd2, h2⟩ := map_fst_eq_some h
    unfold greedy_bfs_bipartite greedy_bfs_run at h2
    rw [Option.map_eq_some'] at h2
    obtain ⟨⟨t, rnd1⟩, ht, e⟩ := h2
    simp only [Prod.mk.injEq] at e
    rw [← e.1]
    exact traversal_nonempty hn hall queue_push (fun _ => rfl) _ _ _ t rnd1 ht

/-- Witness of C8 on the triangle: the four lists returned for seed 0. -/
theorem heuristics_return_nonempty_witness :
    ([2, 0] : List Nat) ≠ [] ∧ ([2, 0] : List Nat) ≠ [] ∧ ([0, 2] : List Nat) ≠ [] ∧
      ([0, 1] : List Nat) ≠ [] :=
  ⟨(heuristics_return_nonempty triangle (by decide) (by decide) demo_srand demo_accept 4 0
      (fun _ => 0)).1 [2, 0] (by decide),
   (heuristics_return_nonempty triangle (by decide) (by decide) demo_srand demo_accept 4 0
      (fun _ => 0)).2.1 [2, 0] (by decide),
   (heuristics_return_nonempty triangle (by decide) (by decide) demo_srand demo_accept 4 0
      (fun _ => 0)).2.2.1 [0, 2] (by decide),
   (heuristics_return_nonempty triangle (by decide) (by decide) demo_srand demo_accept 4 0
      (fun _ => 0)).2.2.2 [0, 1] (by decide)⟩

/-- C9: each of the four heuristics starts by reseeding the generator, so for
every graph, seed and fuel its outcome (the list returned and the state in
which the generator is left) is the same for any two states of the global
generator on entry. -/
theorem heuristics_ignore_prior_state (srand : Nat → Rand) (accept : Nat → Nat → Bool)
    (fuel : Nat) (g : Graph) (seed : Nat) (prior1 prior2 : Rand) :
    greedy_bipartite srand fuel g seed prior1 = greedy_bipartite srand fuel g seed prior2 ∧
    greedy_stochastic srand accept fuel g seed prior1
      = greedy_stochastic srand accept fuel g seed prior2 ∧
    greedy_dfs_bipartite srand fuel g seed prior1 = greedy_dfs_bipartite srand fuel g seed prior2 ∧
    greedy_bfs_bipartite srand fuel g seed prior1 = greedy_bfs_bipartite srand fuel g seed prior2 :=
  ⟨rfl, rfl, rfl, rfl⟩

/-- C11: for every graph state and every vertex `v` with no self-loop at `v`:
when `v` is inactive, `remove_vertex v` returns the state unchanged; when `v` is
active, the call keeps `num_vertices`, only changes the flag of `v` (to
inactive), leaves the neighbour set of `v` exactly as it was, replaces the set
of every `n` in it by that set with `v` erased, and leaves every other
neighbour set unchanged. -/
theorem remove_vertex_frame (g : Graph) (v : Nat) (hloop : v ∉ g.get_neighbors v) :
    (g.is_active v = false → g.remove_vertex v = g) ∧
    (g.is_active v = true →
      (g.remove_vertex v).num_vertices = g.num_vertices ∧
      (g.remove_vertex v).vertices_active = g.vertices_active.set v false ∧
      (g.remove_vertex v).neighbors.length = g.neighbors.length ∧
      (g.remove_vertex v).is_active v = false ∧
      (∀ u, u ≠ v → (g.remove_vertex v).is_active u = g.is_active u) ∧
      (g.remove_vertex v).get_neighbors v = g.get_neighbors v ∧
      (∀ n ∈ g.get_neighbors v,
        (g.remove_vertex v).get_neighbors n = set_erase (g.get_neighbors n) v) ∧
      (∀ u, u ∉ g.get_neighbors v →
        (g.remove_vertex v).get_neighbors u = g.get_neighbors u)) := by
  refine ⟨remove_vertex_inactive, fun hv => ⟨remove_vertex_num g v, ?_, remove_vertex_len_nb g v,
    ?_, ?_, ?_, ?_, ?_⟩⟩
  · simp [remove_vertex, hv]
  · rw [is_active_remove_vertex]; simp
  · intro u hu; rw [is_active_remove_vertex]; simp [hu]
  · rw [get_neighbors_remove_vertex, if_neg (fun h => hloop h.2)]
  · intro n hn; rw [get_neighbors_remove_vertex, if_pos ⟨hv, hn⟩]
  · intro u hu; rw [get_neighbors_remove_vertex, if_neg (fun h => hu h.2)]

/-- Witness of C11: vertex 0 of the triangle. -/
theorem remove_vertex_frame_witness :
    (triangle.is_active 0 = false → triangle.remove_vertex 0 = triangle) ∧
    (triangle.is_active 0 = true →
      (triangle.remove_vertex 0).num_vertices = triangle.num_vertices ∧
      (triangle.remove_vertex 0).vertices_active = triangle.vertices_active.set 0 false ∧
      (triangle.remove_vertex 0).neighbors.length = triangle.neighbors.length ∧
      (triangle.remove_vertex 0).is_active 0 = false ∧
      (∀ u, u ≠ 0 → (triangle.remove_vertex 0).is_active u = triangle.is_active u) ∧
      (triangle.remove_vertex 0).get_neighbors 0 = triangle.get_neighbors 0 ∧
      (∀ n ∈ triangle.get_neighbors 0,
        (triangle.remove_vertex 0).get_neighbors n = set_erase (triangle.get_neighbors n) 0) ∧
      (∀ u, u ∉ triangle.get_neighbors 0 →
        (triangle.remove_vertex 0).get_neighbors u = triangle.get_neighbors u)) :=
  remove_vertex_frame triangle 0 (by decide)

theorem Graph.SimpleActive.degree_lt_num {g : Graph} (hs : g.SimpleActive) {u : Nat}
    (hu : u < g.num_vertices) (hua : g.is_active u = true) :
    g.get_degree u < g.num_vertices := by
  obtain ⟨hn, hw⟩ := hs.2.2 u hu hua
  have hnd : (u :: g.get_neighbors u).Nodup :=
    List.nodup_cons.mpr ⟨fun h => (hw u h).2 rfl, hn⟩
  have hsub : (u :: g.get_neighbors u) ⊆ List.range g.num_vertices := by
    intro w hw2
    rcases List.mem_cons.mp hw2 with h | h
    · rw [h]; exact List.mem_range.mpr hu
    · exact List.mem_range.mpr (hw w h).1
  have := (List.subperm_of_subset hnd hsub).length_le
  simp only [List.length_cons, List.length_range] at this
  unfold get_degree
  unfold get_neighbors at this
  omega

theorem Graph.ActiveWF.simple {g : Graph} (wf : g.ActiveWF) : g.SimpleActive :=
  ⟨wf.1, wf.2.1, fun _ _ hua => ⟨wf.nodup hua,
    fun _ hw => ⟨wf.vertex_lt (wf.closed hua hw), wf.ne hua hw⟩⟩⟩

theorem min_degree_step_eq (g : Graph) (st : List Nat × Nat) (i : Nat) :
    min_degree_step g st i =
      if g.is_active i = true then
        (if g.get_degree i < st.2 then ([i], g.get_degree i)
         else if g.get_degree i = st.2 then (st.1 ++ [i], st.2) else st)
      else st := rfl

theorem scan_step_min (g : Graph) (P : List Nat) (st : List Nat × Nat) (i : Nat)
    (hdeg : g.is_active i = true → g.get_degree i < g.num_vertices)
    (h : ((∀ u ∈ P, g.is_active u = false) ∧
        st = (List.replicate g.num_vertices 0, g.num_vertices)) ∨ ScanMin g P st) :
    ((∀ u ∈ P ++ [i], g.is_active u = false) ∧
        min_degree_step g st i = (List.replicate g.num_vertices 0, g.num_vertices)) ∨
      ScanMin g (P ++ [i]) (min_degree_step g st i) := by
  by_cases hi : g.is_active i = true
  · right
    have hd := hdeg hi
    rcases h with ⟨hP, hst⟩ | ⟨⟨u, huP, hua, hud⟩, hmin, hres⟩
    · have hstep : min_degree_step g st i = ([i], g.get_degree i) := by
        rw [min_degree_step_eq, if_pos hi, hst]
        exact if_pos hd
      rw [hstep]
      refine ⟨⟨i, by simp, hi, rfl⟩, ?_, ?_⟩
      · intro u hu hua
        rcases List.mem_append.mp hu with h | h
        · rw [hP u h] at hua; exact Bool.noConfusion hua
        · rw [List.mem_singleton.mp h]
      · have hnil : P.filter (fun v => g.is_active v && decide (g.get_degree v = g.get_degree i))
            = [] := by
          rw [List.filter_eq_nil_iff]
          intro a ha; simp [hP a ha]
        simp [List.filter_append, hnil, hi]
    · by_cases hlt : g.get_degree i < st.2
      · have hstep : min_degree_step g st i = ([i], g.get_degree i) := by
          rw [min_degree_step_eq, if_pos hi, if_pos hlt]
        rw [hstep]
        refine ⟨⟨i, by simp, hi, rfl⟩, ?_, ?_⟩
        · intro w hw hwa
          rcases List.mem_append.mp hw with h | h
          · have := hmin w h hwa
            show g.get_degree i ≤ g.get_degree w
            omega
          · rw [List.mem_singleton.mp h]
        · have hnil : P.filter
              (fun v => g.is_active v && decide (g.get_degree v = g.get_degree i)) = [] := by
            rw [List.filter_eq_nil_iff]
            intro a ha
            by_cases haa : g.is_active a = true
            · have := hmin a ha haa
              have : g.get_degree a ≠ g.get_degree i := by omega
              simp [this]
            · simp [haa]
          simp [List.filter_append, hnil, hi]
      · by_cases heq : g.get_degree i = st.2
        · have hstep : min_degree_step g st i = (st.1 ++ [i], st.2) := by
            rw [min_degree_step_eq, if_pos hi, if_neg hlt, if_pos heq]
          rw [hstep]
          refine ⟨⟨u, List.mem_append_left _ huP, hua, hud⟩, ?_, ?_⟩
          · intro w hw hwa
            rcases List.mem_append.mp hw with h | h
            · exact hmin w h hwa
            · rw [List.mem_singleton.mp h]; exact le_of_eq heq.symm
          · simp [List.filter_append, hres, hi, heq]
        · have hstep : min_degree_step g st i = st := by
            rw [min_degree_step_eq, if_pos hi, if_neg hlt, if_neg heq]
          rw [hstep]
          refine ⟨⟨u, List.mem_append_left _ huP, hua, hud⟩, ?_, ?_⟩
          · intro w hw hwa
            rcases List.mem_append.mp hw with h | h
            · exact hmin w h hwa
            · rw [List.mem_singleton.mp h]; omega
          · simp [List.filter_append, hres, hi, heq]
  · have hi2 : g.is_active i = false := by simpa using hi
    have hstep : min_degree_step g st i = st := by
      rw [min_degree_step_eq, if_neg hi]
    rw [hstep]
    rcases h with ⟨hP, hst⟩ | ⟨⟨u, huP, hua, hud⟩, hmin, hres⟩
    · left
      refine ⟨?_, hst⟩
      intro u hu
      rcases List.mem_append.mp hu with h | h
      · exact hP u h
      · rw [List.mem_singleton.mp h]; exact hi2
    · right
      refine ⟨⟨u, List.mem_append_left _ huP, hua, hud⟩, ?_, ?_⟩
      · intro w hw hwa
        rcases List.mem_append.mp hw with h | h
        · exact hmin w h hwa
        · rw [List.mem_singleton.mp h, hi2] at hwa; exact Bool.noConfusion hwa
      · simp [List.filter_append, hres, hi2]

theorem scan_foldl_min (g : Graph) (L : List Nat)
    (hdeg : ∀ i ∈ L, g.is_active i = true → g.get_degree i < g.num_vertices) :
    ∀ (P : List Nat) (st : List Nat × Nat),
      (((∀ u ∈ P, g.is_active u = false) ∧
        st = (List.replicate g.num_vertices 0, g.num_vertices)) ∨ ScanMin g P st) →
      (((∀ u ∈ P ++ L, g.is_active u = false) ∧
        L.foldl (min_degree_step g) st = (List.replicate g.num_vertices 0, g.num_vertices)) ∨
        ScanMin g (P ++ L) (L.foldl (min_degree_step g) st)) := by
  induction L with
  | nil => intro P st h; simpa using h
  | cons i L ih =>
    intro P st h
    have h1 := scan_step_min g P st i (hdeg i (List.mem_cons_self _ _)) h
    have h2 := ih (fun j hj => hdeg j (List.mem_cons_of_mem _ hj)) (P ++ [i]) _ h1
    simpa using h2

theorem scan_result (g : Graph)
    (hdeg : ∀ i, i < g.num_vertices → g.is_active i = true → g.get_degree i < g.num_vertices) :
    ((∀ u, u < g.num_vertices → g.is_active u = false) ∧
        g.get_min_degree_vertices = List.replicate g.num_vertices 0) ∨
      ∃ m, ScanMin g (List.range g.num_vertices) (g.get_min_degree_vertices, m) := by
  have h := scan_foldl_min g (List.range g.num_vertices)
    (fun i hi => hdeg i (List.mem_range.mp hi)) [] (List.replicate g.num_vertices 0, g.num_vertices)
    (Or.inl ⟨fun u hu => absurd hu (List.not_mem_nil u), rfl⟩)
  simp only [List.nil_append] at h
  rcases h with ⟨h1, h2⟩ | h
  · left
    refine ⟨fun u hu => h1 u (List.mem_range.mpr hu), ?_⟩
    unfold get_min_degree_vertices; rw [h2]
  · right
    exact ⟨_, h⟩

theorem min_degree_foldl_inactive (g : Graph) (L : List Nat) (st : List Nat × Nat)
    (h : ∀ i ∈ L, g.is_active i = false) : L.foldl (min_degree_step g) st = st := by
  induction L with
  | nil => rfl
  | cons i L ih =>
    rw [List.foldl_cons, min_degree_step_eq, if_neg (by simp [h i (List.mem_cons_self _ _)])]
    exact ih (fun j hj => h j (List.mem_cons_of_mem _ hj))

theorem get_min_degree_vertices_no_active (g : Graph)
    (h : ∀ u, u < g.num_vertices → g.is_active u = false) :
    g.get_min_degree_vertices = List.replicate g.num_vertices 0 := by
  unfold get_min_degree_vertices
  rw [min_degree_foldl_inactive g _ _ (fun i hi => h i (List.mem_range.mp hi))]

/-- C12: on a graph whose active vertices have duplicate-free neighbour sets of
ids below `num_vertices` without self-loop, and that has an active vertex,
`get_min_degree_vertices` is the ascending list of the vertex ids below
`num_vertices` that are active and have degree `m`, where `m` is the least
`get_degree` of an active vertex; so it is strictly ascending (no duplicate) and
holds exactly the active vertices of minimum degree, and no inactive vertex. -/
theorem get_min_degree_vertices_exact (g : Graph) (hs : g.SimpleActive) (u : Nat)
    (hu : u < g.num_vertices) (hua : g.is_active u = true) :
    (∃ m, (∃ w, w < g.num_vertices ∧ g.is_active w = true ∧ g.get_degree w = m) ∧
      (∀ w, w < g.num_vertices → g.is_active w = true → m ≤ g.get_degree w) ∧
      g.get_min_degree_vertices = (List.range g.num_vertices).filter
        (fun v => g.is_active v && decide (g.get_degree v = m))) ∧
    g.get_min_degree_vertices.Sorted (fun a b => a < b) ∧
    (∀ v, v ∈ g.get_min_degree_vertices ↔
      (v < g.num_vertices ∧ g.is_active v = true ∧
        ∀ w, w < g.num_vertices → g.is_active w = true → g.get_degree v ≤ g.get_degree w)) := by
  rcases scan_result g (fun i hi hia => hs.degree_lt_num hi hia) with ⟨h1, _⟩ | ⟨m, h1, h2, h3⟩
  · rw [h1 u hu] at hua; exact Bool.noConfusion hua
  · simp only at h1 h2 h3
    obtain ⟨w, hw, hwa, hwd⟩ := h1
    have hmin : ∀ w, w < g.num_vertices → g.is_active w = true → m ≤ g.get_degree w :=
      fun w hw hwa => h2 w (List.mem_range.mpr hw) hwa
    refine ⟨⟨m, ⟨w, List.mem_range.mp hw, hwa, hwd⟩, hmin, h3⟩, ?_, ?_⟩
    · rw [h3]; exact (List.sorted_lt_range _).filter _
    · intro v
      rw [h3]
      simp only [List.mem_filter, List.mem_range, Bool.and_eq_true, decide_eq_true_eq]
      constructor
      · rintro ⟨hv, hva, hvd⟩
        exact ⟨hv, hva, fun x hx hxa => hvd ▸ hmin x hx hxa⟩
      · rintro ⟨hv, hva, hvm⟩
        refine ⟨hv, hva, ?_⟩
        have a1 := hvm w (List.mem_range.mp hw) hwa
        have a2 := hmin v hv hva
        omega

/-- Witness of C12 on the triangle with vertex 0 removed. -/
theorem get_min_degree_vertices_exact_witness :
    (∃ m, (∃ w, w < (triangle.remove_vertex 0).num_vertices ∧
        (triangle.remove_vertex 0).is_active w = true ∧
        (triangle.remove_vertex 0).get_degree w = m) ∧
      (∀ w, w < (triangle.remove_vertex 0).num_vertices →
        (triangle.remove_vertex 0).is_active w = true →
        m ≤ (triangle.remove_vertex 0).get_degree w) ∧
      (triangle.remove_vertex 0).get_min_degree_vertices =
        (List.range (triangle.remove_vertex 0).num_vertices).filter
          (fun v => (triangle.remove_vertex 0).is_active v &&
            decide ((triangle.remove_vertex 0).get_degree v = m))) ∧
    (triangle.remove_vertex 0).get_min_degree_vertices.Sorted (fun a b => a < b) ∧
    (∀ v, v ∈ (triangle.remove_vertex 0).get_min_degree_vertices ↔
      (v < (triangle.remove_vertex 0).num_vertices ∧
        (triangle.remove_vertex 0).is_active v = true ∧
        ∀ w, w < (triangle.remove_vertex 0).num_vertices →
          (triangle.remove_vertex 0).is_active w = true →
          (triangle.remove_vertex 0).get_degree v ≤ (triangle.remove_vertex 0).get_degree w)) :=
  get_min_degree_vertices_exact (triangle.remove_vertex 0) (by decide) 1 (by decide) (by decide)

/-- C13 fails on the code: on the one-vertex graph whose vertex has been removed
no vertex is active, yet `get_min_degree_vertices` returns `[0]`, the zero that
`result.resize(num_vertices)` put there, and not the empty sequence. -/
theorem get_min_degree_vertices_all_removed :
    (∀ u, u < ((Graph.of_edges 1 []).remove_vertex 0).num_vertices →
      ((Graph.of_edges 1 []).remove_vertex 0).is_active u = false) ∧
    ((Graph.of_edges 1 []).remove_vertex 0).get_min_degree_vertices = [0] := by
  decide

theorem getD_modify_lt (f : List Nat → List Nat) (nbs : List (List Nat)) (n u : Nat)
    (hn : n < nbs.length) :
    (nbs.modify f n).getD u [] = if n = u then f (nbs.getD u []) else nbs.getD u [] := by
  simp only [List.getD_eq_getElem?_getD, List.getElem?_modify]
  by_cases hnu : n = u
  · subst hnu
    rw [List.getElem?_eq_getElem hn]
    simp
  · cases h : nbs[u]? <;> simp [hnu]

theorem mem_get_neighbors_add_edge (g : Graph) (a b u w : Nat) (ha : a < g.neighbors.length)
    (hb : b < g.neighbors.length) :
    w ∈ (g.add_edge a b).get_neighbors u ↔
      w ∈ g.get_neighbors u ∨ (u = a ∧ w = b) ∨ (u = b ∧ w = a) := by
  unfold add_edge get_neighbors
  simp only
  rw [getD_modify_lt _ _ _ _ (by simpa using hb), getD_modify_lt _ _ _ _ ha]
  by_cases h1 : b = u <;> by_cases h2 : a = u
  · subst h1; subst h2
    simp only [if_true, mem_set_insert]
    tauto
  · subst h1
    have h3 : ¬ b = a := fun h => h2 h.symm
    simp only [if_true, h2, if_false, mem_set_insert]
    tauto
  · subst h2
    have h3 : ¬ a = b := fun h => h1 h.symm
    simp only [h1, if_false, if_true, mem_set_insert]
    tauto
  · have h3 : ¬ u = a := fun h => h2 h.symm
    have h4 : ¬ u = b := fun h => h1 h.symm
    simp only [h1, h2, if_false]
    tauto

theorem mem_get_neighbors_remove_edge (g : Graph) (a b u w : Nat) :
    w ∈ (g.remove_edge a b).get_neighbors u ↔
      w ∈ g.get_neighbors u ∧ ¬ (u = a ∧ w = b) ∧ ¬ (u = b ∧ w = a) := by
  unfold remove_edge get_neighbors
  simp only
  rw [getD_modify (fun s => set_erase s a) (set_erase_nil a),
    getD_modify (fun s => set_erase s b) (set_erase_nil b)]
  by_cases h1 : b = u <;> by_cases h2 : a = u
  · subst h1; subst h2
    simp only [if_true, mem_set_erase]
    tauto
  · subst h1
    have h3 : ¬ b = a := fun h => h2 h.symm
    simp only [if_true, h2, if_false, mem_set_erase]
    tauto
  · subst h2
    have h3 : ¬ a = b := fun h => h1 h.symm
    simp only [h1, if_false, if_true, mem_set_erase]
    tauto
  · have h3 : ¬ u = a := fun h => h2 h.symm
    have h4 : ¬ u = b := fun h => h1 h.symm
    simp only [h1, h2, if_false]
    tauto

theorem is_active_add_edge (g : Graph) (a b u : Nat) :
    (g.add_edge a b).is_active u = g.is_active u := rfl

theorem is_active_remove_edge (g : Graph) (a b u : Nat) :
    (g.remove_edge a b).is_active u = g.is_active u := rfl

theorem mem_get_neighbors_remove_vertex (g : Graph) (v u w : Nat) (hw : w ≠ v) :
    w ∈ (g.remove_vertex v).get_neighbors u ↔ w ∈ g.get_neighbors u := by
  rw [get_neighbors_remove_vertex]
  split
  · rw [mem_set_erase]; exact ⟨fun h => h.1, fun h => ⟨h, hw⟩⟩
  · rfl

theorem Graph.SymActive.after_add_edge {g : Graph} (h : g.SymActive) (a b : Nat)
    (ha : g.is_active a = true) (hb : g.is_active b = true) (hal : a < g.neighbors.length)
    (hbl : b < g.neighbors.length) : (g.add_edge a b).SymActive := by
  constructor
  · intro u hu w hw
    rw [is_active_add_edge] at hu ⊢
    rcases (mem_get_neighbors_add_edge g a b u w hal hbl).mp hw with h1 | ⟨_, h1⟩ | ⟨_, h1⟩
    · exact h.1 u hu w h1
    · rw [h1]; exact hb
    · rw [h1]; exact ha
  · intro u v hu hv
    rw [is_active_add_edge] at hu hv
    rw [mem_get_neighbors_add_edge g a b u v hal hbl, mem_get_neighbors_add_edge g a b v u hal hbl,
      h.2 u v hu hv]
    tauto

theorem Graph.SymActive.after_remove_edge {g : Graph} (h : g.SymActive) (a b : Nat) :
    (g.remove_edge a b).SymActive := by
  constructor
  · intro u hu w hw
    rw [is_active_remove_edge] at hu ⊢
    exact h.1 u hu w ((mem_get_neighbors_remove_edge g a b u w).mp hw).1
  · intro u v hu hv
    rw [is_active_remove_edge] at hu hv
    rw [mem_get_neighbors_remove_edge, mem_get_neighbors_remove_edge, h.2 u v hu hv]
    tauto

theorem Graph.SymActive.after_remove_vertex {g : Graph} (h : g.SymActive) (v : Nat) :
    (g.remove_vertex v).SymActive := by
  have act : ∀ u, (g.remove_vertex v).is_active u = true ↔ g.is_active u = true ∧ u ≠ v := by
    intro u; rw [is_active_remove_vertex]; simp
  by_cases hv : g.is_active v = true
  · constructor
    · intro u hu w hw
      obtain ⟨hu1, _⟩ := (act u).mp hu
      rw [get_neighbors_remove_vertex] at hw
      split at hw
      · obtain ⟨hw1, hw2⟩ := mem_set_erase.mp hw
        exact (act w).mpr ⟨h.1 u hu1 w hw1, hw2⟩
      · rename_i hn
        refine (act w).mpr ⟨h.1 u hu1 w hw, ?_⟩
        rintro rfl
        exact hn ⟨hv, (h.2 u w hu1 hv).mp hw⟩
    · intro u w hu hw
      obtain ⟨hu1, hu2⟩ := (act u).mp hu
      obtain ⟨hw1, hw2⟩ := (act w).mp hw
      rw [mem_get_neighbors_remove_vertex g v u w hw2,
        mem_get_neighbors_remove_vertex g v w u hu2]
      exact h.2 u w hu1 hw1
  · have hv2 : g.is_active v = false := by simpa using hv
    rw [remove_vertex_inactive hv2]; exact h

theorem reachable_symmetric (n : Nat) (g : Graph) (hr : Reachable n g) :
    g.neighbors.length = n ∧
      ∀ u v, g.is_active u = true → g.is_active v = true →
        (v ∈ g.get_neighbors u ↔ u ∈ g.get_neighbors v) := by
  induction hr with
  | fresh =>
    refine ⟨by simp [Graph.of_edges], ?_⟩
    intro u v _ _
    simp [Graph.of_edges, get_neighbors, List.getD_eq_getElem?_getD, List.getElem?_replicate]
    constructor
    · intro h; split at h <;> simp at h
    · intro h; split at h <;> simp at h
  | add_edge g a b _ ha hb ih =>
    obtain ⟨hl, hs⟩ := ih
    refine ⟨by simp [add_edge, hl], ?_⟩
    intro u v hu hv
    rw [is_active_add_edge] at hu hv
    rw [mem_get_neighbors_add_edge g a b u v (hl ▸ ha) (hl ▸ hb),
      mem_get_neighbors_add_edge g a b v u (hl ▸ ha) (hl ▸ hb), hs u v hu hv]
    tauto
  | remove_edge g a b _ _ _ ih =>
    obtain ⟨hl, hs⟩ := ih
    refine ⟨by simp [remove_edge, hl], ?_⟩
    intro u v hu hv
    rw [is_active_remove_edge] at hu hv
    rw [mem_get_neighbors_remove_edge, mem_get_neighbors_remove_edge, hs u v hu hv]
    tauto
  | remove_vertex g x _ _ _ ih =>
    obtain ⟨hl, hs⟩ := ih
    refine ⟨by rw [remove_vertex_len_nb]; exact hl, ?_⟩
    intro u v hu hv
    rw [is_active_remove_vertex] at hu hv
    simp only [Bool.and_eq_true, decide_eq_true_eq] at hu hv
    rw [mem_get_neighbors_remove_vertex g x u v hv.2,
      mem_get_neighbors_remove_vertex g x v u hu.2]
    exact hs u v hu.1 hv.1

theorem Graph.ActiveWF.sym_active {g : Graph} (wf : g.ActiveWF) : g.SymActive :=
  ⟨fun _ hu _ hw => wf.closed hu hw,
   fun _ _ hu hv => ⟨fun h => wf.adj_symm hu h, fun h => wf.adj_symm hv h⟩⟩

/-- C14: closedness and symmetry of the adjacency of the active part
(`SymActive`) are kept by `add_edge` on two active ids within the vector, by
`remove_edge` on two ids within the vector, and by `remove_vertex` on an id
within the vector that, when active, has no self-loop (outside these ranges
`neighbors.at` throws, and with a self-loop the loop of `remove_vertex` erases
from the set it iterates); and in every state reached from the graph with `n`
active vertices and no edge by these operations, applied where they have a
defined result, `has_edge u v` and `has_edge v u` agree for all active `u`,
`v`. -/
theorem graph_operations_keep_symmetry :
    (∀ (g : Graph) (a b : Nat), g.SymActive → g.is_active a = true → g.is_active b = true →
      a < g.neighbors.length → b < g.neighbors.length → (g.add_edge a b).SymActive) ∧
    (∀ (g : Graph) (a b : Nat), g.SymActive → a < g.neighbors.length →
      b < g.neighbors.length → (g.remove_edge a b).SymActive) ∧
    (∀ (g : Graph) (v : Nat), g.SymActive → v < g.vertices_active.length →
      (g.is_active v = true → v ∉ g.get_neighbors v) → (g.remove_vertex v).SymActive) ∧
    (∀ (n : Nat) (g : Graph), Reachable n g → ∀ u v, g.is_active u = true →
      g.is_active v = true → g.has_edge u v = g.has_edge v u) := by
  refine ⟨fun g a b h ha hb hal hbl => h.after_add_edge a b ha hb hal hbl,
    fun g a b h _ _ => h.after_remove_edge a b, fun g v h _ _ => h.after_remove_vertex v, ?_⟩
  intro n g hr u v hu hv
  have := (reachable_symmetric n g hr).2 u v hu hv
  unfold has_edge
  unfold get_neighbors at this
  exact decide_eq_decide.mpr this

/-- Witness of C14: the triangle is closed and symmetric, stays so when the edge
0-1 is added again, when it is removed and when vertex 2 is removed, and after
the removal of vertex 2 from the graph built by three `add_edge` calls the two
directions of the edge 0-1 agree. -/
theorem graph_operations_keep_symmetry_witness :
    (triangle.add_edge 0 1).SymActive ∧
    (triangle.remove_edge 0 1).SymActive ∧
    (triangle.remove_vertex 2).SymActive ∧
    ((((((Graph.of_edges 3 []).add_edge 0 1).add_edge 1 2).add_edge 2 0).remove_vertex 2).has_edge
        0 1 =
      (((((Graph.of_edges 3 []).add_edge 0 1).add_edge 1 2).add_edge 2 0).remove_vertex 2).has_edge
        1 0) :=
  ⟨graph_operations_keep_symmetry.1 triangle 0 1
      (Graph.ActiveWF.sym_active (by decide)) (by decide) (by decide) (by decide) (by decide),
   graph_operations_keep_symmetry.2.1 triangle 0 1
      (Graph.ActiveWF.sym_active (by decide)) (by decide) (by decide),
   graph_operations_keep_symmetry.2.2.1 triangle 2
      (Graph.ActiveWF.sym_active (by decide)) (by decide) (by decide),
   graph_operations_keep_symmetry.2.2.2 3 _
      (Reachable.remove_vertex _ 2 (Reachable.add_edge _ 2 0 (Reachable.add_edge _ 1 2
        (Reachable.add_edge _ 0 1 Reachable.fresh (by decide) (by decide)) (by decide)
        (by decide)) (by decide) (by decide)) (by decide) (by decide)) 0 1 (by decide)
      (by decide)⟩

/-! ## Termination of `min_degree_ind_set` -/

theorem min_degree_loop_succ (fuel : Nat) (g : Graph) (vs : List Nat) (rnd : Rand)
    (res : List Nat) :
    min_degree_loop (fuel + 1) g vs rnd res =
      if vs.length > 0 then
        (if g.get_min_degree_vertices.length = 0 then none
         else min_degree_loop fuel (min_degree_body g vs (rand rnd).1).2.1
           (min_degree_body g vs (rand rnd).1).2.2 (rand rnd).2
           (res ++ [(min_degree_body g vs (rand rnd).1).1]))
      else some (res, rnd) := rfl

theorem Graph.SimpleActive.simple_remove_vertex {g : Graph} (hs : g.SimpleActive) (v : Nat) :
    (g.remove_vertex v).SimpleActive := by
  refine ⟨by rw [remove_vertex_len_nb, remove_vertex_num]; exact hs.1,
    by rw [remove_vertex_len_act, remove_vertex_num]; exact hs.2.1, ?_⟩
  intro u hu hua
  rw [remove_vertex_num] at hu
  rw [is_active_remove_vertex] at hua
  simp only [Bool.and_eq_true, decide_eq_true_eq] at hua
  obtain ⟨h1, h2⟩ := hs.2.2 u hu hua.1
  rw [get_neighbors_remove_vertex, remove_vertex_num]
  split
  · exact ⟨nodup_set_erase h1, fun w hw => h2 w (mem_set_erase.mp hw).1⟩
  · exact ⟨h1, h2⟩

theorem Graph.SimpleActive.simple_remove_all {g : Graph} (hs : g.SimpleActive) (vs : List Nat) :
    (remove_all g vs).SimpleActive := by
  induction vs generalizing g with
  | nil => exact hs
  | cons v vs ih => exact ih (hs.simple_remove_vertex v)

theorem Graph.SimpleActive.scan {g : Graph} (hs : g.SimpleActive) {u : Nat}
    (hua : g.is_active u = true) :
    g.get_min_degree_vertices ≠ [] ∧ ∀ x ∈ g.get_min_degree_vertices, g.is_active x = true := by
  have hu : u < g.num_vertices := is_active_lt hs.2.1 hua
  rcases scan_result g (fun i hi hia => hs.degree_lt_num hi hia) with ⟨h1, _⟩ | ⟨m, h1, _, h3⟩
  · rw [h1 u hu] at hua; exact Bool.noConfusion hua
  · simp only at h1 h3
    obtain ⟨w, hw, hwa, hwd⟩ := h1
    constructor
    · apply List.ne_nil_of_mem (a := w)
      rw [h3]
      simp [List.mem_filter, List.mem_range.mp hw, hwa, hwd]
    · intro x hx
      rw [h3] at hx
      have := (List.mem_filter.mp hx).2
      simp only [Bool.and_eq_true] at this
      exact this.1

theorem length_filter_lt_of_imp {l : List Nat} {p q : Nat → Bool}
    (himp : ∀ x ∈ l, q x = true → p x = true) (hex : ∃ x ∈ l, p x = true ∧ q x = false) :
    (l.filter q).length < (l.filter p).length := by
  have h1 : l.filter q = (l.filter p).filter q := by
    rw [List.filter_filter]
    apply List.filter_congr
    intro x hx
    cases hq : q x with
    | false => simp
    | true => simp [himp x hx hq]
  rw [h1]
  obtain ⟨x, hx, hpx, hqx⟩ := hex
  exact List.length_filter_lt_length_iff_exists.mpr
    ⟨x, List.mem_filter.mpr ⟨hx, hpx⟩, by simp [hqx]⟩

theorem length_active_set_eq {g : Graph} (hl : g.vertices_active.length = g.num_vertices) :
    (active_set g).length = g.get_vertices.length := by
  have hn : (active_set g).Nodup := nodup_active_set_aux g _ [] List.nodup_nil
  apply List.Perm.length_eq
  rw [List.perm_ext_iff_of_nodup hn (get_vertices_subset g).1]
  intro a
  rw [mem_active_set hl, mem_get_vertices hl]

theorem min_degree_body_spec {g : Graph} (hs : g.SimpleActive) {vs : List Nat}
    (hvs : ∀ u, u ∈ vs ↔ g.is_active u = true) (hne : vs ≠ []) (r : Nat) :
    g.get_min_degree_vertices ≠ [] ∧
    g.is_active (min_degree_body g vs r).1 = true ∧
    (min_degree_body g vs r).2.1.SimpleActive ∧
    (∀ u, u ∈ (min_degree_body g vs r).2.2 ↔ (min_degree_body g vs r).2.1.is_active u = true) ∧
    (min_degree_body g vs r).2.2.length < vs.length ∧
    (min_degree_body g vs r).2.1.get_vertices.length < g.get_vertices.length := by
  obtain ⟨u, hu⟩ := List.exists_mem_of_ne_nil vs hne
  obtain ⟨hnil, hall⟩ := hs.scan ((hvs u).mp hu)
  have hpos : 0 < g.get_min_degree_vertices.length := List.length_pos.mpr hnil
  have hc : g.is_active (min_degree_body g vs r).1 = true :=
    hall _ (getD_mem_of_lt (Nat.mod_lt r hpos))
  have hg : (min_degree_body g vs r).2.1 =
      remove_all g ((min_degree_body g vs r).1 :: g.get_neighbors (min_degree_body g vs r).1) :=
    remove_closed_fst (g, vs) _
  have hact := is_active_remove_closed g vs (min_degree_body g vs r).1
  refine ⟨hnil, hc, ?_, ?_, length_remove_closed_lt g vs _ ((hvs _).mpr hc), ?_⟩
  · rw [hg]; exact hs.simple_remove_all _
  · intro x
    show x ∈ (remove_closed (g, vs) (min_degree_body g vs r).1).2 ↔ _
    rw [remove_closed_snd, mem_foldl_set_erase, hvs]
    show _ ↔ (remove_closed (g, vs) (min_degree_body g vs r).1).1.is_active x = true
    rw [hact x]
    simp
  · rw [get_vertices_eq, get_vertices_eq]
    have hn : (min_degree_body g vs r).2.1.num_vertices = g.num_vertices := by
      rw [hg, remove_all_num]
    rw [hn]
    apply length_filter_lt_of_imp
    · intro x _ hx
      exact ((hact x).mp hx).1
    · refine ⟨_, List.mem_range.mpr (is_active_lt hs.2.1 hc), hc, ?_⟩
      cases hx : (min_degree_body g vs r).2.1.is_active (min_degree_body g vs r).1 with
      | false => rfl
      | true => exact absurd rfl ((hact _).mp hx).2.1

theorem min_degree_loop_total (fuel : Nat) :
    ∀ (g : Graph) (vs : List Nat) (rnd : Rand) (res : List Nat), g.SimpleActive →
      (∀ u, u ∈ vs ↔ g.is_active u = true) → vs.length ≤ fuel →
      ∃ out rnd1, min_degree_loop fuel g vs rnd res = some (out, rnd1) := by
  induction fuel with
  | zero =>
    intro g vs rnd res _ _ hlen
    have hvs : vs = [] := List.length_eq_zero.mp (Nat.le_zero.mp hlen)
    exact ⟨res, rnd, by simp [min_degree_loop, hvs]⟩
  | succ fuel ih =>
    intro g vs rnd res hs hvs hlen
    by_cases hne : vs = []
    · exact ⟨res, rnd, by simp [min_degree_loop, hne]⟩
    · obtain ⟨b1, _, b3, b4, b5, _⟩ := min_degree_body_spec hs hvs hne (rand rnd).1
      obtain ⟨out, rnd1, h⟩ := ih _ _ (rand rnd).2
        (res ++ [(min_degree_body g vs (rand rnd).1).1]) b3 b4 (by omega)
      refine ⟨out, rnd1, ?_⟩
      rw [min_degree_loop_succ, if_pos (List.length_pos.mpr hne),
        if_neg (fun h0 => b1 (List.length_eq_zero.mp h0))]
      exact h

/-- C20: on a graph whose active vertices have duplicate-free neighbour sets of
ids below `num_vertices` without self-loop (symmetry is not needed), the set
`vertices` with which `min_degree_ind_set` starts lists the active vertices;
from every state of that kind with a non-empty `vertices`, whatever `rand()`
returns, the list of `get_min_degree_vertices` is non-empty, the chosen vertex
is active, the state after the body is of the same kind and has strictly fewer
active vertices (and a strictly shorter `vertices`); the loop consumes one unit
of fuel per pass of this body; and with fuel equal to the number of active
vertices on entry, or more, `min_degree_ind_set` returns. -/
theorem min_degree_ind_set_terminates (g : Graph) (hs : g.SimpleActive) :
    (∀ u, u ∈ active_set g ↔ g.is_active u = true) ∧
    (∀ (g1 : Graph) (vs : List Nat) (r : Nat), g1.SimpleActive →
      (∀ u, u ∈ vs ↔ g1.is_active u = true) → vs ≠ [] →
      g1.get_min_degree_vertices ≠ [] ∧
      g1.is_active (min_degree_body g1 vs r).1 = true ∧
      (min_degree_body g1 vs r).2.1.SimpleActive ∧
      (∀ u, u ∈ (min_degree_body g1 vs r).2.2 ↔
        (min_degree_body g1 vs r).2.1.is_active u = true) ∧
      (min_degree_body g1 vs r).2.2.length < vs.length ∧
      (min_degree_body g1 vs r).2.1.get_vertices.length < g1.get_vertices.length) ∧
    (∀ (fuel : Nat) (g1 : Graph) (vs : List Nat) (rnd : Rand) (res : List Nat),
      min_degree_loop (fuel + 1) g1 vs rnd res =
        if vs.length > 0 then
          (if g1.get_min_degree_vertices.length = 0 then none
           else min_degree_loop fuel (min_degree_body g1 vs (rand rnd).1).2.1
             (min_degree_body g1 vs (rand rnd).1).2.2 (rand rnd).2
             (res ++ [(min_degree_body g1 vs (rand rnd).1).1]))
        else some (res, rnd)) ∧
    (∀ (fuel : Nat) (rnd : Rand), g.get_vertices.length ≤ fuel →
      ∃ out rnd1, min_degree_ind_set fuel g rnd = some (out, rnd1)) := by
  refine ⟨mem_active_set hs.2.1, fun g1 vs r h1 h2 h3 => min_degree_body_spec h1 h2 h3 r,
    min_degree_loop_succ, ?_⟩
  intro fuel rnd hfuel
  exact min_degree_loop_total fuel g _ rnd [] hs (mem_active_set hs.2.1)
    (by rw [length_active_set_eq hs.2.1]; exact hfuel)

/-- Witness of C20 on the triangle: with fuel 3, its number of active vertices,
`min_degree_ind_set` returns. -/
theorem min_degree_ind_set_terminates_witness :
    ∃ out rnd1, min_degree_ind_set 3 triangle (demo_srand 0) = some (out, rnd1) :=
  (min_degree_ind_set_terminates triangle (by decide)).2.2.2 3 (demo_srand 0) (by decide)

/-! ## Rotation of the scheduler and the zero-iteration case -/

/-- C18: when the loop of `heuristic_solve` ends after the candidates `tried`,
the list of solvers is the fixed list of the four heuristics, and for every
`k` below the number of invocations the `k`-th candidate is what the heuristic
at position `k mod 4` of that list returned on the caller's graph for seed `k`. -/
theorem heuristic_solve_rotation (srand : Nat → Rand) (accept : Nat → Nat → Bool)
    (hfuel fuel : Nat) (g : Graph) (timeout : Int) (elapsed : Nat → Int) (prior : Rand)
    (tried : List (List Nat))
    (h : (solve_loop (solvers srand accept) hfuel g timeout elapsed fuel (solve_init prior)).map
      (fun s => s.tried) = some tried) :
    solvers srand accept = [greedy_bipartite srand, greedy_stochastic srand accept,
      greedy_dfs_bipartite srand, greedy_bfs_bipartite srand] ∧
    ∀ k, k < tried.length → ∃ solver rnd rnd1,
      (solvers srand accept)[k % 4]? = some solver ∧
      solver hfuel g k rnd = some (tried.getD k [], rnd1) := by
  rw [Option.map_eq_some'] at h
  obtain ⟨s, hs, e⟩ := h
  have htr := (solve_loop_trace (solvers srand accept) hfuel g timeout elapsed fuel prior s hs).2.2
  rw [e] at htr
  exact ⟨rfl, htr⟩

/-- Witness of C18 on the graph with the single edge 0-1 and four completed
invocations. -/
theorem heuristic_solve_rotation_witness :
    solvers demo_srand demo_accept = [greedy_bipartite demo_srand,
      greedy_stochastic demo_srand demo_accept, greedy_dfs_bipartite demo_srand,
      greedy_bfs_bipartite demo_srand] ∧
    ∀ k, k < [[1, 0], [0, 1], [0, 1], [0, 1]].length → ∃ solver rnd rnd1,
      (solvers demo_srand demo_accept)[k % 4]? = some solver ∧
      solver 3 (Graph.of_edges 2 [(0, 1)]) k rnd
        = some ([[1, 0], [0, 1], [0, 1], [0, 1]].getD k [], rnd1) :=
  heuristic_solve_rotation demo_srand demo_accept 3 5 (Graph.of_edges 2 [(0, 1)]) 5
    (fun k => k) (fun _ => 0) [[1, 0], [0, 1], [0, 1], [0, 1]] (by decide)

theorem heuristic_solve_zero_iterations (srand : Nat → Rand) (accept : Nat → Nat → Bool)
    (hfuel fuel : Nat) (g : Graph) (timeout : Int) (elapsed : Nat → Int) (prior : Rand)
    (h : ¬ elapsed 0 < timeout) :
    heuristic_solve srand accept hfuel fuel g timeout elapsed prior
      = some (List.range g.num_vertices, none) := by
  have hl : solve_loop (solvers srand accept) hfuel g timeout elapsed fuel (solve_init prior)
      = some (solve_init prior) := by
    cases fuel <;> simp [solve_loop, solve_init, h]
  unfold heuristic_solve heuristic_solve_with
  rw [hl]
  simp [solve_init, oct_of_eq]

/-- C19 fails on the code: with `timeout = 0` on the triangle the loop body runs
zero times and the sequence returned is the full range `[0, 1, 2]`, but the
elapsed time returned is the variable `totalTime`, which was never assigned
(`none`), not 0. -/
theorem heuristic_solve_zero_timeout_time_unset :
    heuristic_solve demo_srand demo_accept 0 0 triangle 0 (fun k => k) (fun _ => 0)
      = some ([0, 1, 2], none) := by
  decide

/-! ## The scheduler after its first invocation -/

theorem solve_loop_inv_exact (svs : List Solver) (hfuel : Nat) (g : Graph) (timeout : Int)
    (elapsed : Nat → Int) (P : Ensemble → Prop)
    (hstep : ∀ (s : Ensemble) (solver : Solver) (result : List Nat) (rnd1 : Rand), P s →
      svs[s.idx]? = some solver → solver hfuel g s.seed s.rnd = some (result, rnd1) →
      (result.length > s.best.length →
        P { idx := (s.idx + 1) % svs.length, seed := s.seed + 1, best := result,
            totalTime := some (elapsed (s.tick + 1)), tick := s.tick + 2, rnd := rnd1,
            tried := s.tried ++ [result] }) ∧
      (¬ result.length > s.best.length →
        P { idx := (s.idx + 1) % svs.length, seed := s.seed + 1, best := s.best,
            totalTime := s.totalTime, tick := s.tick + 1, rnd := rnd1,
            tried := s.tried ++ [result] }))
    (fuel : Nat) :
    ∀ s s2 : Ensemble, P s → solve_loop svs hfuel g timeout elapsed fuel s = some s2 → P s2 := by
  induction fuel with
  | zero =>
    intro s s2 hP h
    rw [solve_loop] at h
    split at h
    · exact Option.noConfusion h
    · simp only [Option.some.injEq] at h
      rw [← h]; exact hP
  | succ fuel ih =>
    intro s s2 hP h
    rw [solve_loop] at h
    split at h
    · split at h
      · exact Option.noConfusion h
      · rename_i solver hsol
        split at h
        · exact Option.noConfusion h
        · rename_i result rnd1 hres
          split at h
          · rename_i hgt
            exact ih _ s2 ((hstep s solver result rnd1 hP hsol hres).1 hgt) h
          · rename_i hgt
            exact ih _ s2 ((hstep s solver result rnd1 hP hsol hres).2 hgt) h
    · simp only [Option.some.injEq] at h
      rw [← h]; exact hP

theorem solve_loop_after_first (svs : List Solver) (hfuel : Nat) (g : Graph) (timeout : Int)
    (elapsed : Nat → Int) (m : Nat) (hm : 0 < m)
    (hle : ∀ solver ∈ svs, ∀ (seed : Nat) (rnd : Rand) (r : List Nat) (rnd1 : Rand),
      solver hfuel g seed rnd = some (r, rnd1) → r.length ≤ m)
    (hfirst : ∀ solver, svs[0]? = some solver → ∀ (rnd : Rand) (r : List Nat) (rnd1 : Rand),
      solver hfuel g 0 rnd = some (r, rnd1) → r.length = m)
    (hrun : elapsed 0 < timeout) (fuel : Nat) (prior : Rand) (s : Ensemble)
    (h : solve_loop svs hfuel g timeout elapsed fuel (solve_init prior) = some s) :
    s.best.length = m ∧ s.totalTime = some (elapsed 1) ∧ s.best ∈ s.tried := by
  have hinv : ∀ (fuel : Nat) (s1 s2 : Ensemble),
      (s1.best.length = m ∧ s1.totalTime = some (elapsed 1) ∧ s1.best ∈ s1.tried) →
      solve_loop svs hfuel g timeout elapsed fuel s1 = some s2 →
      (s2.best.length = m ∧ s2.totalTime = some (elapsed 1) ∧ s2.best ∈ s2.tried) := by
    intro fuel
    refine solve_loop_inv_exact svs hfuel g timeout elapsed
      (fun s => s.best.length = m ∧ s.totalTime = some (elapsed 1) ∧ s.best ∈ s.tried) ?_ fuel
    intro s1 solver result rnd1 hP hsol hres
    have hr := hle solver (List.getElem?_mem hsol) s1.seed s1.rnd result rnd1 hres
    constructor
    · intro hgt
      rw [hP.1] at hgt
      omega
    · intro _
      exact ⟨hP.1, hP.2.1, List.mem_append_left _ hP.2.2⟩
  cases fuel with
  | zero =>
    rw [solve_loop] at h
    simp only [solve_init, hrun, if_true] at h
    exact Option.noConfusion h
  | succ fuel =>
    rw [solve_loop] at h
    simp only [solve_init, hrun, if_true] at h
    split at h
    · exact Option.noConfusion h
    · rename_i solver hsol
      split at h
      · exact Option.noConfusion h
      · rename_i result rnd1 hres
        have hlen := hfirst solver hsol prior result rnd1 hres
        have hgt : result.length > ([] : List Nat).length := by
          rw [hlen]; exact hm
        rw [if_pos hgt] at h
        exact hinv fuel _ s ⟨hlen, rfl, by simp⟩ h

/-! ## Further invariants of the traversals -/

theorem color_vertex_cases (g : Graph) (colors : Colors) (v : Nat) :
    ((∀ n ∈ g.get_neighbors v, colors n ≠ 1) ∧
        color_vertex g colors v = (g, set_color colors v 1)) ∨
    ((∃ n ∈ g.get_neighbors v, colors n = 1) ∧ (∀ n ∈ g.get_neighbors v, colors n ≠ 2) ∧
        color_vertex g colors v = (g, set_color colors v 2)) ∨
    ((∃ n ∈ g.get_neighbors v, colors n = 1) ∧ (∃ n ∈ g.get_neighbors v, colors n = 2) ∧
        color_vertex g colors v = (g.remove_vertex v, colors)) := by
  unfold color_vertex
  simp only
  cases h1 : (g.get_neighbors v).any (fun n => decide (colors n = 1)) with
  | false =>
    left
    refine ⟨?_, by simp⟩
    intro n hn hc
    have : (g.get_neighbors v).any (fun n => decide (colors n = 1)) = true := by
      rw [List.any_eq_true]; exact ⟨n, hn, by simp [hc]⟩
    rw [h1] at this; exact Bool.noConfusion this
  | true =>
    right
    have e1 : ∃ n ∈ g.get_neighbors v, colors n = 1 := by
      rw [List.any_eq_true] at h1
      obtain ⟨n, hn, hc⟩ := h1
      exact ⟨n, hn, by simpa using hc⟩
    cases h2 : (g.get_neighbors v).any (fun n => decide (colors n = 2)) with
    | false =>
      left
      refine ⟨e1, ?_, by simp⟩
      intro n hn hc
      have : (g.get_neighbors v).any (fun n => decide (colors n = 2)) = true := by
        rw [List.any_eq_true]; exact ⟨n, hn, by simp [hc]⟩
      rw [h2] at this; exact Bool.noConfusion this
    | true =>
      right
      refine ⟨e1, ?_, by simp⟩
      rw [List.any_eq_true] at h2
      obtain ⟨n, hn, hc⟩ := h2
      exact ⟨n, hn, by simpa using hc⟩

theorem component_loop_preserves (push : List Nat → Nat → List Nat) (I : Traversal → Prop)
    (hvisit : ∀ (t : Traversal) (v : Nat), I t → v ∈ t.not_visited →
      I { graph := (color_vertex t.graph t.colors v).1,
          colors := (color_vertex t.graph t.colors v).2,
          not_visited := set_erase t.not_visited v })
    (fuel : Nat) :
    ∀ (t : Traversal) (stack : List Nat) (t2 : Traversal), I t →
      component_loop push fuel t stack = some t2 → I t2 := by
  induction fuel with
  | zero =>
    intro t stack t2 inv h
    cases stack with
    | nil =>
      rw [component_loop_nil] at h
      simp only [Option.some.injEq] at h
      rw [← h]; exact inv
    | cons v rest => rw [component_loop] at h; exact Option.noConfusion h
  | succ fuel ih =>
    intro t stack t2 inv h
    cases stack with
    | nil =>
      rw [component_loop_nil] at h
      simp only [Option.some.injEq] at h
      rw [← h]; exact inv
    | cons v rest =>
      rw [component_loop] at h
      split at h
      · rename_i hv
        exact ih _ _ t2 (hvisit t v inv hv) h
      · exact ih _ _ t2 inv h

theorem traversal_loop_preserves (push : List Nat → Nat → List Nat) (I : Traversal → Prop)
    (hvisit : ∀ (t : Traversal) (v : Nat), I t → v ∈ t.not_visited →
      I { graph := (color_vertex t.graph t.colors v).1,
          colors := (color_vertex t.graph t.colors v).2,
          not_visited := set_erase t.not_visited v })
    (ifuel fuel : Nat) :
    ∀ (t : Traversal) (rnd : Rand) (t2 : Traversal) (rnd2 : Rand), I t →
      traversal_loop push ifuel fuel t rnd = some (t2, rnd2) → I t2 := by
  induction fuel with
  | zero =>
    intro t rnd t2 rnd2 inv h
    rw [traversal_loop] at h
    split at h
    · simp only [Option.some.injEq, Prod.mk.injEq] at h
      rw [← h.1]; exact inv
    · exact Option.noConfusion h
  | succ fuel ih =>
    intro t rnd t2 rnd2 inv h
    rw [traversal_loop] at h
    split at h
    · simp only [Option.some.injEq, Prod.mk.injEq] at h
      rw [← h.1]; exact inv
    · simp only at h
      split at h
      · exact Option.noConfusion h
      · rename_i t1 hc
        exact ih _ _ t2 rnd2 (component_loop_preserves push I hvisit ifuel _ _ t1 inv hc) h

theorem evict_inv_visit {g0 : Graph} {t : Traversal}
    (inv : TravInv g0 t) (ev : EvictInv g0 t) {v : Nat} (hv : v ∈ t.not_visited) :
    EvictInv g0 { graph := (color_vertex t.graph t.colors v).1,
                  colors := (color_vertex t.graph t.colors v).2,
                  not_visited := set_erase t.not_visited v } := by
  have hcv : t.colors v = 0 := inv.nv_col v hv
  have hva : t.graph.is_active v = true := inv.nv_act v hv
  have keep : ∀ (c x : Nat), t.colors x ≠ 0 → set_color t.colors v c x = t.colors x := by
    intro c x hx
    have : x ≠ v := by rintro rfl; exact hx hcv
    simp [set_color, this]
  rcases color_vertex_cases t.graph t.colors v with ⟨_, e⟩ | ⟨_, _, e⟩ | ⟨⟨a, ha, hac⟩, ⟨b, hb, hbc⟩, e⟩
  · rw [e]
    intro x hx0 hx
    obtain ⟨a, b, h1, h2, h3, h4⟩ := ev x hx0 hx
    refine ⟨a, b, h1, h2, ?_, ?_⟩
    · show set_color t.colors v 1 a = 1
      rw [keep 1 a (by omega)]; exact h3
    · show set_color t.colors v 1 b = 2
      rw [keep 1 b (by omega)]; exact h4
  · rw [e]
    intro x hx0 hx
    obtain ⟨a, b, h1, h2, h3, h4⟩ := ev x hx0 hx
    refine ⟨a, b, h1, h2, ?_, ?_⟩
    · show set_color t.colors v 2 a = 1
      rw [keep 2 a (by omega)]; exact h3
    · show set_color t.colors v 2 b = 2
      rw [keep 2 b (by omega)]; exact h4
  · rw [e]
    intro x hx0 hx
    have hx2 : (t.graph.remove_vertex v).is_active x = false := hx
    rw [is_active_remove_vertex] at hx2
    by_cases hxv : x = v
    · rw [hxv]
      exact ⟨a, b, ((inv.ind.nb v hva a).mp ha).1, ((inv.ind.nb v hva b).mp hb).1, hac, hbc⟩
    · have : t.graph.is_active x = false := by simpa [hxv] using hx2
      exact ev x hx0 this

theorem bool_third {a b c : Bool} (h1 : a ≠ b) (h2 : b ≠ c) : a = c := by
  cases a <;> cases b <;> cases c <;> simp_all

theorem side_inv_visit {g : Graph} (wf : g.ActiveWF) (side : Nat → Bool)
    (hcb : CompleteBipartite g side) {t : Traversal} (inv : TravInv g t)
    (sd : SideInv g side t) {v : Nat} (hv : v ∈ t.not_visited) :
    SideInv g side { graph := (color_vertex t.graph t.colors v).1,
                     colors := (color_vertex t.graph t.colors v).2,
                     not_visited := set_erase t.not_visited v } := by
  obtain ⟨hg, hcol⟩ := sd
  have hcv : t.colors v = 0 := inv.nv_col v hv
  have hva : g.is_active v = true := hg ▸ inv.nv_act v hv
  have hvn : v < g.num_vertices := wf.vertex_lt hva
  have hside : ∀ w ∈ g.get_neighbors v, side v ≠ side w := fun w hw =>
    (hcb v hvn w (wf.vertex_lt (wf.closed hva hw))).mp hw
  have keep : ∀ (c x : Nat), x ≠ v → set_color t.colors v c x = t.colors x := by
    intro c x hx; simp [set_color, hx]
  have hset : ∀ c : Nat, set_color t.colors v c v = c := by intro c; simp [set_color]
  rw [hg]
  rcases hcol with h0 | ⟨r, hr, hrc, hexp⟩
  · rcases color_vertex_cases g t.colors v with ⟨_, e⟩ | ⟨⟨a, _, hac⟩, _⟩ | ⟨⟨a, _, hac⟩, _⟩
    · rw [e]
      refine ⟨rfl, Or.inr ⟨v, hvn, hset 1, ?_⟩⟩
      intro u hu
      show set_color t.colors v 1 u = if side u = side v then 1 else 2
      by_cases huv : u = v
      · rw [huv, hset 1]; simp
      · have : set_color t.colors v 1 u ≠ 0 := hu
        rw [keep 1 u huv] at this
        exact absurd (h0 u) this
    · rw [h0 a] at hac; exact absurd hac (by decide)
    · rw [h0 a] at hac; exact absurd hac (by decide)
  · have hrv : r ≠ v := by rintro rfl; rw [hcv] at hrc; exact absurd hrc (by decide)
    by_cases hs : side v = side r
    · rcases color_vertex_cases g t.colors v with ⟨_, e⟩ | ⟨⟨a, ha, hac⟩, _⟩ | ⟨⟨a, ha, hac⟩, _⟩
      · rw [e]
        refine ⟨rfl, Or.inr ⟨r, hr, by show set_color t.colors v 1 r = 1; rw [keep 1 r hrv, hrc], ?_⟩⟩
        intro u hu
        show set_color t.colors v 1 u = if side u = side r then 1 else 2
        by_cases huv : u = v
        · rw [huv, hset 1, if_pos hs]
        · have : set_color t.colors v 1 u ≠ 0 := hu
          rw [keep 1 u huv] at this ⊢
          exact hexp u this
      · have := hexp a (by omega)
        rw [if_neg (fun h => hside a ha (hs.trans h.symm))] at this
        omega
      · have := hexp a (by omega)
        rw [if_neg (fun h => hside a ha (hs.trans h.symm))] at this
        omega
    · have hrn : r ∈ g.get_neighbors v := (hcb v hvn r hr).mpr hs
      have hno2 : ∀ w ∈ g.get_neighbors v, t.colors w ≠ 2 := by
        intro w hw hc
        have := hexp w (by omega)
        rw [if_pos (bool_third (fun h => hside w hw h.symm) hs)] at this
        omega
      rcases color_vertex_cases g t.colors v with ⟨h1, _⟩ | ⟨_, _, e⟩ | ⟨_, ⟨b, hb, hbc⟩, _⟩
      · exact absurd hrc (h1 r hrn)
      · rw [e]
        refine ⟨rfl, Or.inr ⟨r, hr, by show set_color t.colors v 2 r = 1; rw [keep 2 r hrv, hrc], ?_⟩⟩
        intro u hu
        show set_color t.colors v 2 u = if side u = side r then 1 else 2
        by_cases huv : u = v
        · rw [huv, hset 2, if_neg hs]
        · have : set_color t.colors v 2 u ≠ 0 := hu
          rw [keep 2 u huv] at this ⊢
          exact hexp u this
      · exact absurd hbc (hno2 b hb)

theorem traversal_complete_bipartite {g : Graph} (wf : g.ActiveWF) (hall : g.AllActive)
    (side : Nat → Bool) (hcb : CompleteBipartite g side) (push : List Nat → Nat → List Nat)
    (ifuel fuel : Nat) (rnd : Rand) (t : Traversal) (rnd1 : Rand)
    (h : traversal_loop push ifuel fuel (traversal_init g) rnd = some (t, rnd1)) :
    t.graph.get_vertices = List.range g.num_vertices := by
  have hI := traversal_loop_preserves push (fun t => TravInv g t ∧ SideInv g side t)
    (fun t v hi hv => ⟨hi.1.visit wf hv, side_inv_visit wf side hcb hi.1 hi.2 hv⟩)
    ifuel fuel (traversal_init g) rnd t rnd1
    ⟨TravInv.at_start wf hall, rfl, Or.inl (fun _ => rfl)⟩ h
  rw [hI.2.1, get_vertices_eq]
  rw [List.filter_eq_self]
  intro a ha
  exact hall a (List.mem_range.mp ha)

/-! ## Complete bipartite graphs and the scheduler -/

theorem two_pass_complete_bipartite {g : Graph} (wf : g.ActiveWF) (side : Nat → Bool)
    (hcb : CompleteBipartite g side) {s1 s2 : List Nat} (h1 : MaximalIndependent g s1)
    (h2 : MaximalIndependent (remove_all g s1) s2) :
    ∀ v, g.is_active v = true → v ∈ s2 ++ s1 := by
  intro v hv
  have ind : Induced g (remove_all g s1) := (Induced.refl wf).remove_all wf s1
  by_cases hv1 : v ∈ s1
  · exact List.mem_append_right _ hv1
  · apply List.mem_append_left
    have hv2 : (remove_all g s1).is_active v = true := (is_active_remove_all g s1 v).mpr ⟨hv, hv1⟩
    rcases h2.2.2 v hv2 with h | ⟨r, hr, hvr⟩
    · exact h
    · exfalso
      have hr2 := h2.1 r hr
      obtain ⟨hra, hr1⟩ := (is_active_remove_all g s1 r).mp hr2
      have hvr0 : v ∈ g.get_neighbors r := ((ind.nb r hr2 v).mp hvr).1
      have lt : ∀ x, g.is_active x = true → x < g.num_vertices := fun x hx => wf.vertex_lt hx
      have s_rv : side r ≠ side v := (hcb r (lt r hra) v (lt v hv)).mp hvr0
      rcases h1.2.2 v hv with h | ⟨a, ha, hva⟩
      · exact hv1 h
      · rcases h1.2.2 r hra with h | ⟨b, hb, hrb⟩
        · exact hr1 h
        · have haa := h1.1 a ha
          have hba := h1.1 b hb
          have s_av : side a ≠ side v := (hcb a (lt a haa) v (lt v hv)).mp hva
          have s_br : side b ≠ side r := (hcb b (lt b hba) r (lt r hra)).mp hrb
          have s_ab : side a ≠ side b := by
            intro e
            have e1 : side a = side r := bool_third s_av (fun h => s_rv h.symm)
            exact s_br (e ▸ e1)
          exact h1.2.1 a ha b hb ((hcb a (lt a haa) b (lt b hba)).mpr s_ab)

theorem length_eq_of_covers {n : Nat} {r : List Nat} (hn : r.Nodup) (hsub : ∀ v ∈ r, v < n)
    (hall : ∀ v, v < n → v ∈ r) : r.length = n := by
  have h1 : r.Perm (List.range n) := by
    rw [List.perm_ext_iff_of_nodup hn (List.nodup_range n)]
    intro a
    exact ⟨fun h => List.mem_range.mpr (hsub a h), fun h => hall a (List.mem_range.mp h)⟩
  rw [h1.length_eq, List.length_range]

theorem length_le_of_subset {n : Nat} {r : List Nat} (hn : r.Nodup) (hsub : ∀ v ∈ r, v < n) :
    r.length ≤ n := by
  have := (List.subperm_of_subset hn (fun v hv => List.mem_range.mpr (hsub v hv))).length_le
  simpa using this

theorem two_le_length_of_mem {r : List Nat} {a b : Nat} (ha : a ∈ r) (hb : b ∈ r) (hab : a ≠ b) :
    2 ≤ r.length := by
  match r, ha, hb with
  | [], ha, _ => exact absurd ha (List.not_mem_nil a)
  | [x], ha, hb =>
    rw [List.mem_singleton] at ha hb
    exact absurd (ha.trans hb.symm) hab
  | _ :: _ :: _, _, _ => simp

theorem heuristic_solve_after_first {g : Graph} (wf : g.ActiveWF) (hall : g.AllActive)
    (srand : Nat → Rand) (accept : Nat → Nat → Bool) (hfuel fuel : Nat) (timeout : Int)
    (elapsed : Nat → Int) (prior : Rand) (m : Nat) (hm : 0 < m)
    (hle : ∀ solver ∈ solvers srand accept, ∀ (seed : Nat) (rnd : Rand) (r : List Nat)
      (rnd1 : Rand), solver hfuel g seed rnd = some (r, rnd1) → r.length ≤ m)
    (hfirst : ∀ (rnd : Rand) (r : List Nat) (rnd1 : Rand),
      greedy_bipartite srand hfuel g 0 rnd = some (r, rnd1) → r.length = m)
    (hrun : elapsed 0 < timeout) (oct : List Nat) (time : Option Int)
    (h : heuristic_solve srand accept hfuel fuel g timeout elapsed prior = some (oct, time)) :
    oct.length + m = g.num_vertices ∧ time = some (elapsed 1) := by
  unfold heuristic_solve heuristic_solve_with at h
  rw [Option.map_eq_some'] at h
  obtain ⟨s, hs, e⟩ := h
  simp only [Prod.mk.injEq] at e
  obtain ⟨b1, b2, b3⟩ := solve_loop_after_first (solvers srand accept) hfuel g timeout elapsed m hm
    hle (fun solver hsol => by
      have : solver = greedy_bipartite srand := by
        simp only [solvers, List.getElem?_cons_zero, Option.some.injEq] at hsol
        exact hsol.symm
      rw [this]; exact hfirst) hrun fuel prior s hs
  obtain ⟨c1, c2⟩ := solve_loop_subsets wf hall srand accept hfuel timeout elapsed fuel prior s hs
    s.best b3
  have := length_oct_of g s.best c1 c2
  rw [← e.1, ← e.2, ← b1]
  exact ⟨this, b2⟩

theorem edgeless_neighbors (n u : Nat) : (Graph.of_edges n []).get_neighbors u = [] := by
  simp only [Graph.of_edges, List.foldl_nil, get_neighbors, List.getD_eq_getElem?_getD,
    List.getElem?_replicate]
  split <;> rfl

theorem edgeless_active (n u : Nat) : (Graph.of_edges n []).is_active u = true ↔ u < n := by
  simp only [Graph.of_edges, List.foldl_nil, is_active, List.getD_eq_getElem?_getD,
    List.getElem?_replicate]
  split
  · rename_i h; simp [h]
  · rename_i h; simp [h]

theorem edgeless_wf (n : Nat) : (Graph.of_edges n []).ActiveWF := by
  refine ⟨by simp [Graph.of_edges], by simp [Graph.of_edges], ?_⟩
  intro u _ _
  rw [edgeless_neighbors]
  exact ⟨List.nodup_nil, fun w hw => absurd hw (List.not_mem_nil w)⟩

theorem edgeless_all_active (n : Nat) : (Graph.of_edges n []).AllActive :=
  fun u hu => (edgeless_active n u).mpr hu

theorem edgeless_complete (n : Nat) : CompleteBipartite (Graph.of_edges n []) (fun _ => true) := by
  intro u _ w _
  rw [edgeless_neighbors]
  simp

theorem greedy_bipartite_complete_bipartite {g : Graph} (wf : g.ActiveWF) (hall : g.AllActive)
    (side : Nat → Bool) (hcb : CompleteBipartite g side) (srand : Nat → Rand)
    (fuel seed : Nat) (prior : Rand) (r : List Nat) (rnd2 : Rand)
    (h : greedy_bipartite srand fuel g seed prior = some (r, rnd2)) :
    r.Nodup ∧ (∀ v, v ∈ r ↔ v < g.num_vertices) ∧ r.length = g.num_vertices := by
  obtain ⟨s1, s2, e, m1, n1, m2, n2⟩ := greedy_bipartite_sound wf srand fuel seed prior r rnd2 h
  obtain ⟨a, _, _, d⟩ := two_pass wf m1 n1 m2 n2
  have hcov := two_pass_complete_bipartite wf side hcb m1 m2
  rw [e]
  have hsub : ∀ v ∈ s2 ++ s1, v < g.num_vertices := fun v hv => wf.vertex_lt (d v hv)
  have hallv : ∀ v, v < g.num_vertices → v ∈ s2 ++ s1 := fun v hv => hcov v (hall v hv)
  exact ⟨a, fun v => ⟨hsub v, hallv v⟩, length_eq_of_covers a hsub hallv⟩

theorem greedy_stochastic_complete_bipartite {g : Graph} (wf : g.ActiveWF) (hall : g.AllActive)
    (side : Nat → Bool) (hcb : CompleteBipartite g side) (srand : Nat → Rand)
    (accept : Nat → Nat → Bool) (fuel seed : Nat) (prior : Rand) (r : List Nat) (rnd2 : Rand)
    (h : greedy_stochastic srand accept fuel g seed prior = some (r, rnd2)) :
    r.Nodup ∧ (∀ v, v ∈ r ↔ v < g.num_vertices) ∧ r.length = g.num_vertices := by
  obtain ⟨s1, s2, _, _, _, e, m1, n1, m2, n2⟩ :=
    greedy_stochastic_sound wf srand accept fuel seed prior r rnd2 h
  obtain ⟨a, _, _, d⟩ := two_pass wf m1 n1 m2 n2
  have hcov := two_pass_complete_bipartite wf side hcb m1 m2
  rw [e]
  have hsub : ∀ v ∈ s2 ++ s1, v < g.num_vertices := fun v hv => wf.vertex_lt (d v hv)
  have hallv : ∀ v, v < g.num_vertices → v ∈ s2 ++ s1 := fun v hv => hcov v (hall v hv)
  exact ⟨a, fun v => ⟨hsub v, hallv v⟩, length_eq_of_covers a hsub hallv⟩

theorem heuristic_solve_complete_bipartite {g : Graph} (wf : g.ActiveWF) (hall : g.AllActive)
    (hn : 0 < g.num_vertices) (side : Nat → Bool) (hcb : CompleteBipartite g side)
    (srand : Nat → Rand) (accept : Nat → Nat → Bool) (hfuel fuel : Nat) (timeout : Int)
    (elapsed : Nat → Int) (prior : Rand) (hrun : elapsed 0 < timeout) (oct : List Nat)
    (time : Option Int)
    (h : heuristic_solve srand accept hfuel fuel g timeout elapsed prior = some (oct, time)) :
    oct = [] ∧ time = some (elapsed 1) := by
  have := heuristic_solve_after_first wf hall srand accept hfuel fuel timeout elapsed prior
    g.num_vertices hn
    (fun solver hs seed rnd r rnd1 hr =>
      length_le_of_subset (solver_subset wf hall srand accept solver hs hfuel seed rnd r rnd1 hr).1
        (solver_subset wf hall srand accept solver hs hfuel seed rnd r rnd1 hr).2)
    (fun rnd r rnd1 hr =>
      (greedy_bipartite_complete_bipartite wf hall side hcb srand hfuel 0 rnd r rnd1 hr).2.2)
    hrun oct time h
  exact ⟨List.length_eq_zero.mp (by omega), this.2⟩

/-! ## End-to-end scenarios -/

theorem triangle_adjacent : ∀ a, a < 3 → ∀ b, b < 3 → a ≠ b → b ∈ triangle.get_neighbors a := by
  decide

theorem triangle_bipartite_le_two {r : List Nat} (hn : r.Nodup) (hsub : ∀ v ∈ r, v < 3)
    (hb : InducesBipartite triangle (fun v => v ∈ r)) : r.length ≤ 2 := by
  by_contra hlen
  have h3 : r.length = 3 := by
    have := length_le_of_subset hn hsub
    omega
  have hperm : r.Perm (List.range 3) :=
    (List.subperm_of_subset hn (fun v hv => List.mem_range.mpr (hsub v hv))).perm_of_length_le
      (by simp [h3])
  have hmem : ∀ v, v < 3 → v ∈ r := fun v hv => hperm.mem_iff.mpr (List.mem_range.mpr hv)
  obtain ⟨c, hc⟩ := hb
  have e01 := hc 0 1 (hmem 0 (by decide)) (hmem 1 (by decide)) (by decide)
  have e12 := hc 1 2 (hmem 1 (by decide)) (hmem 2 (by decide)) (by decide)
  have e20 := hc 2 0 (hmem 2 (by decide)) (hmem 0 (by decide)) (by decide)
  cases h0 : c 0 <;> cases h1 : c 1 <;> cases h2 : c 2 <;> simp_all

theorem triangle_two_pass_ge_two {s1 s2 : List Nat} (h1 : MaximalIndependent triangle s1)
    (h2 : MaximalIndependent (remove_all triangle s1) s2) : 2 ≤ (s2 ++ s1).length := by
  have wf : triangle.ActiveWF := by decide
  have hall : triangle.AllActive := by decide
  have lt3 : ∀ a ∈ s1, a < 3 := fun a ha => wf.vertex_lt (h1.1 a ha)
  have hs1 : s1 ≠ [] := by
    rcases h1.2.2 0 (by decide) with h | ⟨r, hr, _⟩
    · exact List.ne_nil_of_mem h
    · exact List.ne_nil_of_mem hr
  have hex : ∃ v, v < 3 ∧ v ∉ s1 := by
    by_cases h0 : 0 ∈ s1
    · refine ⟨1, by decide, fun h => ?_⟩
      exact h1.2.1 0 h0 1 h (by decide)
    · exact ⟨0, by decide, h0⟩
  obtain ⟨v, hv, hv1⟩ := hex
  have hv2 : (remove_all triangle s1).is_active v = true :=
    (is_active_remove_all triangle s1 v).mpr ⟨hall v hv, hv1⟩
  have hs2 : s2 ≠ [] := by
    rcases h2.2.2 v hv2 with h | ⟨r, hr, _⟩
    · exact List.ne_nil_of_mem h
    · exact List.ne_nil_of_mem hr
  have a1 := List.length_pos.mpr hs1
  have a2 := List.length_pos.mpr hs2
  rw [List.length_append]
  omega

theorem traversal_ge_two {g : Graph} (wf : g.ActiveWF) (hall : g.AllActive)
    (h2 : 2 ≤ g.num_vertices) (push : List Nat → Nat → List Nat) (ifuel fuel : Nat) (rnd : Rand)
    (t : Traversal) (rnd1 : Rand)
    (h : traversal_loop push ifuel fuel (traversal_init g) rnd = some (t, rnd1)) :
    2 ≤ t.graph.get_vertices.length := by
  have hI := traversal_loop_preserves push (fun t => TravInv g t ∧ EvictInv g t)
    (fun t v hi hv => ⟨hi.1.visit wf hv, evict_inv_visit hi.1 hi.2 hv⟩)
    ifuel fuel (traversal_init g) rnd t rnd1
    ⟨TravInv.at_start wf hall, fun v hv0 hv => by
      have : (traversal_init g).graph.is_active v = false := hv
      rw [show (traversal_init g).graph = g from rfl, hv0] at this
      exact Bool.noConfusion this⟩ h
  obtain ⟨inv, ev⟩ := hI
  have mem : ∀ v, v ∈ t.graph.get_vertices ↔ t.graph.is_active v = true :=
    mem_get_vertices inv.ind.len_act
  have evicted : ∀ v, v < g.num_vertices → t.graph.is_active v = false →
      2 ≤ t.graph.get_vertices.length := by
    intro v hv hvi
    obtain ⟨a, b, _, _, ca, cb⟩ := ev v (hall v hv) hvi
    exact two_le_length_of_mem ((mem a).mpr (inv.col_act a (by omega)))
      ((mem b).mpr (inv.col_act b (by omega))) (by rintro rfl; omega)
  cases h0 : t.graph.is_active 0 with
  | false => exact evicted 0 (by omega) h0
  | true =>
    cases h1 : t.graph.is_active 1 with
    | false => exact evicted 1 (by omega) h1
    | true => exact two_le_length_of_mem ((mem 0).mpr h0) ((mem 1).mpr h1) (by decide)

theorem triangle_solver_length (srand : Nat → Rand) (accept : Nat → Nat → Bool)
    (solver : Solver) (hs : solver ∈ solvers srand accept) (fuel seed : Nat) (prior : Rand)
    (r : List Nat) (rnd2 : Rand) (h : solver fuel triangle seed prior = some (r, rnd2)) :
    r.length = 2 := by
  have wf : triangle.ActiveWF := by decide
  have hall : triangle.AllActive := by decide
  have hsub := solver_subset wf hall srand accept solver hs fuel seed prior r rnd2 h
  have hbip := solver_sound wf hall srand accept solver hs fuel seed prior r rnd2 h
  have hle : r.length ≤ 2 := triangle_bipartite_le_two hsub.1 hsub.2 hbip
  have hge : 2 ≤ r.length := by
    simp only [solvers, List.mem_cons, List.mem_singleton, List.not_mem_nil, or_false] at hs
    rcases hs with rfl | rfl | rfl | rfl
    · obtain ⟨s1, s2, e, m1, _, m2, _⟩ :=
        greedy_bipartite_sound wf srand fuel seed prior r rnd2 h
      rw [e]; exact triangle_two_pass_ge_two m1 m2
    · obtain ⟨s1, s2, _, _, _, e, m1, _, m2, _⟩ :=
        greedy_stochastic_sound wf srand accept fuel seed prior r rnd2 h
      rw [e]; exact triangle_two_pass_ge_two m1 m2
    · unfold greedy_dfs_bipartite greedy_dfs_run at h
      rw [Option.map_eq_some'] at h
      obtain ⟨⟨t, rnd1⟩, ht, e⟩ := h
      simp only [Prod.mk.injEq] at e
      rw [← e.1]
      exact traversal_ge_two wf hall (by decide) _ _ _ _ t rnd1 ht
    · unfold greedy_bfs_bipartite greedy_bfs_run at h
      rw [Option.map_eq_some'] at h
      obtain ⟨⟨t, rnd1⟩, ht, e⟩ := h
      simp only [Prod.mk.injEq] at e
      rw [← e.1]
      exact traversal_ge_two wf hall (by decide) _ _ _ _ t rnd1 ht
  omega

/-- C15 (as stated, refuted): on the triangle, with a clock that is set back by
5 ms during the first invocation (reading 0 at the first deadline check, -5
right after the first invocation, 10 at the second deadline check) and a
timeout of 1 ms, `heuristic_solve` completes one invocation and returns the
elapsed time -5, which is not at least 0. -/
theorem triangle_elapsed_time_negative :
    ((fun k => if k = 0 then 0 else if k = 1 then -5 else 10) : Nat → Int) 0 < 1 ∧
    heuristic_solve demo_srand demo_accept 3 1 triangle 1
      (fun k => if k = 0 then 0 else if k = 1 then -5 else 10) (fun _ => 0)
        = some ([1], some (-5)) ∧
    ¬ ((0 : Int) ≤ -5) := by
  decide

/-- C15 (amended): on the triangle, whatever the seed, the seeding function, the
selection test and the fuel, each of the four heuristics that returns a list
returns exactly 2 vertices; and when `heuristic_solve` returns after at least
one invocation (the first deadline check passes) the sequence it returns has
length 1 and the elapsed time it returns is the clock reading taken right after
the first invocation, whatever the clock does; that time is at least 0 when
this one reading is. -/
theorem triangle_oct_size_one (srand : Nat → Rand) (accept : Nat → Nat → Bool)
    (fuel seed : Nat) (prior : Rand) :
    (∀ r, (greedy_bipartite srand fuel triangle seed prior).map Prod.fst = some r →
      r.length = 2) ∧
    (∀ r, (greedy_stochastic srand accept fuel triangle seed prior).map Prod.fst = some r →
      r.length = 2) ∧
    (∀ r, (greedy_dfs_bipartite srand fuel triangle seed prior).map Prod.fst = some r →
      r.length = 2) ∧
    (∀ r, (greedy_bfs_bipartite srand fuel triangle seed prior).map Prod.fst = some r →
      r.length = 2) ∧
    (∀ (sfuel : Nat) (timeout : Int) (elapsed : Nat → Int) (oct : List Nat) (time : Option Int),
      elapsed 0 < timeout →
      heuristic_solve srand accept fuel sfuel triangle timeout elapsed prior = some (oct, time) →
      oct.length = 1 ∧ time = some (elapsed 1) ∧
      (0 ≤ elapsed 1 → ∃ t, time = some t ∧ 0 ≤ t)) := by
  have key : ∀ (solver : Solver), solver ∈ solvers srand accept → ∀ r,
      (solver fuel triangle seed prior).map Prod.fst = some r → r.length = 2 := by
    intro solver hs r h
    obtain ⟨rnd2, h2⟩ := map_fst_eq_some h
    exact triangle_solver_length srand accept solver hs fuel seed prior r rnd2 h2
  refine ⟨key _ (by simp [solvers]), key _ (by simp [solvers]), key _ (by simp [solvers]),
    key _ (by simp [solvers]), ?_⟩
  intro sfuel timeout elapsed oct time hrun h
  have := heuristic_solve_after_first (by decide) (by decide) srand accept fuel sfuel timeout
    elapsed prior 2 (by decide)
    (fun solver hs sd rnd r rnd1 hr =>
      le_of_eq (triangle_solver_length srand accept solver hs fuel sd rnd r rnd1 hr))
    (fun rnd r rnd1 hr =>
      triangle_solver_length srand accept _ (by simp [solvers]) fuel 0 rnd r rnd1 hr)
    hrun oct time h
  have hn : triangle.num_vertices = 3 := rfl
  rw [hn] at this
  exact ⟨by omega, this.2, fun hclock => ⟨elapsed 1, this.2, hclock⟩⟩

/-- Witness of the amended C15: with seed 0 and one completed invocation
`heuristic_solve` returns on the triangle a sequence of length 1 with elapsed
time 1. -/
theorem triangle_oct_size_one_witness :
    heuristic_solve demo_srand demo_accept 3 1 triangle 1 (fun k => k) (fun _ => 0)
        = some ([1], some 1) ∧
      ([1] : List Nat).length = 1 ∧ (some 1 : Option Int) = some (((fun k => k) : Nat → Int) 1) ∧
      ((0 : Int) ≤ ((fun k => k) : Nat → Int) 1 → ∃ t, (some 1 : Option Int) = some t ∧ 0 ≤ t) :=
  ⟨by decide,
   (triangle_oct_size_one demo_srand demo_accept 3 0 (fun _ => 0)).2.2.2.2 1 1 (fun k => k)
      [1] (some 1) (by decide) (by decide)⟩

theorem cycle4_complete : CompleteBipartite cycle4 (fun v => decide (v % 2 = 0)) := by decide

/-- C16: on the cycle 0-1-2-3-0, whatever the seed, the seeding function, the
selection test and the fuel: `greedy_bipartite` and `greedy_stochastic`, when
they return, return a list without repetition that holds the 4 vertices;
`greedy_dfs_bipartite` and `greedy_bfs_bipartite`, when they return, return
`[0, 1, 2, 3]`; and when `heuristic_solve` returns after at least one invocation
(the first deadline check passes) the sequence it returns is empty. -/
theorem cycle4_all_vertices_kept (srand : Nat → Rand) (accept : Nat → Nat → Bool)
    (fuel seed : Nat) (prior : Rand) :
    (∀ r, (greedy_bipartite srand fuel cycle4 seed prior).map Prod.fst = some r →
      r.Nodup ∧ (∀ v, v ∈ r ↔ v < 4) ∧ r.length = 4) ∧
    (∀ r, (greedy_stochastic srand accept fuel cycle4 seed prior).map Prod.fst = some r →
      r.Nodup ∧ (∀ v, v ∈ r ↔ v < 4) ∧ r.length = 4) ∧
    (∀ r, (greedy_dfs_bipartite srand fuel cycle4 seed prior).map Prod.fst = some r →
      r = [0, 1, 2, 3]) ∧
    (∀ r, (greedy_bfs_bipartite srand fuel cycle4 seed prior).map Prod.fst = some r →
      r = [0, 1, 2, 3]) ∧
    (∀ (sfuel : Nat) (timeout : Int) (elapsed : Nat → Int) (oct : List Nat) (time : Option Int),
      elapsed 0 < timeout →
      heuristic_solve srand accept fuel sfuel cycle4 timeout elapsed prior = some (oct, time) →
      oct = []) := by
  have wf : cycle4.ActiveWF := by decide
  have hall : cycle4.AllActive := by decide
  refine ⟨?_, ?_, ?_, ?_, ?_⟩
  · intro r h
    obtain ⟨rnd2, h2⟩ := map_fst_eq_some h
    exact greedy_bipartite_complete_bipartite wf hall _ cycle4_complete srand fuel seed prior r
      rnd2 h2
  · intro r h
    obtain ⟨rnd2, h2⟩ := map_fst_eq_some h
    exact greedy_stochastic_complete_bipartite wf hall _ cycle4_complete srand accept fuel seed
      prior r rnd2 h2
  · intro r h
    obtain ⟨rnd2, h2⟩ := map_fst_eq_some h
    unfold greedy_dfs_bipartite greedy_dfs_run at h2
    rw [Option.map_eq_some'] at h2
    obtain ⟨⟨t, rnd1⟩, ht, e⟩ := h2
    simp only [Prod.mk.injEq] at e
    rw [← e.1, traversal_complete_bipartite wf hall _ cycle4_complete _ _ _ _ t rnd1 ht]
    rfl
  · intro r h
    obtain ⟨rnd2, h2⟩ := map_fst_eq_some h
    unfold greedy_bfs_bipartite greedy_bfs_run at h2
    rw [Option.map_eq_some'] at h2
    obtain ⟨⟨t, rnd1⟩, ht, e⟩ := h2
    simp only [Prod.mk.injEq] at e
    rw [← e.1, traversal_complete_bipartite wf hall _ cycle4_complete _ _ _ _ t rnd1 ht]
    rfl
  · intro sfuel timeout elapsed oct time hrun h
    exact (heuristic_solve_complete_bipartite wf hall (by decide) _ cycle4_complete srand accept
      fuel sfuel timeout elapsed prior hrun oct time h).1

/-- Witness of C16: with seed 0 and one completed invocation `heuristic_solve`
returns on the cycle, and the sequence it returns is empty. -/
theorem cycle4_all_vertices_kept_witness :
    heuristic_solve demo_srand demo_accept 5 1 cycle4 1 (fun k => k) (fun _ => 0)
        = some ([], some 1) ∧
      ([] : List Nat) = [] :=
  ⟨by decide,
   (cycle4_all_vertices_kept demo_srand demo_accept 5 0 (fun _ => 0)).2.2.2.2 1 1
      (fun k => k) [] (some 1) (by decide) (by decide)⟩

/-- C17: for every `N ≥ 1`, on the graph with `N` vertices and no edge: with fuel
at least `N`, `greedy_bipartite` with seed 0 returns, for every seeding function,
a list without repetition that holds the `N` vertices; and when `heuristic_solve`
returns after at least one invocation (the first deadline check passes) the
sequence it returns is empty. -/
theorem edgeless_oct_empty (n : Nat) (hn : 0 < n) (srand : Nat → Rand)
    (accept : Nat → Nat → Bool) (prior : Rand) :
    (∀ fuel, n ≤ fuel → ∃ r rnd1,
      greedy_bipartite srand fuel (Graph.of_edges n []) 0 prior = some (r, rnd1) ∧
      r.Nodup ∧ (∀ v, v ∈ r ↔ v < n) ∧ r.length = n) ∧
    (∀ (hfuel fuel : Nat) (timeout : Int) (elapsed : Nat → Int) (oct : List Nat)
      (time : Option Int), elapsed 0 < timeout →
      heuristic_solve srand accept hfuel fuel (Graph.of_edges n []) timeout elapsed prior
        = some (oct, time) →
      oct = []) := by
  have hnum : (Graph.of_edges n []).num_vertices = n := rfl
  constructor
  · intro fuel hfuel
    obtain ⟨s1, s2, rnd1, rnd2, _, _, e3, _⟩ :=
      greedy_bipartite_spec (edgeless_wf n) srand fuel (by rw [hnum]; exact hfuel) 0 prior
    have := greedy_bipartite_complete_bipartite (edgeless_wf n) (edgeless_all_active n) _
      (edgeless_complete n) srand fuel 0 prior _ rnd2 e3
    rw [hnum] at this
    exact ⟨s2 ++ s1, rnd2, e3, this⟩
  · intro hfuel fuel timeout elapsed oct time hrun h
    exact (heuristic_solve_complete_bipartite (edgeless_wf n) (edgeless_all_active n)
      (by rw [hnum]; exact hn) _ (edgeless_complete n) srand accept hfuel fuel timeout elapsed
      prior hrun oct time h).1

/-- Witness of C17 with `N = 2`: `greedy_bipartite` with seed 0 returns the two
vertices, and `heuristic_solve` with one completed invocation returns the empty
sequence. -/
theorem edgeless_oct_empty_witness :
    (0 < 2) ∧
    (∃ r rnd1, greedy_bipartite demo_srand 2 (Graph.of_edges 2 []) 0 (fun _ => 0)
        = some (r, rnd1) ∧ r.Nodup ∧ (∀ v, v ∈ r ↔ v < 2) ∧ r.length = 2) ∧
    heuristic_solve demo_srand demo_accept 2 1 (Graph.of_edges 2 []) 1 (fun k => k)
        (fun _ => 0) = some ([], some 1) :=
  ⟨by decide,
   (edgeless_oct_empty 2 (by decide) demo_srand demo_accept (fun _ => 0)).1 2 (by decide),
   by decide⟩

/-! ## Rounds of `luby_ind_set` -/

theorem luby_select_mono (accept : Nat → Nat → Bool) (g : Graph) (vs : List Nat) :
    ∀ (rnd : Rand) (init : List Nat), ∀ v ∈ init, v ∈ (luby_select accept g vs rnd init).1 := by
  induction vs with
  | nil => intro rnd init v hv; exact hv
  | cons a vs ih =>
    intro rnd init v hv
    rw [luby_select]
    split
    · exact ih _ _ v (mem_set_insert.mpr (Or.inr hv))
    · split
      · exact ih _ _ v (mem_set_insert.mpr (Or.inr hv))
      · exact ih _ _ v hv

theorem luby_select_isolated (accept : Nat → Nat → Bool) (g : Graph) (vs : List Nat) :
    ∀ (rnd : Rand) (init : List Nat), ∀ v ∈ vs, g.get_degree v = 0 →
      v ∈ (luby_select accept g vs rnd init).1 := by
  induction vs with
  | nil => intro rnd init v hv; exact absurd hv (List.not_mem_nil v)
  | cons a vs ih =>
    intro rnd init v hv hd
    rw [luby_select]
    rcases List.mem_cons.mp hv with h | h
    · subst h
      rw [if_pos hd]
      exact luby_select_mono accept g vs _ _ v (mem_set_insert.mpr (Or.inl rfl))
    · split
      · exact ih _ _ v h hd
      · split
        · exact ih _ _ v h hd
        · exact ih _ _ v h hd

theorem luby_resolve_mono (g : Graph) (initial : List Nat) (L : List Nat) :
    ∀ chosen : List Nat, ∀ c ∈ chosen, c ∈ luby_resolve g initial L chosen := by
  induction L with
  | nil => intro chosen c hc; exact hc
  | cons v L ih =>
    intro chosen c hc
    rw [luby_resolve]
    apply ih
    split
    · exact mem_set_insert.mpr (Or.inr hc)
    · exact hc

/-- A tentative vertex without a conflict is confirmed. -/
theorem luby_resolve_keeps (g : Graph) (initial : List Nat) (L : List Nat) :
    ∀ chosen : List Nat, ∀ v ∈ L,
      (∀ chosen1 : List Nat, (∀ c ∈ chosen, c ∈ chosen1) →
        (g.get_neighbors v).any (luby_conflict g initial chosen1 v) = false) →
      v ∈ luby_resolve g initial L chosen := by
  induction L with
  | nil => intro chosen v hv; exact absurd hv (List.not_mem_nil v)
  | cons a L ih =>
    intro chosen v hv hno
    rw [luby_resolve]
    rcases List.mem_cons.mp hv with h | h
    · subst h
      apply luby_resolve_mono
      simp only [hno chosen (fun _ h => h), Bool.not_false, if_true]
      exact mem_set_insert.mpr (Or.inl rfl)
    · apply ih _ v h
      intro chosen1 hsub
      apply hno
      intro c hc
      apply hsub
      split
      · exact mem_set_insert.mpr (Or.inr hc)
      · exact hc

theorem exists_max_degree (g : Graph) (l : List Nat) (hl : l ≠ []) :
    ∃ v ∈ l, ∀ w ∈ l, g.get_degree w ≤ g.get_degree v := by
  induction l with
  | nil => exact absurd rfl hl
  | cons a l ih =>
    by_cases hnil : l = []
    · subst hnil
      exact ⟨a, List.mem_cons_self _ _, fun w hw => by
        rw [List.mem_singleton.mp hw]⟩
    · obtain ⟨v, hv, hmax⟩ := ih hnil
      by_cases hav : g.get_degree a ≤ g.get_degree v
      · refine ⟨v, List.mem_cons_of_mem _ hv, fun w hw => ?_⟩
        rcases List.mem_cons.mp hw with h | h
        · rw [h]; exact hav
        · exact hmax w h
      · refine ⟨a, List.mem_cons_self _ _, fun w hw => ?_⟩
        rcases List.mem_cons.mp hw with h | h
        · rw [h]
        · have := hmax w h
          omega

/-- A tentative vertex of largest degree is confirmed unless some vertex was
confirmed before it, so a non-empty tentative set gives a non-empty confirmed
set. -/
theorem luby_resolve_nonempty (g : Graph) (initial : List Nat) {v : Nat}
    (hmax : ∀ w ∈ initial, g.get_degree w ≤ g.get_degree v) (L : List Nat) :
    ∀ chosen : List Nat, chosen ≠ [] ∨ v ∈ L → luby_resolve g initial L chosen ≠ [] := by
  induction L with
  | nil =>
    intro chosen h
    rcases h with h | h
    · exact h
    · exact absurd h (List.not_mem_nil v)
  | cons a L ih =>
    intro chosen h
    rw [luby_resolve]
    apply ih
    by_cases hc : chosen = []
    · have hvL : v ∈ a :: L := h.resolve_left (fun h1 => h1 hc)
      rcases List.mem_cons.mp hvL with h1 | h1
      · left
        subst h1
        subst hc
        have hno : (g.get_neighbors v).any (luby_conflict g initial [] v) = false := by
          rw [List.any_eq_false]
          intro w _
          simp only [luby_conflict, List.not_mem_nil, decide_False, Bool.false_or,
            Bool.and_eq_true, decide_eq_true_eq, not_and, not_lt]
          intro hw
          exact hmax w hw
        simp only [hno, Bool.not_false, if_true]
        intro hnil
        have : v ∈ set_insert [] v := mem_set_insert.mpr (Or.inl rfl)
        rw [hnil] at this
        exact absurd this (List.not_mem_nil v)
      · right; exact h1
    · left
      obtain ⟨c, hcm⟩ := List.exists_mem_of_ne_nil chosen hc
      intro hnil
      have : c ∈ (if (!(g.get_neighbors a).any (luby_conflict g initial chosen a)) = true
          then set_insert chosen a else chosen) := by
        split
        · exact mem_set_insert.mpr (Or.inr hcm)
        · exact hcm
      rw [hnil] at this
      exact absurd this (List.not_mem_nil c)

theorem luby_confirmed_nonempty (accept : Nat → Nat → Bool) (g : Graph) (vs : List Nat)
    (rnd : Rand) (h : luby_tentative accept g vs rnd ≠ []) :
    luby_confirmed accept g vs rnd ≠ [] := by
  obtain ⟨v, hv, hmax⟩ := exists_max_degree g _ h
  exact luby_resolve_nonempty g _ hmax _ [] (Or.inr hv)

theorem luby_tentative_sub (accept : Nat → Nat → Bool) (g : Graph) (vs : List Nat) (rnd : Rand) :
    ∀ v ∈ luby_tentative accept g vs rnd, v ∈ vs := by
  intro v hv
  rcases luby_select_sub accept g vs rnd [] v hv with h | h
  · exact absurd h (List.not_mem_nil v)
  · exact h

theorem luby_resolve_sub (g : Graph) (initial : List Nat) (L : List Nat) :
    ∀ chosen : List Nat, ∀ c ∈ luby_resolve g initial L chosen, c ∈ chosen ∨ c ∈ L := by
  induction L with
  | nil => intro chosen c hc; exact Or.inl hc
  | cons v L ih =>
    intro chosen c hc
    rw [luby_resolve] at hc
    rcases ih _ c hc with h | h
    · split at h
      · rcases mem_set_insert.mp h with h1 | h1
        · right; rw [h1]; exact List.mem_cons_self _ _
        · left; exact h1
      · left; exact h
    · right; exact List.mem_cons_of_mem _ h

theorem luby_confirmed_sub (accept : Nat → Nat → Bool) (g : Graph) (vs : List Nat) (rnd : Rand) :
    ∀ v ∈ luby_confirmed accept g vs rnd, v ∈ luby_tentative accept g vs rnd := by
  intro v hv
  rcases luby_resolve_sub g _ _ [] v hv with h | h
  · exact absurd h (List.not_mem_nil v)
  · exact h

theorem luby_confirmed_spec {g : Graph} (wf : g.ActiveWF) (accept : Nat → Nat → Bool)
    {vs : List Nat} (hs : ∀ u, u ∈ vs ↔ g.is_active u = true) (rnd : Rand) :
    (luby_confirmed accept g vs rnd).Nodup ∧ Independent g (luby_confirmed accept g vs rnd) := by
  have hinit : ∀ v ∈ luby_tentative accept g vs rnd, g.is_active v = true :=
    fun v hv => (hs v).mp (luby_tentative_sub accept g vs rnd v hv)
  obtain ⟨_, c2, c3⟩ := luby_resolve_spec wf _ hinit (luby_tentative accept g vs rnd) []
    (fun _ h => absurd h (List.not_mem_nil _)) (fun _ h => h) List.nodup_nil
    (fun _ h => absurd h (List.not_mem_nil _))
  exact ⟨c2, c3⟩

/-! ### The commit phase -/

theorem luby_commit_state (chosen : List Nat) :
    ∀ (st : Graph × List Nat) (res res1 : List Nat),
      (luby_commit chosen st res).1 = (luby_commit chosen st res1).1 := by
  induction chosen with
  | nil => intro st res res1; rfl
  | cons v chosen ih =>
    intro st res res1
    rw [luby_commit, luby_commit]
    exact ih _ _ _

theorem luby_commit_result (chosen : List Nat) :
    ∀ (st : Graph × List Nat) (res : List Nat),
      (luby_commit chosen st res).2 = res ++ chosen := by
  induction chosen with
  | nil => intro st res; simp [luby_commit]
  | cons v chosen ih =>
    intro st res
    rw [luby_commit, ih]
    simp

theorem luby_commit_append (pre post : List Nat) :
    ∀ (st : Graph × List Nat) (res : List Nat),
      luby_commit (pre ++ post) st res =
        luby_commit post (luby_commit pre st res).1 (luby_commit pre st res).2 := by
  induction pre with
  | nil => intro st res; rfl
  | cons v pre ih =>
    intro st res
    rw [List.cons_append, luby_commit, luby_commit, ih]

theorem remove_all_len_act (g : Graph) (vs : List Nat) :
    (remove_all g vs).vertices_active.length = g.vertices_active.length := by
  induction vs generalizing g with
  | nil => rfl
  | cons v vs ih =>
    have := ih (g.remove_vertex v)
    simp only [remove_all, List.foldl_cons] at this ⊢
    rw [this, remove_vertex_len_act]

theorem luby_commit_num (chosen : List Nat) :
    ∀ (g : Graph) (vs res : List Nat),
      (luby_commit chosen (g, vs) res).1.1.num_vertices = g.num_vertices ∧
      (luby_commit chosen (g, vs) res).1.1.vertices_active.length = g.vertices_active.length := by
  induction chosen with
  | nil => intro g vs res; exact ⟨rfl, rfl⟩
  | cons v chosen ih =>
    intro g vs res
    rw [luby_commit]
    have h := ih (remove_closed (g, vs) v).1 (remove_closed (g, vs) v).2 (res ++ [v])
    have e1 : (remove_closed (g, vs) v).1.num_vertices = g.num_vertices := by
      rw [remove_closed_fst]; exact remove_all_num _ _
    have e2 : (remove_closed (g, vs) v).1.vertices_active.length = g.vertices_active.length := by
      rw [remove_closed_fst]; exact remove_all_len_act _ _
    rw [← e1, ← e2]
    exact h

theorem luby_commit_sync (chosen : List Nat) :
    ∀ (g : Graph) (vs res : List Nat), (∀ u, u ∈ vs ↔ g.is_active u = true) →
      ∀ u, u ∈ (luby_commit chosen (g, vs) res).1.2 ↔
        (luby_commit chosen (g, vs) res).1.1.is_active u = true := by
  induction chosen with
  | nil => intro g vs res hs; exact hs
  | cons v chosen ih =>
    intro g vs res hs
    rw [luby_commit]
    apply ih (remove_closed (g, vs) v).1 (remove_closed (g, vs) v).2 (res ++ [v])
    intro u
    rw [is_active_remove_closed, remove_closed_snd, mem_foldl_set_erase, hs]
    simp

theorem luby_commit_active (chosen : List Nat) :
    ∀ (g : Graph) (vs res : List Nat) (u : Nat),
      (luby_commit chosen (g, vs) res).1.1.is_active u = true →
        g.is_active u = true ∧ u ∉ chosen := by
  induction chosen with
  | nil => intro g vs res u h; exact ⟨h, List.not_mem_nil u⟩
  | cons v chosen ih =>
    intro g vs res u h
    rw [luby_commit] at h
    obtain ⟨h1, h2⟩ := ih (remove_closed (g, vs) v).1 (remove_closed (g, vs) v).2 (res ++ [v]) u h
    obtain ⟨h3, h4, _⟩ := (is_active_remove_closed g vs v u).mp h1
    refine ⟨h3, ?_⟩
    intro hm
    rcases List.mem_cons.mp hm with h5 | h5
    · exact h4 h5
    · exact h2 h5

theorem get_vertices_length_lt {g g1 : Graph} (hn : g1.num_vertices = g.num_vertices)
    (hl : g.vertices_active.length = g.num_vertices)
    (hsub : ∀ u, g1.is_active u = true → g.is_active u = true) {c : Nat}
    (hc : g.is_active c = true) (hc1 : g1.is_active c = false) :
    g1.get_vertices.length < g.get_vertices.length := by
  rw [get_vertices_eq, get_vertices_eq, hn]
  apply length_filter_lt_of_imp
  · intro x _ hx; exact hsub x hx
  · exact ⟨c, List.mem_range.mpr (is_active_lt hl hc), hc, hc1⟩

theorem luby_round_empty (accept : Nat → Nat → Bool) (g : Graph) (vs : List Nat) (rnd : Rand)
    (h : luby_tentative accept g vs rnd = []) : luby_round accept g vs rnd = (g, vs) := by
  unfold luby_round luby_confirmed
  rw [h]
  rfl

theorem luby_round_shrinks (accept : Nat → Nat → Bool) {g : Graph} {vs : List Nat}
    (hl : g.vertices_active.length = g.num_vertices)
    (hs : ∀ u, u ∈ vs ↔ g.is_active u = true) (rnd : Rand)
    (h : luby_tentative accept g vs rnd ≠ []) :
    (luby_round accept g vs rnd).1.get_vertices.length < g.get_vertices.length := by
  obtain ⟨c, hc⟩ := List.exists_mem_of_ne_nil _ (luby_confirmed_nonempty accept g vs rnd h)
  have hca : g.is_active c = true :=
    (hs c).mp (luby_tentative_sub accept g vs rnd c (luby_confirmed_sub accept g vs rnd c hc))
  apply get_vertices_length_lt (luby_commit_num _ g vs []).1 hl
    (fun u hu => (luby_commit_active _ g vs [] u hu).1) hca
  cases hx : (luby_round accept g vs rnd).1.is_active c with
  | false => exact hx
  | true => exact absurd hc (luby_commit_active _ g vs [] c hx).2

/-- The loop `luby_ind_set` runs rounds: one more unit of fuel on a non-empty
set `vertices` continues from the state after the round, with the confirmed
set appended to `result`. -/
theorem luby_loop_succ (accept : Nat → Nat → Bool) (fuel : Nat) (g : Graph) (vs : List Nat)
    (rnd : Rand) (res : List Nat) :
    luby_loop accept (fuel + 1) g vs rnd res =
      if vs.length > 0 then
        luby_loop accept fuel (luby_round accept g vs rnd).1 (luby_round accept g vs rnd).2
          (luby_select accept g vs rnd []).2 (res ++ luby_confirmed accept g vs rnd)
      else some (res, rnd) := by
  rw [luby_loop]
  split
  · simp only [luby_round, luby_confirmed, luby_tentative]
    rw [luby_commit_result, luby_commit_state _ _ res []]
  · rfl

theorem MISInv.of_sync {g : Graph} (wf : g.ActiveWF) {vs : List Nat}
    (hs : ∀ u, u ∈ vs ↔ g.is_active u = true) : MISInv g g vs [] where
  ind := Induced.refl wf
  verts := hs
  res_act := fun _ h => absurd h (List.not_mem_nil _)
  res_gone := fun _ h => absurd h (List.not_mem_nil _)
  indep := fun _ h => absurd h (List.not_mem_nil _)
  away := fun _ _ _ h => absurd h (List.not_mem_nil _)
  cover := fun _ h1 h2 => by rw [h1] at h2; exact Bool.noConfusion h2
  nodup := List.nodup_nil

theorem luby_round_wf {g : Graph} (wf : g.ActiveWF) (accept : Nat → Nat → Bool)
    {vs : List Nat} (hs : ∀ u, u ∈ vs ↔ g.is_active u = true) (rnd : Rand) :
    (luby_round accept g vs rnd).1.ActiveWF :=
  (luby_round_inv wf accept (MISInv.of_sync wf hs) rnd).ind.wf wf

/-! ## Progress and confirmed set of a round of `luby_ind_set` -/

/-- C21 (as stated, refuted): on the graph with the single edge 0-1, both
vertices active, when `rand()` returns `RAND_MAX` each time, the acceptance test
of the round fails for both vertices (degree 1, and 1.0 <= 0.5 is false), the
tentative set is empty, and the round leaves both vertices active: the number
of active vertices does not decrease. -/
theorem luby_round_no_progress :
    single_edge.is_active 0 = true ∧
    luby_tentative ratio_accept single_edge (active_set single_edge) (fun _ => 2147483647) = [] ∧
    ¬ ((luby_round ratio_accept single_edge (active_set single_edge)
        (fun _ => 2147483647)).1.get_vertices.length < single_edge.get_vertices.length) := by
  decide

/-- C21 (amended): in a state of the loop of `luby_ind_set` on a graph whose
active vertices have symmetric adjacency without self-loops (`vertices` lists
the active vertices), a round whose tentative set is non-empty strictly
decreases the number of active vertices, a round whose tentative set is empty
leaves graph and `vertices` as they are, and the state after a round is again
such a state. -/
theorem luby_round_decreases (accept : Nat → Nat → Bool) (g : Graph) (vs : List Nat)
    (rnd : Rand) (wf : g.ActiveWF) (hs : ∀ u, u ∈ vs ↔ g.is_active u = true) :
    (luby_tentative accept g vs rnd ≠ [] →
      (luby_round accept g vs rnd).1.get_vertices.length < g.get_vertices.length) ∧
    (luby_tentative accept g vs rnd = [] → luby_round accept g vs rnd = (g, vs)) ∧
    (luby_round accept g vs rnd).1.ActiveWF ∧
    (∀ u, u ∈ (luby_round accept g vs rnd).2 ↔
      (luby_round accept g vs rnd).1.is_active u = true) :=
  ⟨luby_round_shrinks accept wf.2.1 hs rnd, luby_round_empty accept g vs rnd,
    luby_round_wf wf accept hs rnd, luby_commit_sync _ g vs [] hs⟩

/-- Witness of the amended C21 on the triangle: `rand()` returns 0 each time,
every vertex is marked, vertex 0 is confirmed and the round removes all three
vertices. -/
theorem luby_round_decreases_witness :
    luby_tentative ratio_accept triangle (active_set triangle) (fun _ => 0) ≠ [] ∧
    (luby_round ratio_accept triangle (active_set triangle) (fun _ => 0)).1.get_vertices.length
      < triangle.get_vertices.length :=
  ⟨by decide, (luby_round_decreases ratio_accept triangle (active_set triangle) (fun _ => 0)
    (by decide) (mem_active_set (by decide))).1 (by decide)⟩

/-- C23: in a round of `luby_ind_set` that starts in a state of the loop on a
graph whose active vertices have symmetric adjacency without self-loops: a
non-empty tentative set gives a non-empty confirmed set; the confirmed set is
a duplicate-free part of the tentative set and pairwise non-adjacent; if the
round does not decrease the number of active vertices then the tentative set
is empty; and every active vertex of degree 0 is marked, confirmed and
inactive after the round. -/
theorem luby_round_confirmed (accept : Nat → Nat → Bool) (g : Graph) (vs : List Nat)
    (rnd : Rand) (wf : g.ActiveWF) (hs : ∀ u, u ∈ vs ↔ g.is_active u = true) :
    (luby_tentative accept g vs rnd ≠ [] → luby_confirmed accept g vs rnd ≠ []) ∧
    (∀ c ∈ luby_confirmed accept g vs rnd, c ∈ luby_tentative accept g vs rnd) ∧
    (luby_confirmed accept g vs rnd).Nodup ∧
    Independent g (luby_confirmed accept g vs rnd) ∧
    (¬ ((luby_round accept g vs rnd).1.get_vertices.length < g.get_vertices.length) →
      luby_tentative accept g vs rnd = []) ∧
    (∀ u, g.is_active u = true → g.get_degree u = 0 →
      u ∈ luby_tentative accept g vs rnd ∧ u ∈ luby_confirmed accept g vs rnd ∧
      (luby_round accept g vs rnd).1.is_active u = false) := by
  have hc := luby_confirmed_spec wf accept hs rnd
  refine ⟨luby_confirmed_nonempty accept g vs rnd, luby_confirmed_sub accept g vs rnd,
    hc.1, hc.2, ?_, ?_⟩
  · intro h
    by_contra hne
    exact h (luby_round_shrinks accept wf.2.1 hs rnd hne)
  · intro u hu hd
    have ht : u ∈ luby_tentative accept g vs rnd :=
      luby_select_isolated accept g vs rnd [] u ((hs u).mpr hu) hd
    have hnb : g.get_neighbors u = [] := List.length_eq_zero.mp hd
    have hcf : u ∈ luby_confirmed accept g vs rnd := by
      apply luby_resolve_keeps g _ _ [] u ht
      intro chosen1 _
      rw [hnb]
      rfl
    refine ⟨ht, hcf, ?_⟩
    cases hx : (luby_round accept g vs rnd).1.is_active u with
    | false => rfl
    | true => exact absurd hcf (luby_commit_active _ g vs [] u hx).2

/-- Witness of C23 on the graph with the edge 0-1 and the isolated vertex 2,
with `rand()` returning `RAND_MAX` each time: only vertex 2 is marked. -/
theorem luby_round_confirmed_witness :
    (Graph.of_edges 3 [(0, 1)]).ActiveWF ∧
    luby_tentative ratio_accept (Graph.of_edges 3 [(0, 1)])
      (active_set (Graph.of_edges 3 [(0, 1)])) (fun _ => 2147483647) = [2] ∧
    Independent (Graph.of_edges 3 [(0, 1)])
      (luby_confirmed ratio_accept (Graph.of_edges 3 [(0, 1)])
        (active_set (Graph.of_edges 3 [(0, 1)])) (fun _ => 2147483647)) :=
  ⟨by decide, by decide,
    (luby_round_confirmed ratio_accept (Graph.of_edges 3 [(0, 1)])
      (active_set (Graph.of_edges 3 [(0, 1)])) (fun _ => 2147483647) (by decide)
      (mem_active_set (by decide))).2.2.2.1⟩

/-! ## The reads of `get_neighbors` and `get_degree` go to active vertices -/

theorem min_degree_reads_active (fuel : Nat) :
    ∀ (g : Graph) (vs : List Nat) (rnd : Rand), g.SimpleActive →
      (∀ u, u ∈ vs ↔ g.is_active u = true) →
      ∀ p ∈ min_degree_reads fuel g vs rnd, p.2 = true := by
  induction fuel with
  | zero => intro g vs rnd _ _ p hp; rw [min_degree_reads] at hp; exact absurd hp (List.not_mem_nil p)
  | succ fuel ih =>
    intro g vs rnd hs hvs p hp
    rw [min_degree_reads] at hp
    split at hp
    · rename_i hlen
      have hne : vs ≠ [] := fun h => by rw [h] at hlen; exact absurd hlen (by decide)
      obtain ⟨_, b2, b3, b4, _, _⟩ := min_degree_body_spec hs hvs hne (rand rnd).1
      simp only at hp
      split at hp
      · exact absurd hp (List.not_mem_nil p)
      · rcases List.mem_cons.mp hp with h | h
        · rw [h]; exact b2
        · exact ih _ _ _ b3 b4 p h
    · exact absurd hp (List.not_mem_nil p)

theorem luby_select_reads_active {g : Graph} {vs : List Nat}
    (hvs : ∀ u ∈ vs, g.is_active u = true) :
    ∀ p ∈ luby_select_reads g vs, p.2 = true := by
  intro p hp
  unfold luby_select_reads at hp
  rw [List.mem_flatMap] at hp
  obtain ⟨v, hv, hpv⟩ := hp
  split at hpv
  · rw [List.mem_singleton.mp hpv]; exact hvs v hv
  · simp only [List.mem_cons, List.not_mem_nil, or_false, or_self] at hpv
    rw [hpv]; exact hvs v hv

theorem luby_conflict_reads_active (g : Graph) (initial chosen : List Nat) {v : Nat}
    (hv : g.is_active v = true) (L : List Nat) (hL : ∀ w ∈ L, g.is_active w = true) :
    ∀ p ∈ luby_conflict_reads g initial chosen v L, p.2 = true := by
  induction L with
  | nil => intro p hp; exact absurd hp (List.not_mem_nil p)
  | cons w L ih =>
    intro p hp
    have ih2 := ih (fun x hx => hL x (List.mem_cons_of_mem _ hx))
    rw [luby_conflict_reads] at hp
    split at hp
    · split at hp
      · exact absurd hp (List.not_mem_nil p)
      · rcases List.mem_cons.mp hp with h | h
        · rw [h]; exact hv
        · rcases List.mem_cons.mp h with h | h
          · rw [h]; exact hL w (List.mem_cons_self _ _)
          · split at h
            · exact absurd h (List.not_mem_nil p)
            · exact ih2 p h
    · exact ih2 p hp

theorem luby_resolve_reads_active {g : Graph} (wf : g.ActiveWF) (initial : List Nat)
    (L : List Nat) :
    ∀ chosen : List Nat, (∀ v ∈ L, g.is_active v = true) →
      ∀ p ∈ luby_resolve_reads g initial L chosen, p.2 = true := by
  induction L with
  | nil => intro chosen _ p hp; exact absurd hp (List.not_mem_nil p)
  | cons v L ih =>
    intro chosen hL p hp
    have hv : g.is_active v = true := hL v (List.mem_cons_self _ _)
    rw [luby_resolve_reads] at hp
    rcases List.mem_cons.mp hp with h | h
    · rw [h]; exact hv
    · rcases List.mem_append.mp h with h | h
      · exact luby_conflict_reads_active g initial chosen hv _
          (fun w hw => wf.closed hv hw) p h
      · exact ih _ (fun x hx => hL x (List.mem_cons_of_mem _ hx)) p h

theorem luby_commit_reads_active (chosen : List Nat) :
    ∀ (g : Graph) (vs : List Nat), g.ActiveWF → (∀ v ∈ chosen, g.is_active v = true) →
      chosen.Nodup → Independent g chosen →
      ∀ p ∈ luby_commit_reads chosen (g, vs), p.2 = true := by
  induction chosen with
  | nil => intro g vs _ _ _ _ p hp; exact absurd hp (List.not_mem_nil p)
  | cons v chosen ih =>
    intro g vs wf hact hnd hind p hp
    rw [luby_commit_reads] at hp
    have hv : g.is_active v = true := hact v (List.mem_cons_self _ _)
    have hnd2 := List.nodup_cons.mp hnd
    rcases List.mem_cons.mp hp with h | h
    · rw [h]; exact hv
    · have ind : Induced g (remove_closed (g, vs) v).1 := by
        rw [remove_closed_fst]; exact (Induced.refl wf).remove_all wf _
      have hact2 : ∀ a ∈ chosen, (remove_closed (g, vs) v).1.is_active a = true := by
        intro a ha
        rw [is_active_remove_closed]
        refine ⟨hact a (List.mem_cons_of_mem _ ha), ?_, ?_⟩
        · rintro rfl; exact hnd2.1 ha
        · exact hind v (List.mem_cons_self _ _) a (List.mem_cons_of_mem _ ha)
      refine ih (remove_closed (g, vs) v).1 (remove_closed (g, vs) v).2 (ind.wf wf) hact2 hnd2.2
        ?_ p h
      intro a ha b hb hab
      exact hind a (List.mem_cons_of_mem _ ha) b (List.mem_cons_of_mem _ hb)
        ((ind.nb a (hact2 a ha) b).mp hab).1

theorem luby_reads_active (accept : Nat → Nat → Bool) (fuel : Nat) :
    ∀ (g : Graph) (vs : List Nat) (rnd : Rand), g.ActiveWF →
      (∀ u, u ∈ vs ↔ g.is_active u = true) →
      ∀ p ∈ luby_reads accept fuel g vs rnd, p.2 = true := by
  induction fuel with
  | zero => intro g vs rnd _ _ p hp; rw [luby_reads] at hp; exact absurd hp (List.not_mem_nil p)
  | succ fuel ih =>
    intro g vs rnd wf hs p hp
    rw [luby_reads] at hp
    split at hp
    · simp only at hp
      have htent : ∀ v ∈ luby_tentative accept g vs rnd, g.is_active v = true :=
        fun v hv => (hs v).mp (luby_tentative_sub accept g vs rnd v hv)
      have hc := luby_confirmed_spec wf accept hs rnd
      rcases List.mem_append.mp hp with h | h
      · exact luby_select_reads_active (fun u hu => (hs u).mp hu) p h
      · rcases List.mem_append.mp h with h | h
        · exact luby_resolve_reads_active wf _ _ [] htent p h
        · rcases List.mem_append.mp h with h | h
          · exact luby_commit_reads_active _ g vs wf
              (fun v hv => htent v (luby_confirmed_sub accept g vs rnd v hv)) hc.1 hc.2 p h
          · exact ih _ _ _ (luby_round_wf wf accept hs rnd)
              (luby_commit_sync _ g vs [] hs) p h
    · exact absurd hp (List.not_mem_nil p)

theorem component_reads_active {g0 : Graph} (wf : g0.ActiveWF) (push : List Nat → Nat → List Nat)
    (fuel : Nat) :
    ∀ (t : Traversal) (stack : List Nat), TravInv g0 t →
      ∀ p ∈ component_reads push fuel t stack, p.2 = true := by
  induction fuel with
  | zero =>
    intro t stack _ p hp
    cases stack with
    | nil => rw [component_reads] at hp; exact absurd hp (List.not_mem_nil p)
    | cons v rest => rw [component_reads] at hp; exact absurd hp (List.not_mem_nil p)
  | succ fuel ih =>
    intro t stack inv p hp
    cases stack with
    | nil => rw [component_reads] at hp; exact absurd hp (List.not_mem_nil p)
    | cons v rest =>
      rw [component_reads] at hp
      split at hp
      · rename_i hv
        rcases List.mem_cons.mp hp with h | h
        · rw [h]; exact inv.nv_act v hv
        · exact ih _ _ (inv.visit wf hv) p h
      · exact ih _ _ inv p hp

theorem traversal_reads_active {g0 : Graph} (wf : g0.ActiveWF) (push : List Nat → Nat → List Nat)
    (ifuel fuel : Nat) :
    ∀ (t : Traversal) (rnd : Rand), TravInv g0 t →
      ∀ p ∈ traversal_reads push ifuel fuel t rnd, p.2 = true := by
  induction fuel with
  | zero => intro t rnd _ p hp; rw [traversal_reads] at hp; exact absurd hp (List.not_mem_nil p)
  | succ fuel ih =>
    intro t rnd inv p hp
    rw [traversal_reads] at hp
    split at hp
    · exact absurd hp (List.not_mem_nil p)
    · simp only at hp
      rcases List.mem_append.mp hp with h | h
      · exact component_reads_active wf push ifuel _ _ inv p h
      · split at h
        · exact absurd h (List.not_mem_nil p)
        · rename_i t1 hc
          exact ih _ _ (component_loop_sound wf push ifuel _ _ t1 inv hc) p h

/-- The commit loop reads the neighbour set of each confirmed vertex once, in order. -/
theorem luby_commit_reads_fst (chosen : List Nat) :
    ∀ st : Graph × List Nat, (luby_commit_reads chosen st).map Prod.fst = chosen := by
  induction chosen with
  | nil => intro st; rfl
  | cons v chosen ih =>
    intro st
    rw [luby_commit_reads, List.map_cons, ih]

/-- When the loop of `min_degree_ind_set` returns, the vertices appended to `result` are the
arguments of its reads, in order. -/
theorem min_degree_reads_fst (fuel : Nat) :
    ∀ (g : Graph) (vs : List Nat) (rnd : Rand) (res out : List Nat) (rnd1 : Rand),
      min_degree_loop fuel g vs rnd res = some (out, rnd1) →
      out = res ++ (min_degree_reads fuel g vs rnd).map Prod.fst := by
  induction fuel with
  | zero =>
    intro g vs rnd res out rnd1 h
    rw [min_degree_loop] at h
    split at h
    · exact Option.noConfusion h
    · simp only [Option.some.injEq, Prod.mk.injEq] at h
      rw [min_degree_reads, ← h.1]
      simp
  | succ fuel ih =>
    intro g vs rnd res out rnd1 h
    rw [min_degree_loop] at h
    rw [min_degree_reads]
    split at h
    · rename_i hlen
      rw [if_pos hlen]
      simp only at h ⊢
      split at h
      · exact Option.noConfusion h
      · rename_i hz
        rw [if_neg hz, ih _ _ _ _ out rnd1 h]
        simp
    · rename_i hlen
      rw [if_neg hlen]
      simp only [Option.some.injEq, Prod.mk.injEq] at h
      rw [← h.1]
      simp

/-- C22: on a graph whose active vertices have symmetric adjacency without
self-loops, for every amount of fuel (so at every moment of a run, finished or
not), every generator state, seed and acceptance test, each call of
`get_neighbors` or `get_degree` made by `min_degree_ind_set` and by
`luby_ind_set` (selection, conflict resolution and commit included) has an
argument that is active in the graph at the moment of the call; when moreover
all vertices are active the same holds for `greedy_dfs_bipartite` and
`greedy_bfs_bipartite`. -/
theorem heuristics_read_active_vertices (srand : Nat → Rand) (accept : Nat → Nat → Bool)
    (g : Graph) (wf : g.ActiveWF) :
    (∀ (fuel : Nat) (rnd : Rand), ∀ p ∈ min_degree_ind_set_reads fuel g rnd, p.2 = true) ∧
    (∀ (fuel : Nat) (rnd : Rand), ∀ p ∈ luby_ind_set_reads accept fuel g rnd, p.2 = true) ∧
    (g.AllActive → ∀ (fuel seed : Nat),
      (∀ p ∈ greedy_dfs_reads srand fuel g seed, p.2 = true) ∧
      (∀ p ∈ greedy_bfs_reads srand fuel g seed, p.2 = true)) := by
  refine ⟨?_, ?_, ?_⟩
  · intro fuel rnd
    exact min_degree_reads_active fuel g _ rnd wf.simple (mem_active_set wf.2.1)
  · intro fuel rnd
    exact luby_reads_active accept fuel g _ rnd wf (mem_active_set wf.2.1)
  · intro hall fuel seed
    exact ⟨traversal_reads_active wf stack_push fuel fuel _ _ (TravInv.at_start wf hall),
      traversal_reads_active wf queue_push fuel fuel _ _ (TravInv.at_start wf hall)⟩

/-- Witness of C22 on the triangle: the reads of the four heuristics with fuel 3. -/
theorem heuristics_read_active_vertices_witness :
    triangle.ActiveWF ∧
    min_degree_ind_set_reads 3 triangle (fun _ => 0) = [(0, true)] ∧
    luby_ind_set_reads ratio_accept 3 triangle (fun _ => 0)
      = [(0, true), (0, true), (1, true), (1, true), (2, true), (2, true),
         (0, true), (0, true), (1, true), (0, true), (2, true),
         (1, true), (2, true), (0, true)] ∧
    greedy_dfs_reads demo_srand 3 triangle 0 = [(0, true), (2, true), (1, true)] ∧
    (∀ p ∈ luby_ind_set_reads ratio_accept 3 triangle (fun _ => 0), p.2 = true) :=
  ⟨by decide, by decide, by decide, by decide,
    (heuristics_read_active_vertices demo_srand ratio_accept triangle (by decide)).2.1 3
      (fun _ => 0)⟩

/-! ## The traversals on bipartite graphs -/

theorem mem_pushes (push : List Nat → Nat → List Nat)
    (hpush : ∀ vs n x, x ∈ push vs n ↔ x = n ∨ x ∈ vs) (nv : List Nat) (L : List Nat) :
    ∀ (rest : List Nat) (x : Nat),
      x ∈ L.foldl (fun vs n => if n ∈ nv then push vs n else vs) rest ↔
        x ∈ rest ∨ (x ∈ L ∧ x ∈ nv) := by
  induction L with
  | nil => intro rest x; simp
  | cons a L ih =>
    intro rest x
    rw [List.foldl_cons, ih]
    by_cases ha : a ∈ nv
    · rw [if_pos ha, hpush]
      simp only [List.mem_cons]
      constructor
      · rintro ((h | h) | h)
        · right; rw [h]; exact ⟨Or.inl rfl, ha⟩
        · left; exact h
        · right; exact ⟨Or.inr h.1, h.2⟩
      · rintro (h | ⟨h | h, h2⟩)
        · left; right; exact h
        · left; left; exact h
        · right; exact ⟨h, h2⟩
    · rw [if_neg ha]
      simp only [List.mem_cons]
      constructor
      · rintro (h | h)
        · left; exact h
        · right; exact ⟨Or.inr h.1, h.2⟩
      · rintro (h | ⟨h | h, h2⟩)
        · left; exact h
        · rw [h] at h2; exact absurd h2 ha
        · right; exact ⟨h, h2⟩

theorem bool_flip_iff {sv sb fv fb : Bool} (h1 : sv ≠ sb) (h2 : fv = fb) :
    (sb = fb ↔ sv ≠ fv) := by
  cases sv <;> cases sb <;> cases fv <;> cases fb <;> simp_all

/-- The visit of an unvisited vertex with a visited neighbour, in a bipartite graph:
the vertex gets a colour and the invariant holds afterwards. -/
theorem BipInv.visit_attached {g : Graph} (wf : g.ActiveWF)
    {side : Nat → Bool} (hside : g.TwoSided side) {t : Traversal} (inv : BipInv g side t)
    {v : Nat} (hv : v ∈ t.not_visited) (ha : ∃ a ∈ g.get_neighbors v, a ∉ t.not_visited) :
    BipInv g side { graph := (color_vertex t.graph t.colors v).1,
                    colors := (color_vertex t.graph t.colors v).2,
                    not_visited := set_erase t.not_visited v } := by
  have htr := inv.trav.visit wf hv
  obtain ⟨flip, hf, hc⟩ := inv.flip
  have hsame := inv.same
  have hva : g.is_active v = true := by rw [← hsame]; exact inv.trav.nv_act v hv
  have hvn : v < g.num_vertices := wf.vertex_lt hva
  have key : ∀ b ∈ g.get_neighbors v, t.colors b ≠ 0 → (t.colors b = 1 ↔ side v ≠ flip v) := by
    intro b hb hb0
    rw [hc b hb0]
    exact bool_flip_iff (hside v hvn b hb) (hf v hvn b hb)
  obtain ⟨a, han, hanv⟩ := ha
  have ha0 : t.colors a ≠ 0 :=
    inv.trav.act_col a (by rw [hsame]; exact wf.closed hva han) hanv
  have hv0 : t.colors v = 0 := inv.trav.nv_col v hv
  have hcases := color_vertex_cases t.graph t.colors v
  rw [hsame] at hcases
  rcases hcases with ⟨h1, e⟩ | ⟨⟨n, hn, hn1⟩, _, e⟩ | ⟨⟨n1, hn1, hc1⟩, ⟨n2, hn2, hc2⟩, _⟩
  · have hsv : side v = flip v := by
      by_contra hne
      exact h1 a han ((key a han ha0).mpr hne)
    refine ⟨htr, by simp only [hsame, e], flip, hf, ?_⟩
    intro u hu
    simp only [hsame, e, set_color] at hu ⊢
    by_cases huv : u = v
    · simp only [huv, if_true, true_iff]; exact hsv
    · simp only [huv, if_false] at hu ⊢; exact hc u hu
  · have hsv : side v ≠ flip v := (key n hn (by rw [hn1]; decide)).mp hn1
    refine ⟨htr, by simp only [hsame, e], flip, hf, ?_⟩
    intro u hu
    simp only [hsame, e, set_color] at hu ⊢
    by_cases huv : u = v
    · simp only [huv, if_true]
      constructor
      · intro h; exact absurd h (by decide)
      · intro h; exact absurd h hsv
    · simp only [huv, if_false] at hu ⊢; exact hc u hu
  · exfalso
    have hsv : side v ≠ flip v := (key n1 hn1 (by rw [hc1]; decide)).mp hc1
    have := (key n2 hn2 (by rw [hc2]; decide)).mpr hsv
    rw [hc2] at this
    exact absurd this (by decide)

/-- The visit of a root in a bipartite graph: when no edge joins a visited and an
unvisited vertex, the root gets colour 1 and the invariant holds afterwards,
with the swap of the unvisited part chosen to fit the root. -/
theorem BipInv.visit_root {g : Graph} (wf : g.ActiveWF) (hall : g.AllActive)
    {side : Nat → Bool} {t : Traversal} (inv : BipInv g side t)
    (hcl : ∀ u, u < g.num_vertices → u ∉ t.not_visited →
      ∀ w ∈ g.get_neighbors u, w ∉ t.not_visited)
    {v : Nat} (hv : v ∈ t.not_visited) :
    BipInv g side { graph := (color_vertex t.graph t.colors v).1,
                    colors := (color_vertex t.graph t.colors v).2,
                    not_visited := set_erase t.not_visited v } := by
  have htr := inv.trav.visit wf hv
  obtain ⟨flip, hf, hc⟩ := inv.flip
  have hsame := inv.same
  have hva : g.is_active v = true := by rw [← hsame]; exact inv.trav.nv_act v hv
  have hvn : v < g.num_vertices := wf.vertex_lt hva
  have hnone : ∀ b ∈ g.get_neighbors v, t.colors b = 0 := by
    intro b hb
    by_contra hb0
    have hbnv : b ∉ t.not_visited := fun h => hb0 (inv.trav.nv_col b h)
    have hba : g.is_active b = true := wf.closed hva hb
    exact hcl b (wf.vertex_lt hba) hbnv v (wf.adj_symm hva hb) hv
  have hcases := color_vertex_cases t.graph t.colors v
  rw [hsame] at hcases
  have e : color_vertex g t.colors v = (g, set_color t.colors v 1) := by
    rcases hcases with ⟨_, e⟩ | ⟨⟨n, hn, hn1⟩, _, _⟩ | ⟨⟨n, hn, hn1⟩, _, _⟩
    · exact e
    · rw [hnone n hn] at hn1; exact absurd hn1 (by decide)
    · rw [hnone n hn] at hn1; exact absurd hn1 (by decide)
  refine ⟨htr, by simp only [hsame, e],
    fun u => if u ∈ t.not_visited then side v else flip u, ?_, ?_⟩
  · intro u hu w hw
    have hua : g.is_active u = true := hall u hu
    have hwa : g.is_active w = true := wf.closed hua hw
    by_cases h1 : u ∈ t.not_visited
    · by_cases h2 : w ∈ t.not_visited
      · simp only [h1, h2, if_true]
      · exact absurd h1 (hcl w (wf.vertex_lt hwa) h2 u (wf.adj_symm hua hw))
    · by_cases h2 : w ∈ t.not_visited
      · exact absurd h2 (hcl u hu h1 w hw)
      · simp only [h1, h2, if_false]
        exact hf u hu w hw
  · intro u hu
    simp only [hsame, e, set_color] at hu ⊢
    by_cases huv : u = v
    · simp only [huv, if_true, hv]
    · simp only [huv, if_false] at hu ⊢
      have hunv : u ∉ t.not_visited := fun h => hu (inv.trav.nv_col u h)
      simp only [hunv, if_false]
      exact hc u hu

/-- The container after the visit of `v`. -/
theorem BipStack.after_visit {g : Graph} (wf : g.ActiveWF) (hall : g.AllActive)
    (push : List Nat → Nat → List Nat) (hpush : ∀ vs n x, x ∈ push vs n ↔ x = n ∨ x ∈ vs)
    {nv : List Nat} {v : Nat} {rest : List Nat} (hvn : v < g.num_vertices)
    (hcl : ∀ u, u < g.num_vertices → u ∉ nv → ∀ w ∈ g.get_neighbors u, w ∈ nv → w ∈ v :: rest)
    (hat : ∀ s ∈ rest, s ∈ nv → ∃ a ∈ g.get_neighbors s, a ∉ nv)
    (gr : Graph) (colors : Colors) :
    BipStack g { graph := gr, colors := colors, not_visited := set_erase nv v }
      ((g.get_neighbors v).foldl
        (fun vs n => if n ∈ set_erase nv v then push vs n else vs) rest) := by
  have hva : g.is_active v = true := hall v hvn
  constructor
  · intro u hu hunv w hw hwnv
    simp only at hunv hwnv
    rw [mem_pushes push hpush]
    obtain ⟨hw1, hw2⟩ := mem_set_erase.mp hwnv
    by_cases h : u ∈ nv
    · have huv : u = v := by
        by_contra hne
        exact hunv (mem_set_erase.mpr ⟨h, hne⟩)
      rw [huv] at hw
      exact Or.inr ⟨hw, hwnv⟩
    · rcases List.mem_cons.mp (hcl u hu h w hw hw1) with h1 | h1
      · exact absurd h1 hw2
      · exact Or.inl h1
  · intro s hs hsnv
    simp only at hsnv
    rw [mem_pushes push hpush] at hs
    obtain ⟨hs1, _⟩ := mem_set_erase.mp hsnv
    rcases hs with h | ⟨h, _⟩
    · obtain ⟨a, ha, hanv⟩ := hat s h hs1
      exact ⟨a, ha, fun h2 => hanv (mem_set_erase.mp h2).1⟩
    · exact ⟨v, wf.adj_symm hva h, fun h2 => (mem_set_erase.mp h2).2 rfl⟩

theorem component_loop_bipartite {g : Graph} (wf : g.ActiveWF) (hall : g.AllActive)
    {side : Nat → Bool} (hside : g.TwoSided side) (push : List Nat → Nat → List Nat)
    (hpush : ∀ vs n x, x ∈ push vs n ↔ x = n ∨ x ∈ vs) (fuel : Nat) :
    ∀ (t : Traversal) (stack : List Nat) (t2 : Traversal), BipInv g side t →
      BipStack g t stack → component_loop push fuel t stack = some t2 →
      BipInv g side t2 ∧ BipStack g t2 [] := by
  induction fuel with
  | zero =>
    intro t stack t2 inv st h
    cases stack with
    | nil =>
      rw [component_loop_nil] at h
      simp only [Option.some.injEq] at h
      rw [← h]; exact ⟨inv, st⟩
    | cons v rest => rw [component_loop] at h; exact Option.noConfusion h
  | succ fuel ih =>
    intro t stack t2 inv st h
    cases stack with
    | nil =>
      rw [component_loop_nil] at h
      simp only [Option.some.injEq] at h
      rw [← h]; exact ⟨inv, st⟩
    | cons v rest =>
      rw [component_loop] at h
      split at h
      · rename_i hv
        have hva : g.is_active v = true := by rw [← inv.same]; exact inv.trav.nv_act v hv
        have inv2 := inv.visit_attached wf hside hv (st.attached v (List.mem_cons_self _ _) hv)
        have st2 := BipStack.after_visit wf hall push hpush (wf.vertex_lt hva) st.closed
          (fun s hs => st.attached s (List.mem_cons_of_mem _ hs))
          (color_vertex t.graph t.colors v).1 (color_vertex t.graph t.colors v).2
        simp only [inv.same] at h
        exact ih _ _ t2 (by simpa only [inv.same] using inv2) (by simpa only [inv.same] using st2) h
      · rename_i hv
        refine ih _ _ t2 inv ⟨?_, ?_⟩ h
        · intro u hu hunv w hw hwnv
          rcases List.mem_cons.mp (st.closed u hu hunv w hw hwnv) with h1 | h1
          · rw [h1] at hwnv; exact absurd hwnv hv
          · exact h1
        · intro s hs hsnv
          exact st.attached s (List.mem_cons_of_mem _ hs) hsnv

theorem traversal_loop_bipartite {g : Graph} (wf : g.ActiveWF) (hall : g.AllActive)
    {side : Nat → Bool} (hside : g.TwoSided side) (push : List Nat → Nat → List Nat)
    (hpush : ∀ vs n x, x ∈ push vs n ↔ x = n ∨ x ∈ vs) (hpush0 : ∀ r, push [] r = [r])
    (ifuel fuel : Nat) :
    ∀ (t : Traversal) (rnd : Rand) (t2 : Traversal) (rnd2 : Rand), BipInv g side t →
      BipStack g t [] → traversal_loop push ifuel fuel t rnd = some (t2, rnd2) →
      BipInv g side t2 := by
  induction fuel with
  | zero =>
    intro t rnd t2 rnd2 inv st h
    rw [traversal_loop] at h
    split at h
    · simp only [Option.some.injEq, Prod.mk.injEq] at h
      rw [← h.1]; exact inv
    · exact Option.noConfusion h
  | succ fuel ih =>
    intro t rnd t2 rnd2 inv st h
    rw [traversal_loop] at h
    split at h
    · simp only [Option.some.injEq, Prod.mk.injEq] at h
      rw [← h.1]; exact inv
    · rename_i hz
      simp only at h
      split at h
      · exact Option.noConfusion h
      · rename_i t1 hc
        have hlen : 0 < t.not_visited.length := Nat.pos_of_ne_zero hz
        have hroot : t.not_visited.getD ((rand rnd).1 % t.not_visited.length) 0 ∈ t.not_visited :=
          getD_mem_of_lt (Nat.mod_lt _ hlen)
        rw [hpush0] at hc
        have hcl : ∀ u, u < g.num_vertices → u ∉ t.not_visited →
            ∀ w ∈ g.get_neighbors u, w ∉ t.not_visited := by
          intro u hu hunv w hw hwnv
          exact absurd (st.closed u hu hunv w hw hwnv) (List.not_mem_nil w)
        have hra : g.is_active (t.not_visited.getD ((rand rnd).1 % t.not_visited.length) 0)
            = true := by
          rw [← inv.same]; exact inv.trav.nv_act _ hroot
        cases ifuel with
        | zero => rw [component_loop] at hc; exact Option.noConfusion hc
        | succ ifuel =>
          rw [component_loop, if_pos hroot] at hc
          have inv2 := inv.visit_root wf hall hcl hroot
          have st2 := BipStack.after_visit wf hall push hpush (wf.vertex_lt hra)
            (fun u hu hunv w hw hwnv => absurd hwnv (hcl u hu hunv w hw))
            (fun s hs => absurd hs (List.not_mem_nil s))
            (color_vertex t.graph t.colors
              (t.not_visited.getD ((rand rnd).1 % t.not_visited.length) 0)).1
            (color_vertex t.graph t.colors
              (t.not_visited.getD ((rand rnd).1 % t.not_visited.length) 0)).2
          simp only [inv.same] at hc
          obtain ⟨inv3, st3⟩ := component_loop_bipartite wf hall hside push hpush ifuel _ _ t1
            (by simpa only [inv.same] using inv2) (by simpa only [inv.same] using st2) hc
          exact ih _ _ t2 rnd2 inv3 st3 h

theorem BipInv.on_init {g : Graph} (wf : g.ActiveWF) (hall : g.AllActive) (side : Nat → Bool) :
    BipInv g side (traversal_init g) ∧ BipStack g (traversal_init g) [] := by
  have hmem : ∀ v, v ∈ (traversal_init g).not_visited ↔ v < g.num_vertices := by
    intro v
    unfold traversal_init
    simp only [mem_foldl_set_insert, List.not_mem_nil, false_or, List.mem_range, get_num_vertices]
  refine ⟨⟨TravInv.at_start wf hall, rfl, fun _ => true, fun _ _ _ _ => rfl, ?_⟩, ?_, ?_⟩
  · intro u hu; exact absurd rfl hu
  · intro u hu hunv; exact absurd ((hmem u).mpr hu) hunv
  · intro s hs; exact absurd hs (List.not_mem_nil s)

/-- On a bipartite graph a traversal that returns has removed nothing and
returns every vertex id in ascending order. -/
theorem traversal_bipartite {g : Graph} (wf : g.ActiveWF) (hall : g.AllActive)
    {side : Nat → Bool} (hside : g.TwoSided side) (push : List Nat → Nat → List Nat)
    (hpush : ∀ vs n x, x ∈ push vs n ↔ x = n ∨ x ∈ vs) (hpush0 : ∀ r, push [] r = [r])
    (ifuel fuel : Nat) (rnd : Rand) (t : Traversal) (rnd1 : Rand)
    (h : traversal_loop push ifuel fuel (traversal_init g) rnd = some (t, rnd1)) :
    t.graph = g ∧ t.graph.get_vertices = List.range g.num_vertices := by
  obtain ⟨i0, s0⟩ := BipInv.on_init wf hall side
  have hI := traversal_loop_bipartite wf hall hside push hpush hpush0 ifuel fuel _ rnd t rnd1
    i0 s0 h
  refine ⟨hI.same, ?_⟩
  rw [hI.same, get_vertices_eq, List.filter_eq_self]
  intro a ha
  exact hall a (List.mem_range.mp ha)

theorem stack_push_iff (vs : List Nat) (n x : Nat) : x ∈ stack_push vs n ↔ x = n ∨ x ∈ vs := by
  simp [stack_push]

theorem queue_push_iff (vs : List Nat) (n x : Nat) : x ∈ queue_push vs n ↔ x = n ∨ x ∈ vs := by
  simp [queue_push]
  tauto

/-- C24: on a bipartite graph (every neighbour of a vertex lies on the other
side of `side`) with symmetric adjacency, no self-loops and all vertices
active, connected or not, for every seed and generator, `greedy_dfs_bipartite`
and `greedy_bfs_bipartite` return once the fuel reaches some bound, the private
copy is then still the input graph (no vertex was evicted) and the value
returned is the list of all vertex ids 0..n-1 in ascending order; and for
every amount of fuel a value that is returned is that list. -/
theorem greedy_traversals_keep_bipartite (srand : Nat → Rand) (g : Graph) (side : Nat → Bool)
    (wf : g.ActiveWF) (hall : g.AllActive) (hside : g.TwoSided side) (seed : Nat)
    (prior : Rand) :
    (∃ F, ∀ fuel, F ≤ fuel →
      (greedy_dfs_run srand fuel g seed prior).map (fun r => r.1.graph) = some g ∧
      (greedy_dfs_bipartite srand fuel g seed prior).map Prod.fst
        = some (List.range g.num_vertices) ∧
      (greedy_bfs_run srand fuel g seed prior).map (fun r => r.1.graph) = some g ∧
      (greedy_bfs_bipartite srand fuel g seed prior).map Prod.fst
        = some (List.range g.num_vertices)) ∧
    (∀ fuel r, (greedy_dfs_bipartite srand fuel g seed prior).map Prod.fst = some r →
      r = List.range g.num_vertices) ∧
    (∀ fuel r, (greedy_bfs_bipartite srand fuel g seed prior).map Prod.fst = some r →
      r = List.range g.num_vertices) := by
  have hd := fun ifuel fuel rnd t rnd1 =>
    traversal_bipartite wf hall hside stack_push stack_push_iff (fun _ => rfl) ifuel fuel rnd t rnd1
  have hb := fun ifuel fuel rnd t rnd1 =>
    traversal_bipartite wf hall hside queue_push queue_push_iff (fun _ => rfl) ifuel fuel rnd t rnd1
  refine ⟨?_, ?_, ?_⟩
  · obtain ⟨F1, t1, r1, h1, _⟩ := traversal_total wf hall stack_push stack_push_mem (srand seed)
    obtain ⟨F2, t2, r2, h2, _⟩ := traversal_total wf hall queue_push queue_push_mem (srand seed)
    refine ⟨max F1 F2, fun fuel hf => ?_⟩
    have e1 := h1 fuel (le_trans (le_max_left _ _) hf)
    have e2 := h2 fuel (le_trans (le_max_right _ _) hf)
    obtain ⟨a1, b1⟩ := hd fuel fuel _ t1 r1 e1
    obtain ⟨a2, b2⟩ := hb fuel fuel _ t2 r2 e2
    refine ⟨?_, ?_, ?_, ?_⟩
    · simp only [greedy_dfs_run, e1, Option.map_some', a1]
    · simp only [greedy_dfs_bipartite, greedy_dfs_run, e1, Option.map_some', b1]
    · simp only [greedy_bfs_run, e2, Option.map_some', a2]
    · simp only [greedy_bfs_bipartite, greedy_bfs_run, e2, Option.map_some', b2]
  · intro fuel r h
    obtain ⟨rnd1, e⟩ := map_fst_eq_some h
    unfold greedy_dfs_bipartite greedy_dfs_run at e
    rw [Option.map_eq_some'] at e
    obtain ⟨⟨t, rnd2⟩, e1, e2⟩ := e
    simp only [Prod.mk.injEq] at e2
    rw [← e2.1]
    exact (hd fuel fuel _ t rnd2 e1).2
  · intro fuel r h
    obtain ⟨rnd1, e⟩ := map_fst_eq_some h
    unfold greedy_bfs_bipartite greedy_bfs_run at e
    rw [Option.map_eq_some'] at e
    obtain ⟨⟨t, rnd2⟩, e1, e2⟩ := e
    simp only [Prod.mk.injEq] at e2
    rw [← e2.1]
    exact (hb fuel fuel _ t rnd2 e1).2

/-- Witness of C24 on the path 0-1-2 together with the separate edge 3-4, the
sides being the parities of the ids: with fuel 5 both traversals return all
five vertices. -/
theorem greedy_traversals_keep_bipartite_witness :
    path_and_edge.ActiveWF ∧ path_and_edge.AllActive ∧
    path_and_edge.TwoSided (fun u => decide (u % 2 = 1)) ∧
    (greedy_dfs_bipartite demo_srand 5 path_and_edge 0 (fun _ => 0)).map Prod.fst
      = some [0, 1, 2, 3, 4] ∧
    (greedy_bfs_bipartite demo_srand 5 path_and_edge 0 (fun _ => 0)).map Prod.fst
      = some [0, 1, 2, 3, 4] ∧
    ∀ fuel r, (greedy_dfs_bipartite demo_srand fuel path_and_edge 0 (fun _ => 0)).map Prod.fst
      = some r → r = List.range path_and_edge.num_vertices :=
  ⟨by decide, by decide, by decide, by decide, by decide,
    (greedy_traversals_keep_bipartite demo_srand path_and_edge (fun u => decide (u % 2 = 1))
      (by decide) (by decide) (by decide) 0 (fun _ => 0)).2.1⟩

end OCT
